import Mathlib

/-!
# The remote console of `core/base/CCConsole.cpp`

A shallow embedding of the console server: its string utilities, the two
socket read primitives, the command registry, the dispatcher, the upload
sub-protocol, the log queue, the rounds of the event loop and the start and
stop of its thread, followed by the properties proved about them.

Conventions of the embedding.

* A `std::string` / `char` buffer is a `List Char`; one `Char` stands for one
  byte.  A C string read from a buffer stops at the first NUL (`cstr`).
* A `char*` is the list of cells from the pointer on; a store through the
  pointer is `List.set`.
* A socket is the script of the outcomes of the successive `recv(fd, &c, 1, 0)`
  calls made on it (`Recv`).  When the script is used up the peer has closed:
  every further `recv` reports 0.
* Everything the server does to the outside (a `send`, a `close`, a file
  opened or written, a host handler invoked) is appended to a trace of
  `Event`s.  Diagnostics printed with `fprintf(stderr, ..)` or `axis::log(..)`
  (which only prints: `AX_LOG_MULTITHREAD` is 1, so it does not call
  `Console::log`) are not traffic and are not recorded.
* Owned `Command*` entries of the registry are command values; the pointer
  level (allocation, `delete`, deep copy) is modelled separately in `Mem`.
* What the operating system decides in a round of the event loop (`select`,
  `accept`, `ioctl`, `try_lock`) is given to the round as a `Ready` record.
* `List.set` ignores a store outside the list; where the bounds of a buffer
  are the question, the loops are given again with every store checked
  (`store`), and shown to agree with the unchecked ones.
* The member `std::thread _thread` is kept next to the console as the flag
  `Host.joinable`; a call that ends in `std::terminate` has no result.
-/

namespace Axmol

/-- A byte string (`std::string`, `std::string_view`, `char[]`). -/
abbrev Str := List Char

/-- The NUL character. -/
def NUL : Char := Char.ofNat 0

/-! ## Utility: trimming and splitting -/

namespace Utility

/-- The `std::isspace` of the C locale: space, `\t`, `\n`, `\v`, `\f`, `\r`. -/
def isspace (ch : Char) : Bool :=
  ch = ' ' || ch = '\t' || ch = '\n' || ch = Char.ofNat 11 || ch = Char.ofNat 12 || ch = '\r'

/-- `Utility::ltrim`: erase from the start up to the first non-space. -/
def ltrim (s : Str) : Str :=
  s.dropWhile isspace

/-- `Utility::rtrim`: erase from just after the last non-space to the end. -/
def rtrim (s : Str) : Str :=
  (s.reverse.dropWhile isspace).reverse

/-- `Utility::trim`: `ltrim(rtrim(s))`. -/
def trim (s : Str) : Str :=
  ltrim (rtrim s)

/-- The extraction loop of `std::getline(ss, item, delim)` on a stream that
still has characters: characters are moved to `item` until the delimiter
(extracted and dropped) or the end of the stream.  Returns the item and what
is left in the stream. -/
def getlineGo (delim : Char) : Str → Str × Str
  | [] => ([], [])
  | c :: cs =>
    if c = delim then ([], cs)
    else ((c :: (getlineGo delim cs).1), (getlineGo delim cs).2)

/-- `std::getline(ss, item, delim)`: fails (`none`) when the stream is
already at its end, so that nothing can be extracted. -/
def getline (ss : Str) (delim : Char) : Option (Str × Str) :=
  match ss with
  | [] => none
  | _ :: _ => some (getlineGo delim ss)

/-- The loop `while (std::getline(ss, item, delim)) elems.push_back(item)`.
Each round takes at least one character off the stream, so `fuel` rounds
are enough for a stream of at most `fuel` characters. -/
def splitLoop (delim : Char) : Nat → Str → List Str → List Str
  | 0, _, elems => elems
  | fuel + 1, ss, elems =>
    match getline ss delim with
    | none => elems
    | some (item, rest) => splitLoop delim fuel rest (elems ++ [item])

/-- `Utility::split(s, delim, elems)`. -/
def splitInto (s : Str) (delim : Char) (elems : List Str) : List Str :=
  splitLoop delim (s.length + 1) s elems

/-- `Utility::split(s, delim)`. -/
def split (s : Str) (delim : Char) : List Str :=
  splitInto s delim []

/-- Specification side of `split`: the maximal delimiter-free segments
obtained by cutting `s` at every occurrence of `d` (always at least one
segment). -/
def segments (d : Char) : Str → List Str
  | [] => [[]]
  | c :: cs =>
    if c = d then [] :: segments d cs
    else
      match segments d cs with
      | [] => [[c]]
      | seg :: more => (c :: seg) :: more

/-- Specification side of `split`: omit a final empty segment. -/
def omitFinalEmpty (l : List Str) : List Str :=
  if l.getLast? = some [] then l.dropLast else l

/-- Specification side: join the elements with the delimiter between them. -/
def joinWith (d : Char) : List Str → Str
  | [] => []
  | [x] => x
  | x :: y :: rest => x ++ d :: joinWith d (y :: rest)

end Utility

/-! ## Sockets and the read primitives -/

/-- Outcome of one `recv(fd, &c, 1, 0)`. -/
inductive Recv where
  /-- One byte was received (`rc == 1`). -/
  | byte (c : Char)
  /-- The peer has closed (`rc == 0`). -/
  | closed
  /-- The call failed with `errno == EINTR`. -/
  | eintr
  /-- The call failed with another error. -/
  | error
deriving DecidableEq, Repr

/-- One `recv` on a socket with the given script: its outcome and the rest of
the script.  A script that is used up reports a closed peer. -/
def recv : List Recv → Recv × List Recv
  | [] => (Recv.closed, [])
  | r :: rest => (r, rest)

/-- The script of a peer that delivers the bytes of `s`, one per `recv`,
without interruption or error. -/
def delivered (s : Str) : List Recv :=
  s.map Recv.byte

/-- What a read primitive hands back: the return value, the `more` flag
(`readBytes` only), the buffer as it is after the call, and the part of the
socket script that has not been consumed. -/
structure ReadResult where
  ret : Int
  more : Bool
  buf : Str
  rest : List Recv
deriving DecidableEq, Repr

/-- The `for (n = ..; n < maxlen; n++)` loop of `Console::readBytes`, with
`k = maxlen - n` iterations to go; `ptr` is the offset of the write pointer
in `buf`.  An interrupted `recv` runs `continue`, which still increments
`n`. -/
def readBytesLoop : Nat → Nat → Nat → Str → List Recv → ReadResult
  | 0, n, _, buf, input => ⟨n, true, buf, input⟩
  | k + 1, n, ptr, buf, input =>
    match recv input with
    | (Recv.byte c, rest) =>
      if c = '\n' then ⟨n, false, buf.set ptr c, rest⟩
      else readBytesLoop k (n + 1) (ptr + 1) (buf.set ptr c) rest
    | (Recv.closed, rest) => ⟨0, false, buf, rest⟩
    | (Recv.eintr, rest) => readBytesLoop k (n + 1) ptr buf rest
    | (Recv.error, rest) => ⟨-1, false, buf, rest⟩

/-- `Console::readBytes(fd, buffer, maxlen, &more)`. -/
def readBytes (input : List Recv) (buffer : Str) (maxlen : Nat) : ReadResult :=
  readBytesLoop maxlen 0 0 buffer input

/-- The `for (n = ..; n < maxlen - 1; n++)` loop of `Console::readline`
followed by `*ptr = 0; return n;`, with `k` iterations to go.  `more` is not
used by `readline` and stays `false`. -/
def readlineLoop : Nat → Nat → Nat → Str → List Recv → ReadResult
  | 0, n, ptr, buf, input => ⟨n, false, buf.set ptr NUL, input⟩
  | k + 1, n, ptr, buf, input =>
    match recv input with
    | (Recv.byte c, rest) =>
      if c = '\n' then ⟨n, false, (buf.set ptr c).set (ptr + 1) NUL, rest⟩
      else readlineLoop k (n + 1) (ptr + 1) (buf.set ptr c) rest
    | (Recv.closed, rest) => ⟨0, false, buf, rest⟩
    | (Recv.eintr, rest) => readlineLoop k (n + 1) ptr buf rest
    | (Recv.error, rest) => ⟨-1, false, buf, rest⟩

/-- `Console::readline(fd, ptr, maxlen)`; `maxlen - 1` is computed in
`size_t` (64 bits). -/
def readline (input : List Recv) (ptr : Str) (maxlen : Nat) : ReadResult :=
  readlineLoop ((maxlen + 2 ^ 64 - 1) % 2 ^ 64) 0 0 ptr input


/-! ## C strings -/

/-- The C string held in a buffer: the bytes before the first NUL
(`strlen`, `std::string(const char*)`, `%s`). -/
def cstr (buf : Str) : Str :=
  buf.takeWhile (fun c => c != NUL)

/-- `strncmp(s1, s2, n) == 0`: compare at most `n` bytes, stopping after a NUL
that both strings share.  The end of a list is the terminating NUL of the
string. -/
def strncmpEq : Nat → Str → Str → Bool
  | 0, _, _ => true
  | n + 1, s1, s2 =>
    if s1.headD NUL ≠ s2.headD NUL then false
    else if s1.headD NUL = NUL then true
    else strncmpEq n s1.tail s2.tail

/-! ## String-keyed maps

`hlookup::string_map<T>` is a hash map with unique keys; it is kept as the
list of its entries.  Its iteration order is unspecified; the list order
stands for it. -/

namespace Map

/-- `m.find(k)`: the value of the entry with key `k`, if any. -/
def find {α : Type} (m : List (Str × α)) (k : Str) : Option α :=
  match m with
  | [] => none
  | (k1, v) :: rest => if k1 = k then some v else find rest k

/-- `m.erase(m.find(k))`: remove the entry found for `k`. -/
def erase {α : Type} (m : List (Str × α)) (k : Str) : List (Str × α) :=
  match m with
  | [] => []
  | (k1, v) :: rest => if k1 = k then rest else (k1, v) :: erase rest k

/-- `m.emplace(k, v)`: insert unless the key is already present. -/
def emplace {α : Type} (m : List (Str × α)) (k : Str) (v : α) : List (Str × α) :=
  match find m k with
  | some _ => m
  | none => m ++ [(k, v)]

/-- `m[k] = v`: overwrite the value of `k`, inserting the key when absent. -/
def assign {α : Type} (m : List (Str × α)) (k : Str) (v : α) : List (Str × α) :=
  match m with
  | [] => [(k, v)]
  | (k1, v1) :: rest => if k1 = k then (k1, v) :: rest else (k1, v1) :: assign rest k v

/-- Apply `f` in place to the value found for `k` (a call through the
pointer `it->second`). -/
def modify {α : Type} (m : List (Str × α)) (k : Str) (f : α → α) : List (Str × α) :=
  match m with
  | [] => []
  | (k1, v) :: rest => if k1 = k then (k1, f v) :: rest else (k1, v) :: modify rest k f

/-- The keys of the entries. -/
def keys {α : Type} (m : List (Str × α)) : List Str :=
  m.map Prod.fst

end Map

/-! ## Commands -/

/-- The handlers a command can carry.  The handlers defined by the console
itself that act on the console or on the connection are named; every other
handler (the host's own, and the built-in ones that only call into the
host application) is `host id`: calling it is recorded in the trace and
leaves the console untouched. -/
inductive Callback where
  | commandExit
  | commandDebugMsg
  | commandDebugMsgSubCommandOnOff
  | commandHelp
  | commandUpload
  | commandVersion
  | host (id : Nat)
deriving DecidableEq, Repr

/-- `Console::Command`: `_name`, `_help`, `_callback` (empty = `none`) and the
owned `_subCommands`. -/
inductive Command where
  | mk (name : Str) (help : Str) (callback : Option Callback)
      (subCommands : List (Str × Command))

namespace Command

/-- `Command::getName`. -/
def name : Command → Str
  | mk n _ _ _ => n

/-- `Command::getHelp`. -/
def help : Command → Str
  | mk _ h _ _ => h

/-- The member `_callback`. -/
def callback : Command → Option Callback
  | mk _ _ cb _ => cb

/-- The member `_subCommands`. -/
def subCommands : Command → List (Str × Command)
  | mk _ _ _ subs => subs

mutual
/-- The value `*this` gets in `operator=(const Command& o)` (and so the value
built by the copy constructor): name, help and callback of `o`, and the
sub-commands rebuilt by `copySubs`. -/
def copy : Command → Command
  | mk n h cb subs => mk n h cb (copySubs subs [])
/-- The loop `for (e : o._subCommands) _subCommands[e.first] = new Command(*e.second)`
on the cleared map; `acc` is `_subCommands` so far. -/
def copySubs : List (Str × Command) → List (Str × Command) → List (Str × Command)
  | [], acc => acc
  | (k, c) :: rest, acc => copySubs rest (Map.assign acc k (copy c))
end

/-- `Command::addSubCommand(subCmd)`. -/
def addSubCommand (c : Command) (subCmd : Command) : Command :=
  let subs :=
    match Map.find c.subCommands subCmd.name with
    | some _ => Map.erase c.subCommands subCmd.name
    | none => c.subCommands
  mk c.name c.help c.callback (Map.assign subs subCmd.name (copy subCmd))

/-- `Command::getSubCommand(subCmdName)`. -/
def getSubCommand (c : Command) (subCmdName : Str) : Option Command :=
  Map.find c.subCommands subCmdName

/-- `Command::delSubCommand(subCmdName)`. -/
def delSubCommand (c : Command) (subCmdName : Str) : Command :=
  match Map.find c.subCommands subCmdName with
  | some _ => mk c.name c.help c.callback (Map.erase c.subCommands subCmdName)
  | none => c

mutual
/-- Well-formedness of a command value: at every level the sub-command map
has unique keys, as a map has. -/
def WF : Command → Bool
  | mk _ _ _ subs => decide (Map.keys subs).Nodup && WFSubs subs
/-- Every entry of the map is well formed. -/
def WFSubs : List (Str × Command) → Bool
  | [] => true
  | (_, c) :: rest => WF c && WFSubs rest
end

end Command

/-! ## The console state and the outside world -/

/-- What the server does to the outside. -/
inductive Event where
  /-- One `send(fd, data, len, flags)`. -/
  | send (fd : Int) (data : Str)
  /-- One `close(fd)`. -/
  | close (fd : Int)
  /-- The host handler `id` was called with `(fd, args)`. -/
  | call (id : Nat) (fd : Int) (args : Str)
  /-- The file at `path` was opened for writing (created or truncated). -/
  | fopen (path : Str)
  /-- `data` was appended to the open file at `path`. -/
  | fwrite (path : Str) (data : Str)
  /-- The caller waited for the loop thread to end (`_thread.join()`). -/
  | join
deriving DecidableEq, Repr

/-- The collaborators of the console that live outside the file: the base64
decoder of `base/base64.h`, the file utilities and the version string. -/
structure Env where
  /-- `base64Decode(in, 4, &out)`: the decoded bytes of one 4-byte quantum. -/
  base64Decode : Str → Str
  /-- `FileUtils::getWritablePath()`. -/
  writablePath : Str
  /-- Whether `FileUtils::openFileStream(path, WRITE)` gives a stream. -/
  openFileStream : Str → Bool
  /-- `axisVersion()`. -/
  axisVersion : Str

/-- The members of `Console`, and the static `Utility::_prompt`.  The
`fd_set _read_set` is the list of the descriptors set in it. -/
structure Console where
  commands : List (Str × Command)
  commandSeparator : Char
  prompt : Str
  listenfd : Int
  running : Bool
  endThread : Bool
  isIpv6Server : Bool
  sendDebugStrings : Bool
  bindAddress : Str
  fds : List Int
  read_set : List Int
  maxfd : Int
  DebugStrings : List Str

/-- The console together with what surrounds it: per socket the script of
its `recv` outcomes still to come, and the trace of what has been done. -/
structure World where
  console : Console
  net : Int → List Recv
  trace : List Event

namespace World

/-- Append events to the trace. -/
def emit (w : World) (evs : List Event) : World :=
  { w with trace := w.trace ++ evs }

/-- Replace the pending script of socket `fd`. -/
def setNet (w : World) (fd : Int) (script : List Recv) : World :=
  { w with net := fun x => if x = fd then script else w.net x }

end World

/-- `SEND_BUFSIZ`. -/
def SEND_BUFSIZ : Nat := 512

/-- `PROMPT`. -/
def PROMPT : Str := "> ".toList

/-- `DEFAULT_COMMAND_SEPARATOR`. -/
def DEFAULT_COMMAND_SEPARATOR : Char := '|'

namespace Utility

/-- The loop `for (i = 0; i < length;)` of `sendToConsole`: one `send` of at
most `SEND_BUFSIZ` bytes per round, on what is left of the buffer. -/
def sendLoop (fd : Int) : Nat → Str → List Event
  | 0, _ => []
  | fuel + 1, buf =>
    match buf with
    | [] => []
    | _ :: _ => Event.send fd (buf.take SEND_BUFSIZ) :: sendLoop fd fuel (buf.drop SEND_BUFSIZ)

/-- `Utility::sendToConsole(fd, buffer, length)`: the sends it makes.  Nothing
is sent when `length` is the length of the prompt and `strncmp` finds the
buffer equal to the prompt. -/
def sendToConsole (prompt : Str) (fd : Int) (buffer : Str) : List Event :=
  if prompt.length = buffer.length ∧ strncmpEq buffer.length prompt buffer = true then []
  else sendLoop fd buffer.length buffer

/-- `Utility::mydprintf(sock, format, ..)` for an already formatted text:
`vsnprintf` into `char buf[16386]`, then `sendToConsole(sock, buf, strlen(buf))`. -/
def mydprintf (prompt : Str) (sock : Int) (formatted : Str) : List Event :=
  sendToConsole prompt sock (cstr (formatted.take 16385))

/-- `Utility::sendPrompt(fd)`: one `send` of the prompt. -/
def sendPrompt (prompt : Str) (fd : Int) : List Event :=
  [Event.send fd (cstr prompt)]

end Utility

/-! ## The registry operations of `Console` -/

namespace Console

/-- `Console::addCommand(cmd)`. -/
def addCommand (s : Console) (cmd : Command) : Console :=
  let newCommand := Command.copy cmd
  let cmds :=
    match Map.find s.commands cmd.name with
    | some _ => Map.erase s.commands cmd.name
    | none => s.commands
  { s with commands := Map.emplace cmds cmd.name newCommand }

/-- `Console::addSubCommand(cmdName, subCmd)`. -/
def addSubCommand (s : Console) (cmdName : Str) (subCmd : Command) : Console :=
  { s with commands := Map.modify s.commands cmdName (fun cmd => cmd.addSubCommand subCmd) }

/-- `Console::getCommand(cmdName)`; `nullptr` is `none`. -/
def getCommand (s : Console) (cmdName : Str) : Option Command :=
  Map.find s.commands cmdName

/-- `Console::getSubCommand(cmdName, subCmdName)`. -/
def getSubCommand (s : Console) (cmdName : Str) (subCmdName : Str) : Option Command :=
  match Map.find s.commands cmdName with
  | some cmd => cmd.getSubCommand subCmdName
  | none => none

/-- `Console::delCommand(cmdName)`. -/
def delCommand (s : Console) (cmdName : Str) : Console :=
  match Map.find s.commands cmdName with
  | some _ => { s with commands := Map.erase s.commands cmdName }
  | none => s

/-- `Console::delSubCommand(cmdName, subCmdName)`. -/
def delSubCommand (s : Console) (cmdName : Str) (subCmdName : Str) : Console :=
  { s with commands := Map.modify s.commands cmdName (fun cmd => cmd.delSubCommand subCmdName) }

end Console

/-! ## Help output -/

/-- The `for (j = 0; j < tabs; j++) mydprintf(fd, "\t")` loop of `sendHelp`. -/
def sendTabs (prompt : Str) (fd : Int) : Nat → List Event
  | 0 => []
  | j + 1 => Utility.mydprintf prompt fd ['\t'] ++ sendTabs prompt fd j

/-- One round of the loop of `Console::sendHelp`: nothing for a command
without help; otherwise a tab and the name, `3 - length / 8` further tabs
(none when that is not positive), then the help and a newline. -/
def sendHelpEntry (prompt : Str) (fd : Int) (command : Command) : List Event :=
  if command.help = [] then []
  else
    Utility.mydprintf prompt fd ('\t' :: cstr command.name) ++
      sendTabs prompt fd ((3 : Int) - ((command.name.length / 8 : Nat) : Int)).toNat ++
      Utility.mydprintf prompt fd (cstr command.help ++ ['\n'])

/-- The loop of `Console::sendHelp` over the entries of the map. -/
def sendHelpLoop (prompt : Str) (fd : Int) : List (Str × Command) → List Event
  | [] => []
  | (_, command) :: rest => sendHelpEntry prompt fd command ++ sendHelpLoop prompt fd rest

/-- `Console::sendHelp(fd, commands, msg)`. -/
def sendHelp (prompt : Str) (fd : Int) (commands : List (Str × Command)) (msg : Str) :
    List Event :=
  Utility.sendToConsole prompt fd (cstr msg) ++ sendHelpLoop prompt fd commands

/-- `Command::commandHelp(fd, args)`. -/
def Command.commandHelp (prompt : Str) (fd : Int) (c : Command) : List Event :=
  (if c.help = [] then [] else Utility.mydprintf prompt fd (cstr c.help ++ ['\n'])) ++
    (if c.subCommands.isEmpty then [] else sendHelp prompt fd c.subCommands [])

/-! ## Upload -/

/-- The table `invalid_filename_char`. -/
def invalid_filename_char : List Char :=
  [':', '/', Char.ofNat 92, '?', '%', '*', '<', '>', Char.ofNat 34, '|', '\r', '\n', '\t']

/-- The loop `for (n = 0; n < sizeof(buf) - 1; n++)` of `commandUpload` that
reads the file name, with `k` rounds to go.  `none`: a forbidden character
was met (the function then replies and returns).  Otherwise the buffer, the
offset of the write pointer and the rest of the script when the loop is
left. -/
def uploadNameLoop : Nat → Nat → Str → List Recv → Option (Str × Nat) × List Recv
  | 0, ptr, buf, input => (some (buf, ptr), input)
  | k + 1, ptr, buf, input =>
    match recv input with
    | (Recv.byte c, rest) =>
      if c ∈ invalid_filename_char then (none, rest)
      else if c = ' ' then (some (buf, ptr), rest)
      else uploadNameLoop k (ptr + 1) (buf.set ptr c) rest
    | (Recv.closed, rest) => (some (buf, ptr), rest)
    | (Recv.eintr, rest) => uploadNameLoop k ptr buf rest
    | (Recv.error, rest) => (some (buf, ptr), rest)

/-- The loop `while (true)` of `commandUpload` that reads the body four bytes
at a time into `data` (preset to `====`), stops when `readBytes` clears
`more`, and writes what `base64Decode` gives when that is not empty.  Every
round that goes on consumes four entries of the script, so `fuel` rounds
are enough for a script of fewer than `4 * fuel` entries.  Returns the rest
of the script and the events. -/
def uploadBodyLoop (env : Env) (path : Str) : Nat → List Recv → List Event →
    List Recv × List Event
  | 0, input, evs => (input, evs)
  | fuel + 1, input, evs =>
    if (readBytes input ['=', '=', '=', '='] 4).more = false then
      ((readBytes input ['=', '=', '=', '='] 4).rest, evs)
    else
      uploadBodyLoop env path fuel (readBytes input ['=', '=', '=', '='] 4).rest
        (if 0 < (env.base64Decode (readBytes input ['=', '=', '=', '='] 4).buf).length then
          evs ++ [Event.fwrite path (env.base64Decode (readBytes input ['=', '=', '=', '='] 4).buf)]
        else evs)

/-- `Console::commandUpload(fd)`. -/
def commandUpload (env : Env) (fd : Int) (w : World) : World :=
  match uploadNameLoop 511 0 (List.replicate 512 NUL) (w.net fd) with
  | (none, rest) =>
    (w.setNet fd rest).emit
      (Utility.sendToConsole w.console.prompt fd "upload: invalid file name!\n".toList)
  | (some (buf, ptr), rest) =>
    let filepath := env.writablePath ++ cstr (buf.set ptr NUL)
    if env.openFileStream filepath = false then
      (w.setNet fd rest).emit
        (Utility.sendToConsole w.console.prompt fd "can't create file!\n".toList)
    else
      ((w.setNet fd rest).setNet fd
          (uploadBodyLoop env filepath (rest.length + 1) rest []).1).emit
        (Event.fopen filepath :: (uploadBodyLoop env filepath (rest.length + 1) rest []).2)

/-! ## Handlers -/

/-- `Console::commandExit(fd, args)`: `FD_CLR`, erase from `_fds`, `close`. -/
def commandExit (fd : Int) (w : World) : World :=
  { w with
    console := { w.console with
      read_set := w.console.read_set.filter (fun x => x != fd)
      fds := w.console.fds.filter (fun x => x != fd) }
    trace := w.trace ++ [Event.close fd] }

/-- `Console::commandDebugMsg(fd, args)`. -/
def commandDebugMsg (fd : Int) (w : World) : World :=
  w.emit (Utility.mydprintf w.console.prompt fd
    ("Debug message is: ".toList ++
      (if w.console.sendDebugStrings then "on".toList else "off".toList) ++ ['\n']))

/-- `Console::commandDebugMsgSubCommandOnOff(fd, args)`. -/
def commandDebugMsgSubCommandOnOff (args : Str) (w : World) : World :=
  { w with console := { w.console with sendDebugStrings := decide (args = "on".toList) } }

/-- `Console::commandHelp(fd, args)`. -/
def commandHelp (fd : Int) (w : World) : World :=
  w.emit (sendHelp w.console.prompt fd w.console.commands "\nAvailable commands:\n".toList)

/-- `Console::commandVersion(fd, args)`. -/
def commandVersion (env : Env) (fd : Int) (w : World) : World :=
  w.emit (Utility.mydprintf w.console.prompt fd (cstr env.axisVersion ++ ['\n']))

/-- The call `_callback(fd, args)` of a handler. -/
def invoke (env : Env) (cb : Callback) (fd : Int) (args : Str) (w : World) : World :=
  match cb with
  | Callback.commandExit => commandExit fd w
  | Callback.commandDebugMsg => commandDebugMsg fd w
  | Callback.commandDebugMsgSubCommandOnOff => commandDebugMsgSubCommandOnOff args w
  | Callback.commandHelp => commandHelp fd w
  | Callback.commandUpload => commandUpload env fd w
  | Callback.commandVersion => commandVersion env fd w
  | Callback.host id => w.emit [Event.call id fd args]

/-! ## Dispatch -/

/-- The first argument of `commandGeneric`: `args` up to its first space when
there is one at a position `> 0`, else all of `args`. -/
def firstKey (args : Str) : Str :=
  if args.indexOf ' ' < args.length ∧ 0 < args.indexOf ' ' then args.take (args.indexOf ' ')
  else args

/-- `Command::commandGeneric(fd, args)`. -/
def Command.commandGeneric (env : Env) (c : Command) (fd : Int) (args : Str) (w : World) :
    World :=
  if firstKey args = "help".toList ∨ firstKey args = "-h".toList then
    w.emit (c.commandHelp w.console.prompt fd)
  else
    match Map.find c.subCommands (firstKey args) with
    | some subCmd =>
      match subCmd.callback with
      | some cb => invoke env cb fd args w
      | none => w
    | none =>
      match c.callback with
      | some cb => invoke env cb fd args w
      | none => w

/-- The loop of `performCommand` that builds `args2` from `args[i]`, `i ≥ 1`:
a space before every element but the first, then the trimmed element. -/
def buildArgs2 : Nat → List Str → Str → Str
  | _, [], args2 => args2
  | i, a :: rest, args2 =>
    buildArgs2 (i + 1) rest ((if 1 < i then args2 ++ [' '] else args2) ++ Utility.trim a)

/-- The message of the fault raised for an empty statement. -/
def unknownCommandEmpty : Str :=
  "Unknown command. Type 'help' for options\n".toList

/-- The message of the fault raised for a statement whose command is not in
the registry. -/
def unknownCommand (command : Str) : Str :=
  "Unknown command ".toList ++ command ++ ". Type 'help' for options\n".toList

/-- `Console::performCommand(fd, command)`; a thrown `std::runtime_error` is
`Except.error` with its message. -/
def performCommand (env : Env) (fd : Int) (command : Str) (w : World) : Except Str World :=
  match Utility.split command ' ' with
  | [] => Except.error unknownCommandEmpty
  | a0 :: rest =>
    match Map.find w.console.commands (Utility.trim a0) with
    | some cmd => Except.ok (cmd.commandGeneric env fd (buildArgs2 1 rest []) w)
    | none => Except.error (unknownCommand command)

/-- The loop `for (auto command : commands) performCommand(fd, trim(command))`
inside the `try`: the world when the loop is left, and the message of the
fault that ended it, if one did. -/
def performAll (env : Env) (fd : Int) : List Str → World → World × Option Str
  | [], w => (w, none)
  | command :: rest, w =>
    match performCommand env fd (Utility.trim command) w with
    | Except.ok w1 => performAll env fd rest w1
    | Except.error msg => (w, some msg)

/-- The tail of `Console::parseCommand` from `std::string cmdLine` on: split
the line, run the statements, send the message of a caught fault, send the
prompt. -/
def runCmdLine (env : Env) (fd : Int) (cmdLine : Str) (w : World) : World :=
  let r := performAll env fd (Utility.split cmdLine w.console.commandSeparator) w
  let w1 :=
    match r.2 with
    | some msg => r.1.emit (Utility.sendToConsole r.1.console.prompt fd (cstr msg))
    | none => r.1
  w1.emit (Utility.sendPrompt w1.console.prompt fd)

/-- The single `recv(fd, &c, 1, 0)` of `parseCommand` after `upload`, with
`c` preset to NUL: the value of `c` afterwards and the rest of the script. -/
def recvChar (input : List Recv) : Char × List Recv :=
  match recv input with
  | (Recv.byte c, rest) => (c, rest)
  | (_, rest) => (NUL, rest)

/-- `Console::parseCommand(fd)`.  `buf0` is what the uninitialised
`char buf[512]` holds on entry; `std::string(buf)` is read inside the 512
cells of the array. -/
def parseCommand (env : Env) (fd : Int) (buf0 : Str) (w : World) : Bool × World :=
  let r := readBytes (w.net fd) buf0 6
  let w1 := w.setNet fd r.rest
  if r.ret < 0 then (false, w1)
  else if strncmpEq 6 r.buf "upload".toList then
    let w2 := w1.setNet fd (recvChar r.rest).2
    if (recvChar r.rest).1 = ' ' then
      let w3 := commandUpload env fd w2
      (true, w3.emit (Utility.sendPrompt w3.console.prompt fd))
    else
      (true, (w2.emit (Utility.sendToConsole w2.console.prompt fd
          "upload: invalid args! Type 'help' for options\n".toList)).emit
        (Utility.sendPrompt w2.console.prompt fd))
  else if r.more = false then
    runCmdLine env fd (cstr (r.buf.set r.ret.toNat NUL)) w1 |> fun w2 => (true, w2)
  else
    let rl := readline r.rest (r.buf.drop 6) (512 - 6)
    let w2 := w1.setNet fd rl.rest
    if rl.ret < 0 then
      (false, (w2.emit (Utility.sendPrompt w2.console.prompt fd)).emit
        (Utility.sendToConsole w2.console.prompt fd "Unknown error!\n".toList))
    else
      (true, runCmdLine env fd (cstr (r.buf.take 6 ++ rl.buf)) w2)

/-! ## The log queue and the event loop -/

/-- `Console::log(buf)`: when `_sendDebugStrings` is set, the C string `buf`
is pushed onto `_DebugStrings` (the lock has no effect on the state). -/
def Console.log (s : Console) (buf : Str) : Console :=
  if s.sendDebugStrings then { s with DebugStrings := s.DebugStrings ++ [cstr buf] }
  else s

/-- `FD_SET(fd, &set)`. -/
def FD_SET (fd : Int) (set : List Int) : List Int :=
  if fd ∈ set then set else set ++ [fd]

/-- `FD_CLR(fd, &set)`. -/
def FD_CLR (fd : Int) (set : List Int) : List Int :=
  set.filter (fun x => x != fd)

/-- `FD_ISSET(fd, &set)`. -/
def FD_ISSET (fd : Int) (set : List Int) : Bool :=
  decide (fd ∈ set)

/-- What the operating system reports to one round of the loop: the result of
`select` and the descriptors left set in `copy_set`, the result of `accept`,
the result of `ioctl(fd, FIONREAD, &n)` per descriptor (`none`: the call
failed), whether `try_lock` gets the lock, and what the uninitialised buffer
of `parseCommand` holds. -/
structure Ready where
  nready : Int
  copy_set : List Int
  accepted : Int
  fionread : Int → Option Int
  lockFree : Bool
  buf0 : Str

/-- `Console::addClient()`, with the result of `accept`. -/
def addClient (accepted : Int) (w : World) : World :=
  if accepted ≠ -1 then
    { w with
      console := { w.console with
        read_set := FD_SET accepted w.console.read_set
        fds := w.console.fds ++ [accepted]
        maxfd := max w.console.maxfd accepted }
      trace := w.trace ++ Utility.sendPrompt w.console.prompt accepted }
  else w

/-- The loop `for (int fd : to_remove)` of `Console::loop`: `FD_CLR` and the
erase from `_fds`, for every handle queued for removal. -/
def removeClosed : List Int → World → World
  | [], w => w
  | fd :: rest, w =>
    removeClosed rest
      { w with console := { w.console with
          read_set := FD_CLR fd w.console.read_set
          fds := w.console.fds.filter (fun x => x != fd) } }

/-- The loop `for (const auto& fd : _fds)` of `Console::loop` over the handles
still to visit, with the count `nready` and the handles queued so far.  The
handles visited are those in `_fds` when the loop is entered (an `exit` run
by `parseCommand` erases from the vector under the iteration, which C++
leaves undefined; the visit does not follow it).  A failed `ioctl` leaves
the loop; a handle with nothing pending is queued without `nready` being
counted down.  Returns the handles queued for removal and the world. -/
def loopClients (env : Env) (os : Ready) : List Int → Int → List Int → World → List Int × World
  | [], _, to_remove, w => (to_remove, w)
  | fd :: rest, nready, to_remove, w =>
    if FD_ISSET fd os.copy_set then
      match os.fionread fd with
      | none => (to_remove, w)
      | some n =>
        if n = 0 then loopClients env os rest nready (to_remove ++ [fd]) w
        else if nready - 1 ≤ 0 then
          (if (parseCommand env fd os.buf0 w).1 then to_remove else to_remove ++ [fd],
            (parseCommand env fd os.buf0 w).2)
        else
          loopClients env os rest (nready - 1)
            (if (parseCommand env fd os.buf0 w).1 then to_remove else to_remove ++ [fd])
            (parseCommand env fd os.buf0 w).2
    else loopClients env os rest nready to_remove w

/-- The sends of the inner loop `for (auto fd : _fds)` of the flush: one
`sendToConsole` of the message per connection. -/
def sendToAll (prompt : Str) (str : Str) : List Int → List Event
  | [] => []
  | fd :: rest => Utility.sendToConsole prompt fd str ++ sendToAll prompt str rest

/-- The sends of the outer loop `for (const auto& str : _DebugStrings)` of the
flush. -/
def fanOut (prompt : Str) (fds : List Int) : List Str → List Event
  | [] => []
  | str :: rest => sendToAll prompt str fds ++ fanOut prompt fds rest

/-- The flush step of `Console::loop`: when `_DebugStrings` is not empty and
`try_lock` gets the lock, every message is sent to every connection and the
queue is cleared. -/
def flushDebugStrings (lockFree : Bool) (w : World) : World :=
  if w.console.DebugStrings.isEmpty then w
  else if lockFree then
    { w with
      console := { w.console with DebugStrings := [] }
      trace := w.trace ++ fanOut w.console.prompt w.console.fds w.console.DebugStrings }
  else w

/-- One round of the `while (!_endThread)` loop of `Console::loop`.  After a
failed `select`, and after an accept that uses up `nready`, `continue` skips
the rest of the round, the flush included. -/
def loopIteration (env : Env) (os : Ready) (w : World) : World :=
  if os.nready = -1 then w
  else if os.nready = 0 then flushDebugStrings os.lockFree w
  else if FD_ISSET w.console.listenfd os.copy_set then
    if os.nready - 1 ≤ 0 then addClient os.accepted w
    else
      flushDebugStrings os.lockFree
        (removeClosed
          (loopClients env os (addClient os.accepted w).console.fds (os.nready - 1) []
            (addClient os.accepted w)).1
          (loopClients env os (addClient os.accepted w).console.fds (os.nready - 1) []
            (addClient os.accepted w)).2)
  else
    flushDebugStrings os.lockFree
      (removeClosed (loopClients env os w.console.fds os.nready [] w).1
        (loopClients env os w.console.fds os.nready [] w).2)

/-- The entry of `Console::loop` up to the `while`: `_running = true`,
`FD_ZERO`, `FD_SET(_listenfd)`, `_maxfd = _listenfd`. -/
def loopStart (w : World) : World :=
  { w with console := { w.console with
      running := true
      read_set := FD_SET w.console.listenfd []
      maxfd := w.console.listenfd } }

/-- The closes of the clean-up loop `for (const auto& fd : _fds) close(fd)`. -/
def closeAll : List Int → List Event
  | [] => []
  | fd :: rest => Event.close fd :: closeAll rest

/-- The end of `Console::loop` after the `while`: every client socket and the
listening socket are closed and `_running` is cleared. -/
def loopShutdown (w : World) : World :=
  { w with
    console := { w.console with running := false }
    trace := w.trace ++ closeAll w.console.fds ++ [Event.close w.console.listenfd] }

/-- `Console::stop()`.  When `_running` is set, `_endThread` is set and, when
the thread is joinable, the loop thread is joined: the thread does what is
left of its round (`loopRest`), leaves the `while`, runs the clean-up, and
the join returns. -/
def stop (joinable : Bool) (loopRest : World → World) (w : World) : World :=
  if w.console.running then
    if joinable then
      (loopShutdown
        (loopRest { w with console := { w.console with endThread := true } })).emit [Event.join]
    else { w with console := { w.console with endThread := true } }
  else w

/-! ## Stores into the fixed buffers, with their bounds

The read primitives and the name loop of `commandUpload` store through a
`char*` into an array of fixed size.  Here every store is checked against the
array: the result is `none` as soon as a store falls outside of it. -/

/-- A store `buf[i] = c` into an array: `none` when `i` is not an index of
the array. -/
def store (buf : Str) (i : Nat) (c : Char) : Option Str :=
  if i < buf.length then some (buf.set i c) else none

/-- The loop of `Console::readBytes` with the store `*ptr++ = c` checked. -/
def readBytesLoopChecked : Nat → Nat → Nat → Str → List Recv → Option ReadResult
  | 0, n, _, buf, input => some ⟨n, true, buf, input⟩
  | k + 1, n, ptr, buf, input =>
    match recv input with
    | (Recv.byte c, rest) =>
      match store buf ptr c with
      | none => none
      | some b =>
        if c = '\n' then some ⟨n, false, b, rest⟩
        else readBytesLoopChecked k (n + 1) (ptr + 1) b rest
    | (Recv.closed, rest) => some ⟨0, false, buf, rest⟩
    | (Recv.eintr, rest) => readBytesLoopChecked k (n + 1) ptr buf rest
    | (Recv.error, rest) => some ⟨-1, false, buf, rest⟩

/-- `Console::readBytes(fd, buffer, maxlen, &more)` with its stores checked
against the array `buffer` points to. -/
def readBytesChecked (input : List Recv) (buffer : Str) (maxlen : Nat) : Option ReadResult :=
  readBytesLoopChecked maxlen 0 0 buffer input

/-- The loop of `Console::readline` and the final `*ptr = 0`, with the stores
checked. -/
def readlineLoopChecked : Nat → Nat → Nat → Str → List Recv → Option ReadResult
  | 0, n, ptr, buf, input =>
    match store buf ptr NUL with
    | none => none
    | some b => some ⟨n, false, b, input⟩
  | k + 1, n, ptr, buf, input =>
    match recv input with
    | (Recv.byte c, rest) =>
      match store buf ptr c with
      | none => none
      | some b =>
        if c = '\n' then
          match store b (ptr + 1) NUL with
          | none => none
          | some b1 => some ⟨n, false, b1, rest⟩
        else readlineLoopChecked k (n + 1) (ptr + 1) b rest
    | (Recv.closed, rest) => some ⟨0, false, buf, rest⟩
    | (Recv.eintr, rest) => readlineLoopChecked k (n + 1) ptr buf rest
    | (Recv.error, rest) => some ⟨-1, false, buf, rest⟩

/-- `Console::readline(fd, ptr, maxlen)` with its stores checked against the
array that starts at `ptr`. -/
def readlineChecked (input : List Recv) (ptr : Str) (maxlen : Nat) : Option ReadResult :=
  readlineLoopChecked ((maxlen + 2 ^ 64 - 1) % 2 ^ 64) 0 0 ptr input

/-- The stores that `Console::parseCommand(fd)` makes into `char buf[512]`:
those of `readBytes(fd, buf, 6, ..)`, then `buf[h] = 0` when no more data is
announced, else those of `readline(fd, buf + 6, sizeof(buf) - 6)`.  The
result is the array afterwards, `none` when a store fell outside of it. -/
def parseCommandStores (input : List Recv) (buf0 : Str) : Option Str :=
  match readBytesChecked input buf0 6 with
  | none => none
  | some r =>
    if r.ret < 0 then some r.buf
    else if strncmpEq 6 r.buf "upload".toList then some r.buf
    else if r.more = false then store r.buf r.ret.toNat NUL
    else
      match readlineChecked r.rest (r.buf.drop 6) (512 - 6) with
      | none => none
      | some rl => some (r.buf.take 6 ++ rl.buf)

/-- The name loop of `commandUpload` with the store `*ptr++ = c` checked:
`none` when a store fell outside the array, else what `uploadNameLoop`
gives. -/
def uploadNameLoopChecked : Nat → Nat → Str → List Recv →
    Option (Option (Str × Nat) × List Recv)
  | 0, ptr, buf, input => some (some (buf, ptr), input)
  | k + 1, ptr, buf, input =>
    match recv input with
    | (Recv.byte c, rest) =>
      if c ∈ invalid_filename_char then some (none, rest)
      else if c = ' ' then some (some (buf, ptr), rest)
      else
        match store buf ptr c with
        | none => none
        | some b => uploadNameLoopChecked k (ptr + 1) b rest
    | (Recv.closed, rest) => some (some (buf, ptr), rest)
    | (Recv.eintr, rest) => uploadNameLoopChecked k ptr buf rest
    | (Recv.error, rest) => some (some (buf, ptr), rest)

/-- The stores that `commandUpload` makes into its zeroed `char buf[512]`: those
of the name loop and the final `*ptr = 0`.  The result is the array afterwards
(as it is when a forbidden character ends the function early), `none` when a
store fell outside of it. -/
def uploadNameStores (input : List Recv) : Option Str :=
  match uploadNameLoopChecked 511 0 (List.replicate 512 NUL) input with
  | none => none
  | some (none, _) => some (List.replicate 512 NUL)
  | some (some (buf, ptr), _) => store buf ptr NUL

/-! ## The value returned by `sendToConsole` -/

namespace Utility

/-- The value `retLen` of the loop of `sendToConsole`: the sum of what the
successive `send` calls return (`results`, one per call; 0 for a missing
one). -/
def sendLoopRet : Nat → Str → List Int → Int
  | 0, _, _ => 0
  | fuel + 1, buf, results =>
    match buf with
    | [] => 0
    | _ :: _ => results.headD 0 + sendLoopRet fuel (buf.drop SEND_BUFSIZ) results.tail

/-- The value returned by `Utility::sendToConsole(fd, buffer, length)`: 0 when
the buffer is taken for the prompt, else `retLen`. -/
def sendToConsoleRet (prompt : Str) (buffer : Str) (results : List Int) : Int :=
  if prompt.length = buffer.length ∧ strncmpEq buffer.length prompt buffer = true then 0
  else sendLoopRet buffer.length buffer results

end Utility

/-! ## Starting the loop thread -/

/-- `Utility::setPrompt(prompt)`. -/
def setPrompt (prompt : Str) (w : World) : World :=
  { w with console := { w.console with prompt := prompt } }

/-- `Console::setBindAddress(address)`. -/
def setBindAddress (address : Str) (w : World) : World :=
  { w with console := { w.console with bindAddress := address } }

/-- The console together with the state of its member `std::thread _thread`:
whether the thread object holds a thread that has not been joined (a thread
that has run to its end is still joinable until it is joined). -/
structure Host where
  world : World
  joinable : Bool

/-- `Console::listenOnFileDescriptor(fd)`.  With `_running` set it returns
false.  Otherwise `_listenfd = fd` and `_thread = std::thread(..)`: the move
assignment to a thread object that is still joinable calls `std::terminate`
(`none`: the process is gone); else the call returns true and the loop thread
has been created and is joinable; what that thread does is `loop`. -/
def listenOnFileDescriptor (fd : Int) (h : Host) : Option (Bool × Host) :=
  if h.world.console.running then some (false, h)
  else if h.joinable then none
  else
    some (true,
      ⟨{ h.world with console := { h.world.console with listenfd := fd } }, true⟩)

/-- `Console::stop()` on the host: `_thread.joinable()` is read from the
thread object, and the join leaves it not joinable. -/
def Host.stop (loopRest : World → World) (h : Host) : Host :=
  ⟨Axmol.stop h.joinable loopRest h.world, if h.world.console.running then false else h.joinable⟩

/-- The `while (!_endThread)` of `Console::loop`, given what the operating
system reports to the successive rounds.  The flag is read from the world
before every round; `none`: the reports are used up and the thread is still
in the loop. -/
def loopRounds (env : Env) : List Ready → World → Option World
  | [], w => if w.console.endThread then some w else none
  | os :: rest, w =>
    if w.console.endThread then some w else loopRounds env rest (loopIteration env os w)

/-- `Console::loop()` as the loop thread runs it: the entry, the rounds, the
clean-up. -/
def loop (env : Env) (rounds : List Ready) (w : World) : Option World :=
  (loopRounds env rounds (loopStart w)).map loopShutdown

/-! ## Specification-side notions used to state the properties -/

/-- Specification side: among the first `n` `recv` attempts on the script,
one fails with an error other than an interruption before a newline has
been received and before the peer has closed. -/
def recvFails : Nat → List Recv → Bool
  | 0, _ => false
  | _ + 1, [] => false
  | n + 1, Recv.byte c :: rest => if c = '\n' then false else recvFails n rest
  | _ + 1, Recv.closed :: _ => false
  | n + 1, Recv.eintr :: rest => recvFails n rest
  | _ + 1, Recv.error :: _ => true

/-- Specification side: a (trimmed) statement can be dispatched in a registry
when it has a first space-delimited token and that token, trimmed, is the name
of a registered command. -/
def dispatchable (commands : List (Str × Command)) (statement : Str) : Bool :=
  match Utility.split statement ' ' with
  | [] => false
  | a0 :: _ => (Map.find commands (Utility.trim a0)).isSome

/-- Specification side: the message of the fault raised for a statement that
cannot be dispatched. -/
def faultMessage (statement : Str) : Str :=
  match Utility.split statement ' ' with
  | [] => unknownCommandEmpty
  | _ :: _ => unknownCommand statement

/-- The bytes that a list of events sends to `fd`, in order. -/
def sentTo (fd : Int) : List Event → Str
  | [] => []
  | Event.send fd1 data :: rest => if fd1 = fd then data ++ sentTo fd rest else sentTo fd rest
  | _ :: rest => sentTo fd rest

/-- Specification side: a receive attempt of the file name phase of an upload
that keeps the phase going: an interruption, or a byte that is neither
forbidden nor the space that ends the name. -/
def keepsName : Recv → Bool
  | Recv.eintr => true
  | Recv.byte x => decide (x ∉ invalid_filename_char) && decide (x ≠ ' ')
  | _ => false

/-- An event that opens or writes a file. -/
def Event.isFile : Event → Bool
  | Event.fopen _ => true
  | Event.fwrite _ _ => true
  | _ => false

/-- What running handlers for the socket `fd` may change between two worlds:
the registry, the prompt and the separator stay; the trace grows; the
connection set stays, or `fd` has been closed and filtered out of it. -/
structure Frame (fd : Int) (w w1 : World) : Prop where
  commands : w1.console.commands = w.console.commands
  prompt : w1.console.prompt = w.console.prompt
  separator : w1.console.commandSeparator = w.console.commandSeparator
  grows : ∃ evs, w1.trace = w.trace ++ evs ∧
    (w1.console.fds = w.console.fds ∨
      (Event.close fd ∈ evs ∧ w1.console.fds = w.console.fds.filter (fun x => x != fd)))

/-! ## Sample data -/

/-- Collaborators used in the examples: a decoder that yields nothing, the
writable path `/w/`, every file can be opened. -/
def sampleEnv : Env :=
  ⟨fun _ => [], "/w/".toList, fun _ => true, "1.0".toList⟩

/-- The `exit` command as `createCommandExit` registers it. -/
def exitCommand : Command :=
  Command.mk "exit".toList "Close connection to the console. Args: [-h | help | ]".toList
    (some Callback.commandExit) []

/-- The `fps` command as `createCommandFps` registers it (its handlers are
host handlers 0 and 1). -/
def fpsCommand : Command :=
  Command.mk "fps".toList "Turn on / off the FPS. Args: [-h | help | on | off | ]".toList
    (some (Callback.host 0))
    [("on".toList, Command.mk "on".toList "Display the FPS on the bottom-left corner.".toList
        (some (Callback.host 1)) []),
     ("off".toList, Command.mk "off".toList "Hide the FPS on the bottom-left corner.".toList
        (some (Callback.host 1)) [])]

/-- Another command named `fps`, with a different help, handler and
sub-command. -/
def fpsCommand2 : Command :=
  Command.mk "fps".toList "frames per second".toList (some (Callback.host 2))
    [("toggle".toList, Command.mk "toggle".toList "toggle".toList (some (Callback.host 3)) [])]

/-- A sub-command `on` to replace the one of `fps`. -/
def onCommand2 : Command :=
  Command.mk "on".toList "show".toList (some (Callback.host 4)) []

/-- A console with the commands `exit` and `fps`, the default separator and
prompt, listening on descriptor 3, with the client 7 connected. -/
def sampleConsole : Console where
  commands := [("exit".toList, exitCommand), ("fps".toList, fpsCommand)]
  commandSeparator := DEFAULT_COMMAND_SEPARATOR
  prompt := PROMPT
  listenfd := 3
  running := true
  endThread := false
  isIpv6Server := false
  sendDebugStrings := false
  bindAddress := []
  fds := [7]
  read_set := [3, 7]
  maxfd := 7
  DebugStrings := []

/-- The sample console with the given script pending on socket 7 and an
empty trace. -/
def sampleWorld (script : List Recv) : World where
  console := sampleConsole
  net := fun fd => if fd = 7 then script else []
  trace := []

/-! ## Specification-side notions: uploads, broadcasts, help listings, sets -/

/-- The bytes that a list of events writes to the file at `path`, in order. -/
def written (path : Str) : List Event → Str
  | [] => []
  | Event.fwrite p data :: rest =>
    if p = path then data ++ written path rest else written path rest
  | _ :: rest => written path rest

/-- Specification side: a file name that the name phase of an upload takes
whole: no forbidden character, no space, no NUL, and short enough for the
space after it to be read within the 511 rounds of the phase. -/
def acceptedName (f : Str) : Bool :=
  f.all (fun c => decide (c ∉ invalid_filename_char) && decide (c ≠ ' ') && decide (c ≠ NUL)) &&
    decide (f.length ≤ 510)

/-- Specification side: a complete quantum of the body of an upload: four
bytes, none of them a newline. -/
def completeQuantum (q : Str) : Bool :=
  decide (q.length = 4) && decide ('\n' ∉ q)

/-- Modelled from the spec: the value of a character of the base64 alphabet
(`base/base64.h` is not part of the sources). -/
def base64Value (c : Char) : Option Nat :=
  if 65 ≤ c.toNat ∧ c.toNat ≤ 90 then some (c.toNat - 65)
  else if 97 ≤ c.toNat ∧ c.toNat ≤ 122 then some (c.toNat - 97 + 26)
  else if 48 ≤ c.toNat ∧ c.toNat ≤ 57 then some (c.toNat - 48 + 52)
  else if c = '+' then some 62
  else if c = '/' then some 63
  else none

/-- Modelled from the spec: the decoding of one base64 quantum by the
`base64Decode` of `base/base64.h`, which is not part of the sources: four
characters of the alphabet give three bytes, `=` in the last or the last two
places pads a quantum of two or one bytes, anything else gives nothing. -/
def decodeQuantum (q : Str) : Str :=
  match q with
  | [a, b, c, d] =>
    match base64Value a, base64Value b with
    | some x, some y =>
      if c = '=' ∧ d = '=' then [Char.ofNat ((x * 4 + y / 16) % 256)]
      else
        match base64Value c with
        | some z =>
          if d = '=' then
            [Char.ofNat ((x * 4 + y / 16) % 256), Char.ofNat ((y * 16 + z / 4) % 256)]
          else
            match base64Value d with
            | some v =>
              [Char.ofNat ((x * 4 + y / 16) % 256), Char.ofNat ((y * 16 + z / 4) % 256),
                Char.ofNat ((z * 64 + v) % 256)]
            | none => []
        | none => []
    | _, _ => []
  | _ => []

/-- The collaborators of the examples with the base64 decoder in place. -/
def base64Env : Env :=
  { sampleEnv with base64Decode := decodeQuantum }

/-- Specification side: what a flush makes one connection receive for a
queue of messages: the messages in order, those equal to the prompt left
out. -/
def broadcast (prompt : Str) : List Str → Str
  | [] => []
  | m :: rest => (if m = prompt then [] else m) ++ broadcast prompt rest

/-- Specification side: the column reached after printing `s` from column
`col` on a terminal with a tab stop every 8 columns. -/
def column (col : Nat) : Str → Nat
  | [] => col
  | c :: cs => column (if c = '\t' then (col / 8 + 1) * 8 else col + 1) cs

/-- Specification side: what precedes the help text on a line of the help
listing: a tab, the name, and `3 - length / 8` tabs. -/
def helpLead (name : Str) : Str :=
  '\t' :: name ++ List.replicate (3 - name.length / 8) '\t'

/-- Specification side: the help listing of a map of commands: one line per
command with a non-empty help, made of the lead, the help and a newline. -/
def helpListing : List (Str × Command) → Str
  | [] => []
  | (_, command) :: rest =>
    (if command.help = [] then [] else helpLead command.name ++ command.help ++ ['\n']) ++
      helpListing rest

/-- Specification side: a text that `mydprintf` passes on whole: no NUL and
shorter than its buffer. -/
def plainText (s : Str) : Bool :=
  decide (NUL ∉ s) && decide (s.length < 16384)

/-- Specification side: the names and helps of all the commands of a map are
plain texts. -/
def plainEntries (commands : List (Str × Command)) : Bool :=
  commands.all (fun e => plainText e.2.name && plainText e.2.help)

/-- Specification side: the connection set and the poll set hold the same
client handles (the listening handle aside). -/
def Synced (s : Console) : Prop :=
  ∀ fd, fd ≠ s.listenfd → (fd ∈ s.fds ↔ fd ∈ s.read_set)

/-- The operations of the loop thread on the two sets: an accepted client, an
eviction of queued handles, an `exit` command, a whole round of the loop. -/
inductive LoopOp where
  | accept (fd : Int)
  | evict (to_remove : List Int)
  | exit (fd : Int)
  | round (os : Ready)

/-- Run one operation of the loop thread. -/
def LoopOp.run (env : Env) : LoopOp → World → World
  | LoopOp.accept fd, w => addClient fd w
  | LoopOp.evict to_remove, w => removeClosed to_remove w
  | LoopOp.exit fd, w => commandExit fd w
  | LoopOp.round os, w => loopIteration env os w

/-- Run operations of the loop thread one after the other. -/
def runOps (env : Env) : List LoopOp → World → World
  | [], w => w
  | op :: rest, w => runOps env rest (op.run env w)

/-- A console that has not listened yet, with the built-in commands `exit`
and the host command `fps`: no client, nothing polled. -/
def freshWorld : World where
  console := { sampleConsole with running := false, fds := [], read_set := [], maxfd := 0 }
  net := fun _ => []
  trace := []

/-- The sample console with one message pending and the broadcast off. -/
def quietConsole : Console :=
  { sampleConsole with DebugStrings := ["a".toList] }

/-- The sample console with one message pending and the broadcast on. -/
def loudConsole : Console :=
  { sampleConsole with sendDebugStrings := true, DebugStrings := ["a".toList] }

/-- The sample world (client 7 connected) with the given messages pending in
the log queue. -/
def pendingWorld (msgs : List Str) : World :=
  { sampleWorld [] with
    console := { sampleConsole with sendDebugStrings := true, DebugStrings := msgs } }

/-- A command with two sub-commands, one of them with a name of 25 bytes. -/
def wideCommand : Command :=
  Command.mk "texture".toList "texture tools".toList (some (Callback.host 5))
    [("on".toList, Command.mk "on".toList "show".toList (some (Callback.host 6)) []),
     ("abcdefghijklmnopqrstuvwxy".toList,
        Command.mk "abcdefghijklmnopqrstuvwxy".toList "wide".toList (some (Callback.host 7)) [])]

/-- Specification side: the writes of an upload to `path` for the quanta of
its body: one per quantum whose decoding is not empty, in order. -/
def quantumWrites (env : Env) (path : Str) : List Str → List Event
  | [] => []
  | q :: rest =>
    (if 0 < (env.base64Decode q).length then [Event.fwrite path (env.base64Decode q)] else []) ++
      quantumWrites env path rest

/-- Specification side: a step of the server from `w` to `w1` keeps the
listening handle and does not break the agreement of the two sets. -/
def Keeps (w w1 : World) : Prop :=
  w1.console.listenfd = w.console.listenfd ∧ (Synced w.console → Synced w1.console)

/-- A round of the loop in which `select` reports the client 7 readable and
`FIONREAD` finds no byte pending on it: the peer has closed. -/
def closedPeerRound : Ready :=
  ⟨1, [7], -1, fun _ => some 0, true, List.replicate 512 NUL⟩

/-- A round of the loop in which `select` reports the client 7 readable with
one byte pending. -/
def readableRound : Ready :=
  ⟨1, [7], -1, fun _ => some 1, true, List.replicate 512 NUL⟩

/-! ## Specification-side notions: interruptions, chunks, the life cycle -/

/-- Specification side: the script with the interrupted attempts deleted. -/
def withoutEintr (input : List Recv) : List Recv :=
  input.filter (fun r => r != Recv.eintr)

/-- Specification side: the payloads of the `send` calls of a list of
events, in order. -/
def payloads : List Event → List Str
  | [] => []
  | Event.send _ data :: rest => data :: payloads rest
  | _ :: rest => payloads rest

/-- The calls that the host can make on a console: the registry operations,
`log`, the setters, `stop`, and a `listenOnFileDescriptor` together with the
run of the loop thread that it starts (with what the operating system reports
to its rounds). -/
inductive ApiOp where
  | log (buf : Str)
  | setPrompt (prompt : Str)
  | setBindAddress (address : Str)
  | addCommand (cmd : Command)
  | addSubCommand (cmdName : Str) (subCmd : Command)
  | delCommand (cmdName : Str)
  | delSubCommand (cmdName : Str) (subCmdName : Str)
  | listen (fd : Int) (rounds : List Ready)
  | stop

/-- Whether a call is a `listenOnFileDescriptor`. -/
def ApiOp.isListen : ApiOp → Bool
  | ApiOp.listen _ _ => true
  | _ => false

/-- How a sequence of calls ends: in a state, with the process terminated by
`std::terminate`, or with the loop thread still in its loop when the reports
of the operating system are used up. -/
inductive Outcome where
  | ok (h : Host)
  | terminated
  | inLoop

/-- Whether the process was terminated. -/
def Outcome.isTerminated : Outcome → Bool
  | Outcome.terminated => true
  | _ => false

/-- Run one call of the host.  The thread started by a `listen` runs to its
end within the call and is left unjoined. -/
def ApiOp.run (env : Env) : ApiOp → Host → Outcome
  | ApiOp.log buf, h =>
    Outcome.ok { h with world := { h.world with console := h.world.console.log buf } }
  | ApiOp.setPrompt prompt, h => Outcome.ok { h with world := Axmol.setPrompt prompt h.world }
  | ApiOp.setBindAddress address, h =>
    Outcome.ok { h with world := Axmol.setBindAddress address h.world }
  | ApiOp.addCommand cmd, h =>
    Outcome.ok { h with world := { h.world with console := h.world.console.addCommand cmd } }
  | ApiOp.addSubCommand cmdName subCmd, h =>
    Outcome.ok { h with world :=
      { h.world with console := h.world.console.addSubCommand cmdName subCmd } }
  | ApiOp.delCommand cmdName, h =>
    Outcome.ok { h with world :=
      { h.world with console := h.world.console.delCommand cmdName } }
  | ApiOp.delSubCommand cmdName subCmdName, h =>
    Outcome.ok { h with world :=
      { h.world with console := h.world.console.delSubCommand cmdName subCmdName } }
  | ApiOp.listen fd rounds, h =>
    match listenOnFileDescriptor fd h with
    | none => Outcome.terminated
    | some (false, h1) => Outcome.ok h1
    | some (true, h1) =>
      match loop env rounds h1.world with
      | some w1 => Outcome.ok ⟨w1, h1.joinable⟩
      | none => Outcome.inLoop
  | ApiOp.stop, h => Outcome.ok (Host.stop (fun x => x) h)

/-- Run calls of the host one after the other. -/
def runApi (env : Env) : List ApiOp → Host → Outcome
  | [], h => Outcome.ok h
  | op :: rest, h =>
    match op.run env h with
    | Outcome.ok h1 => runApi env rest h1
    | Outcome.terminated => Outcome.terminated
    | Outcome.inLoop => Outcome.inLoop

/-- The sample world, whose loop is running, with its loop thread not yet
joined. -/
def runningHost : Host :=
  ⟨sampleWorld [], true⟩

/-- A round of the loop in which a client is waiting to be accepted as
handle 9. -/
def acceptRound : Ready :=
  ⟨1, [3, 4], 9, fun _ => some 1, true, List.replicate 512 NUL⟩

/-- Specification side: the test of `sendToConsole` that takes a buffer for
the prompt: same length, and `strncmp` over that length finds no
difference. -/
def takenForPrompt (prompt : Str) (buffer : Str) : Bool :=
  decide (prompt.length = buffer.length) && strncmpEq buffer.length prompt buffer

namespace Mem

/-- A `Command` object: `_name`, `_help`, `_callback`, and `_subCommands` as
(name, address) entries. -/
structure Obj where
  name : Str
  help : Str
  callback : Option Callback
  subCommands : List (Str × Nat)
deriving DecidableEq, Repr

/-- The memory: cell `a` holds `some obj` while an object is alive at address
`a`. -/
abbrev Heap := List (Option Obj)

/-- The object alive at address `a`, if any. -/
def read (h : Heap) (a : Nat) : Option Obj :=
  h[a]?.join

/-- Store into the object at address `a`. -/
def write (h : Heap) (a : Nat) (o : Obj) : Heap :=
  h.set a (some o)

/-- `new Command()`: a default-constructed object at a fresh address. -/
def alloc (h : Heap) : Heap × Nat :=
  (h ++ [some ⟨[], [], none, []⟩], h.length)

/-- Give the cell at `a` back. -/
def free (h : Heap) (a : Nat) : Heap :=
  h.set a none

/-- `delete p`: the destructor `~Command` deletes every sub-command, then
the cell is given back. -/
def destroy : Nat → Heap → Nat → Option Heap
  | 0, _, _ => none
  | fuel + 1, h, p =>
    match read h p with
    | none => none
    | some o =>
      match o.subCommands.foldlM (fun h1 e => destroy fuel h1 e.2) h with
      | none => none
      | some h1 => some (free h1 p)

/-- The loop `for (e : _subCommands) delete e.second`. -/
def destroyAll (fuel : Nat) (h : Heap) (entries : List (Str × Nat)) : Option Heap :=
  entries.foldlM (fun h1 e => destroy fuel h1 e.2) h

/-- One round of the loop `for (e : o._subCommands)` of `operator=`:
`newCommand = new Command(*e.second)`, then `_subCommands[e.first] = newCommand`
in the object at `dst`.  `assignFrom h c p` is the `*c = *p` run by the copy
constructor. -/
def copyEntry (assignFrom : Heap → Nat → Nat → Option Heap) (dst : Nat) (h2 : Heap)
    (e : Str × Nat) : Option Heap :=
  match assignFrom (alloc h2).1 (alloc h2).2 e.2 with
  | none => none
  | some h3 =>
    match read h3 dst with
    | none => none
    | some d3 =>
      some (write h3 dst { d3 with subCommands := Map.assign d3.subCommands e.1 (alloc h2).2 })

/-- `*dst = *src`, that is `Command::operator=(const Command& o)` with
`this = dst` and `&o = src`: nothing when `this == &o`; otherwise the name,
help and callback are taken over, the old sub-commands are deleted, the map
is cleared and refilled with copies of the sub-commands of `o`. -/
def copyAssign : Nat → Heap → Nat → Nat → Option Heap
  | 0, _, _, _ => none
  | fuel + 1, h, dst, src =>
    if dst = src then some h
    else
      match read h dst, read h src with
      | some d, some s =>
        match destroyAll fuel h d.subCommands with
        | none => none
        | some h1 =>
          match read (write h1 dst ⟨s.name, s.help, s.callback, []⟩) src with
          | none => none
          | some s1 =>
            s1.subCommands.foldlM (copyEntry (copyAssign fuel) dst)
              (write h1 dst ⟨s.name, s.help, s.callback, []⟩)
      | _, _ => none

/-- `new Command(*src)`: the copy constructor runs `*this = o` on the fresh
object.  Returns the memory and the address of the copy. -/
def copyConstruct (fuel : Nat) (h : Heap) (src : Nat) : Option (Heap × Nat) :=
  (copyAssign fuel (alloc h).1 (alloc h).2 src).map (fun h1 => (h1, (alloc h).2))

/-- `parent->addSubCommand(*subCmd)`. -/
def addSubCommand (fuel : Nat) (h : Heap) (parent subCmd : Nat) : Option Heap :=
  match read h parent, read h subCmd with
  | some p, some s =>
    match (match Map.find p.subCommands s.name with
        | some q =>
          (destroy fuel h q).map
            (fun h1 => write h1 parent { p with subCommands := Map.erase p.subCommands s.name })
        | none => some h) with
    | none => none
    | some h1 =>
      match copyAssign fuel (alloc h1).1 (alloc h1).2 subCmd with
      | none => none
      | some h2 =>
        match read h2 parent, read h2 subCmd with
        | some p2, some s2 =>
          some (write h2 parent
            { p2 with subCommands := Map.assign p2.subCommands s2.name (alloc h1).2 })
        | _, _ => none
  | _, _ => none

/-- `parent->delSubCommand(subCmdName)`. -/
def delSubCommand (fuel : Nat) (h : Heap) (parent : Nat) (subCmdName : Str) : Option Heap :=
  match read h parent with
  | none => none
  | some p =>
    match Map.find p.subCommands subCmdName with
    | some q =>
      (destroy fuel h q).map
        (fun h1 => write h1 parent { p with subCommands := Map.erase p.subCommands subCmdName })
    | none => some h

mutual
/-- `Owns h t a fp`: in memory `h` a command object is alive at `a`, it and
its descendants occupy exactly the addresses `fp`, no address twice, every
sub-command map has unique keys, and the value of the tree is `t`. -/
def Owns (h : Heap) : Command → Nat → List Nat → Prop
  | Command.mk n hl cb subs, a, fp =>
    ∃ o fp1, read h a = some o ∧ o.name = n ∧ o.help = hl ∧ o.callback = cb ∧
      OwnsAll h subs o.subCommands fp1 ∧ a ∉ fp1 ∧ fp = a :: fp1 ∧
      (Map.keys o.subCommands).Nodup
/-- `OwnsAll h subs entries fp`: the entries of a sub-command map own the
trees `subs`, on pairwise disjoint sets of addresses that together are `fp`. -/
def OwnsAll (h : Heap) : List (Str × Command) → List (Str × Nat) → List Nat → Prop
  | [], entries, fp => entries = [] ∧ fp = []
  | (k, t) :: subs, entries, fp =>
    ∃ p rest fp1 fp2, entries = (k, p) :: rest ∧ Owns h t p fp1 ∧ OwnsAll h subs rest fp2 ∧
      (∀ x ∈ fp1, x ∉ fp2) ∧ fp = fp1 ++ fp2
end

/-- The effect an operation on a tree with footprint `fp` may have on the
memory: the memory does not shrink, and every address in use before that is
outside `fp` keeps its object. -/
def Step (h : Heap) (fp : List Nat) (h1 : Heap) : Prop :=
  h.length ≤ h1.length ∧ ∀ x, x < h.length → x ∉ fp → read h1 x = read h x

/-- Operations on the tree at `a` leave the tree at `b` alone: with enough
recursion budget, destroying the tree at `a`, deleting one of its
sub-commands, or adding to it a copy of a command `s` that lies apart from
it, succeeds and leaves at `b` the same tree `tb` on the same addresses; after
the last two, `a` still owns its (new) tree on addresses apart from those of
`b`, so that the same holds for whatever is done next. -/
def Unaffected (g : Heap) (a : Nat) (ta : Command) (fa : List Nat) (b : Nat) (tb : Command)
    (fb : List Nat) : Prop :=
  (∀ fuel, fa.length ≤ fuel →
    ∃ g1, destroy fuel g a = some g1 ∧ read g1 a = none ∧ Owns g1 tb b fb) ∧
  (∀ fuel k, fa.length ≤ fuel →
    ∃ g1 fa1, delSubCommand fuel g a k = some g1 ∧ Owns g1 (ta.delSubCommand k) a fa1 ∧
      (∀ x ∈ fa1, x ∉ fb) ∧ Owns g1 tb b fb) ∧
  (∀ fuel s ts fs, Owns g ts s fs → (∀ x ∈ fs, x ∉ fa) → fa.length + fs.length + 1 ≤ fuel →
    ∃ g1 fa1, addSubCommand fuel g a s = some g1 ∧ Owns g1 (ta.addSubCommand ts) a fa1 ∧
      (∀ x ∈ fa1, x ∉ fb) ∧ Owns g1 tb b fb)

/-- A memory for the examples: the `fps` command of the samples at address 0
with its sub-commands at 1 and 2, and at address 3 a command `old` with one
sub-command at 4. -/
def sampleHeap : Heap :=
  [some ⟨"fps".toList, "Turn on / off the FPS. Args: [-h | help | on | off | ]".toList,
      some (Callback.host 0), [("on".toList, 1), ("off".toList, 2)]⟩,
    some ⟨"on".toList, "Display the FPS on the bottom-left corner.".toList,
      some (Callback.host 1), []⟩,
    some ⟨"off".toList, "Hide the FPS on the bottom-left corner.".toList,
      some (Callback.host 1), []⟩,
    some ⟨"old".toList, "old".toList, none, [("sub".toList, 4)]⟩,
    some ⟨"sub".toList, "sub".toList, none, []⟩]

/-- The value of the command at address 3 of `sampleHeap`. -/
def oldCommand : Command :=
  Command.mk "old".toList "old".toList none
    [("sub".toList, Command.mk "sub".toList "sub".toList none [])]

end Mem

/-! ## Theorems: splitting -/

namespace Utility

theorem segments_ne_nil (d : Char) (s : Str) : segments d s ≠ [] := by
  cases s with
  | nil => simp [segments]
  | cons c cs =>
    by_cases h : c = d
    · simp [segments, h]
    · cases hs : segments d cs <;> simp [segments, h, hs]

theorem segments_append_delim (d : Char) (item rest : Str) (h : d ∉ item) :
    segments d (item ++ d :: rest) = item :: segments d rest := by
  induction item with
  | nil => simp [segments]
  | cons c cs ih =>
    have hc : c ≠ d := fun e => h (by simp [e])
    have hcs : d ∉ cs := fun e => h (by simp [e])
    simp [segments, hc, ih hcs]

theorem segments_no_delim (d : Char) (item : Str) (h : d ∉ item) :
    segments d item = [item] := by
  induction item with
  | nil => simp [segments]
  | cons c cs ih =>
    have hc : c ≠ d := fun e => h (by simp [e])
    have hcs : d ∉ cs := fun e => h (by simp [e])
    simp [segments, hc, ih hcs]

theorem getlineGo_spec (d : Char) (ss : Str) :
    d ∉ (getlineGo d ss).1 ∧
      (ss = (getlineGo d ss).1 ++ d :: (getlineGo d ss).2 ∨
        (ss = (getlineGo d ss).1 ∧ (getlineGo d ss).2 = [])) := by
  induction ss with
  | nil => simp [getlineGo]
  | cons c cs ih =>
    by_cases h : c = d
    · simp [getlineGo, h]
    · obtain ⟨h1, h2⟩ := ih
      have hd : ¬ d = c := fun e => h e.symm
      refine ⟨by simp [getlineGo, h, hd, h1], ?_⟩
      rcases h2 with h2 | ⟨h2, h3⟩
      · left
        simp only [getlineGo, h, if_false, List.cons_append]
        exact congrArg _ h2
      · right
        simp only [getlineGo, h, if_false]
        exact ⟨congrArg _ h2, h3⟩

theorem getlineGo_length (d : Char) (c : Char) (cs : Str) :
    (getlineGo d (c :: cs)).2.length < (c :: cs).length := by
  rcases (getlineGo_spec d (c :: cs)).2 with h | ⟨_, h⟩
  · have h2 : (c :: cs).length =
        (getlineGo d (c :: cs)).1.length + ((getlineGo d (c :: cs)).2.length + 1) := by
      conv_lhs => rw [h]
      rw [List.length_append, List.length_cons]
    omega
  · rw [h]; simp

theorem omitFinalEmpty_cons (x : Str) (l : List Str) (h : l ≠ []) :
    omitFinalEmpty (x :: l) = x :: omitFinalEmpty l := by
  cases l with
  | nil => exact absurd rfl h
  | cons y ys =>
    unfold omitFinalEmpty
    rw [List.getLast?_cons_cons]
    by_cases hl : (y :: ys).getLast? = some []
    · simp [hl, List.dropLast]
    · simp [hl]

theorem omitFinalEmpty_segments_cons (d : Char) (c : Char) (cs : Str) :
    omitFinalEmpty (segments d (c :: cs)) =
      (getlineGo d (c :: cs)).1 :: omitFinalEmpty (segments d (getlineGo d (c :: cs)).2) := by
  obtain ⟨h1, h2⟩ := getlineGo_spec d (c :: cs)
  rcases h2 with h2 | ⟨h2, h3⟩
  · conv_lhs => rw [h2]
    rw [segments_append_delim d _ _ h1, omitFinalEmpty_cons _ _ (segments_ne_nil d _)]
  · conv_lhs => rw [h2]
    rw [segments_no_delim d _ h1, h3]
    have hne : (getlineGo d (c :: cs)).1 ≠ [] := by rw [← h2]; simp
    cases hi : (getlineGo d (c :: cs)).1 with
    | nil => exact absurd hi hne
    | cons a as => simp [omitFinalEmpty, segments]

theorem splitLoop_eq (d : Char) (fuel : Nat) (ss : Str) (elems : List Str)
    (h : ss.length < fuel) :
    splitLoop d fuel ss elems = elems ++ omitFinalEmpty (segments d ss) := by
  induction fuel generalizing ss elems with
  | zero => omega
  | succ fuel ih =>
    cases ss with
    | nil => simp [splitLoop, getline, segments, omitFinalEmpty]
    | cons c cs =>
      have hl := getlineGo_length d c cs
      simp only [splitLoop, getline]
      rw [ih _ _ (by simp only [List.length_cons] at h hl ⊢; omega),
        omitFinalEmpty_segments_cons, List.append_assoc]
      rfl

theorem split_eq_segments (s : Str) (d : Char) :
    split s d = omitFinalEmpty (segments d s) := by
  unfold split splitInto
  rw [splitLoop_eq d _ s [] (Nat.lt_succ_self _)]
  rfl

theorem segments_delim_free (d : Char) (s : Str) : ∀ e ∈ segments d s, d ∉ e := by
  induction s with
  | nil => simp [segments]
  | cons c cs ih =>
    by_cases h : c = d
    · intro e he
      simp only [segments, h, if_true, List.mem_cons] at he
      rcases he with he | he
      · simp [he]
      · exact ih e he
    · have hd : ¬ d = c := fun e => h e.symm
      cases hs : segments d cs with
      | nil => exact absurd hs (segments_ne_nil d cs)
      | cons seg more =>
        rw [hs] at ih
        intro e he
        simp only [segments, h, if_false, hs, List.mem_cons] at he
        rcases he with he | he
        · have := ih seg (by simp)
          simp [he, hd, this]
        · exact ih e (by simp [he])

theorem omitFinalEmpty_subset (l : List Str) : ∀ e ∈ omitFinalEmpty l, e ∈ l := by
  intro e he
  unfold omitFinalEmpty at he
  split at he
  · exact List.mem_of_mem_dropLast he
  · exact he

theorem joinWith_segments (d : Char) (s : Str) : joinWith d (segments d s) = s := by
  induction s with
  | nil => simp [segments, joinWith]
  | cons c cs ih =>
    cases hs : segments d cs with
    | nil => exact absurd hs (segments_ne_nil d cs)
    | cons seg more =>
      rw [hs] at ih
      by_cases h : c = d
      · simp [segments, h, hs, joinWith, ih]
      · simp only [segments, h, if_false, hs]
        cases more with
        | nil => simp only [joinWith] at ih ⊢; rw [ih]
        | cons m ms => simp only [joinWith, List.cons_append] at ih ⊢; rw [ih]

theorem segments_getLast_empty (d : Char) (s : Str)
    (h : (segments d s).getLast? = some []) : s = [] ∨ s.getLast? = some d := by
  induction s with
  | nil => simp
  | cons c cs ih =>
    right
    cases hs : segments d cs with
    | nil => exact absurd hs (segments_ne_nil d cs)
    | cons seg more =>
      by_cases hc : c = d
      · simp only [segments, hc, if_true, hs, List.getLast?_cons_cons] at h
        rw [hs] at ih
        rcases ih h with e | e
        · simp [e, hc]
        · cases cs with
          | nil => simp at e
          | cons x xs => rw [hc, List.getLast?_cons_cons]; exact e
      · simp only [segments, hc, if_false, hs] at h
        rw [hs] at ih
        cases more with
        | nil => simp at h
        | cons m ms =>
          rw [List.getLast?_cons_cons] at h
          rw [List.getLast?_cons_cons] at ih
          rcases ih h with e | e
          · rw [e, segments] at hs; simp at hs
          · cases cs with
            | nil => simp at e
            | cons x xs => rw [List.getLast?_cons_cons]; exact e


end Utility

/-- C6: `Utility::split(s, d)` is the list, in order, of the maximal `d`-free
segments obtained by cutting `s` at every occurrence of `d`, a final empty
segment omitted; no element contains `d`; for a non-empty `s` that does not
end with `d`, joining the elements with `d` gives back `s`; and
`split("", d) = []`, `split("a|", '|') = ["a"]`,
`split("fps on|help", '|') = ["fps on", "help"]`.  (The segments are the
cut of `s`: they are `d`-free and joined with `d` they give `s`.) -/
theorem C6_split_segments (s : Str) (d : Char) :
    Utility.split s d = Utility.omitFinalEmpty (Utility.segments d s) ∧
      (∀ e ∈ Utility.segments d s, d ∉ e) ∧
      Utility.joinWith d (Utility.segments d s) = s ∧
      (∀ e ∈ Utility.split s d, d ∉ e) ∧
      (s ≠ [] → s.getLast? ≠ some d → Utility.joinWith d (Utility.split s d) = s) ∧
      Utility.split [] d = [] ∧
      Utility.split "a|".toList '|' = ["a".toList] ∧
      Utility.split "fps on|help".toList '|' = ["fps on".toList, "help".toList] := by
  refine ⟨Utility.split_eq_segments s d, Utility.segments_delim_free d s,
    Utility.joinWith_segments d s, ?_, ?_, ?_, by decide, by decide⟩
  · intro e he
    rw [Utility.split_eq_segments] at he
    exact Utility.segments_delim_free d s e (Utility.omitFinalEmpty_subset _ e he)
  · intro hne hlast
    rw [Utility.split_eq_segments]
    have hseg : (Utility.segments d s).getLast? ≠ some [] := by
      intro h
      rcases Utility.segments_getLast_empty d s h with e | e
      · exact hne e
      · exact hlast e
    rw [Utility.omitFinalEmpty, if_neg hseg]
    exact Utility.joinWith_segments d s
  · rw [Utility.split_eq_segments]
    simp [Utility.segments, Utility.omitFinalEmpty]

theorem C6_split_segments_witness :
    Utility.joinWith '|' (Utility.split "fps on|help".toList '|') = "fps on|help".toList :=
  (C6_split_segments "fps on|help".toList '|').2.2.2.2.1 (by decide) (by decide)

/-! ## Theorems: the read primitives -/

theorem readBytesLoop_bytes (cs : Str) (k n : Nat) (pre old tail : Str) (rest : List Recv)
    (hnl : '\n' ∉ cs) (hold : old.length = cs.length) :
    readBytesLoop (cs.length + k) n pre.length (pre ++ old ++ tail)
        (cs.map Recv.byte ++ rest) =
      readBytesLoop k (n + cs.length) (pre.length + cs.length) (pre ++ cs ++ tail) rest := by
  induction cs generalizing n pre old with
  | nil =>
    cases old with
    | nil => simp
    | cons o os => simp at hold
  | cons c cs ih =>
    cases old with
    | nil => simp at hold
    | cons o os =>
      have hc : c ≠ '\n' := fun e => hnl (by simp [e])
      have hcs : '\n' ∉ cs := fun e => hnl (by simp [e])
      have hos : os.length = cs.length := by simpa using hold
      have hk : (c :: cs).length + k = (cs.length + k) + 1 := by
        simp only [List.length_cons]; omega
      have hset : (pre ++ o :: os ++ tail).set pre.length c = (pre ++ [c]) ++ os ++ tail := by
        rw [List.append_assoc, List.set_append_right _ _ (Nat.le_refl _)]
        simp
      rw [hk]
      simp only [List.map_cons, List.cons_append, readBytesLoop, recv, hc, if_false]
      rw [hset]
      have := ih (n + 1) (pre ++ [c]) os hcs hos
      simp only [List.length_append, List.length_singleton] at this
      rw [this]
      simp only [List.length_cons, List.append_assoc, List.singleton_append]
      congr 1 <;> omega

theorem readBytes_bytes (cs : Str) (k : Nat) (buf : Str) (rest : List Recv)
    (hnl : '\n' ∉ cs) (hbuf : cs.length ≤ buf.length) :
    readBytes (cs.map Recv.byte ++ rest) buf (cs.length + k) =
      readBytesLoop k cs.length cs.length (cs ++ buf.drop cs.length) rest := by
  have h := readBytesLoop_bytes cs k 0 [] (buf.take cs.length) (buf.drop cs.length) rest hnl
    (by simp [hbuf])
  simp only [List.nil_append, List.take_append_drop, List.length_nil, Nat.zero_add] at h
  exact h

/-- C4, as stated, fails: on the input "abc\n" with `maxlen = 10` the call
consumes the four bytes and clears `more`, but it returns 3 (the offset of
the newline), not 4. -/
theorem C4_readBytes_abc_returns_3 :
    (readBytes (delivered "abc\n".toList) (List.replicate 10 'x') 10).ret = 3 ∧
      (readBytes (delivered "abc\n".toList) (List.replicate 10 'x') 10).more = false ∧
      (readBytes (delivered "abc\n".toList) (List.replicate 10 'x') 10).rest = [] ∧
      (readBytes (delivered "abc\n".toList) (List.replicate 10 'x') 10).ret ≠ 4 := by
  decide

theorem readBytes_newline (cs : Str) (rest : List Recv) (buf : Str) (maxlen : Nat)
    (hnl : '\n' ∉ cs) (hk : cs.length < maxlen) (hbuf : maxlen ≤ buf.length) :
    readBytes (delivered (cs ++ ['\n']) ++ rest) buf maxlen =
      ⟨(cs.length : Int), false, cs ++ '\n' :: buf.drop (cs.length + 1), rest⟩ := by
  obtain ⟨j, rfl⟩ : ∃ j, maxlen = cs.length + (j + 1) := ⟨maxlen - cs.length - 1, by omega⟩
  have h := readBytes_bytes cs (j + 1) buf (Recv.byte '\n' :: rest) hnl (by omega)
  have hin : delivered (cs ++ ['\n']) ++ rest = cs.map Recv.byte ++ Recv.byte '\n' :: rest := by
    simp [delivered]
  rw [hin, h]
  have hlt : cs.length < buf.length := by omega
  have hset : (cs ++ List.drop cs.length buf).set cs.length '\n' =
      cs ++ '\n' :: buf.drop (cs.length + 1) := by
    rw [List.set_append_right _ _ (Nat.le_refl _), Nat.sub_self]
    cases hd : List.drop cs.length buf with
    | nil =>
      have := congrArg List.length hd
      simp only [List.length_drop, List.length_nil] at this
      omega
    | cons x xs =>
      have : List.drop (cs.length + 1) buf = xs := by
        rw [← List.drop_drop, hd]; rfl
      rw [this]; rfl
  simp only [readBytesLoop, recv, if_true, hset]

/-- C4, amended: on a stream delivered without interruption or error whose
first newline is at 0-based position `k < maxlen`, `readBytes` consumes
exactly the `k + 1` bytes up to and including the newline, stores them, clears
`more` and returns `k`, the number of bytes before the newline. -/
theorem C4_readBytes_newline (cs : Str) (rest : List Recv) (buf : Str) (maxlen : Nat)
    (hnl : '\n' ∉ cs) (hk : cs.length < maxlen) (hbuf : maxlen ≤ buf.length) :
    readBytes (delivered (cs ++ ['\n']) ++ rest) buf maxlen =
      ⟨(cs.length : Int), false, cs ++ '\n' :: buf.drop (cs.length + 1), rest⟩ :=
  readBytes_newline cs rest buf maxlen hnl hk hbuf

theorem C4_readBytes_newline_witness :
    readBytes (delivered ("abc".toList ++ ['\n']) ++ [Recv.byte 'z']) (List.replicate 10 'x') 10 =
      ⟨(("abc".toList).length : Int), false,
        "abc".toList ++ '\n' :: (List.replicate 10 'x').drop (("abc".toList).length + 1),
        [Recv.byte 'z']⟩ :=
  C4_readBytes_newline "abc".toList [Recv.byte 'z'] (List.replicate 10 'x') 10
    (by decide) (by decide) (by decide)

theorem readBytes_full (cs : Str) (rest : List Recv) (buf : Str) (maxlen : Nat)
    (hlen : cs.length = maxlen) (hnl : '\n' ∉ cs) (hbuf : maxlen ≤ buf.length) :
    readBytes (delivered cs ++ rest) buf maxlen =
      ⟨(maxlen : Int), true, cs ++ buf.drop maxlen, rest⟩ := by
  subst hlen
  have h := readBytes_bytes cs 0 buf rest hnl hbuf
  rw [Nat.add_zero] at h
  rw [delivered, h]
  rfl

/-- C5: on a stream delivered without interruption or error whose first
`maxlen` bytes contain no newline, `readBytes` consumes exactly those `maxlen`
bytes (whatever follows, such as a newline, stays on the socket), stores
them unchanged and in order in the buffer, returns `maxlen` and sets
`more`. -/
theorem C5_readBytes_full (cs : Str) (rest : List Recv) (buf : Str) (maxlen : Nat)
    (hlen : cs.length = maxlen) (hnl : '\n' ∉ cs) (hbuf : maxlen ≤ buf.length) :
    readBytes (delivered cs ++ rest) buf maxlen =
      ⟨(maxlen : Int), true, cs ++ buf.drop maxlen, rest⟩ :=
  readBytes_full cs rest buf maxlen hlen hnl hbuf

theorem C5_readBytes_full_witness :
    readBytes (delivered "abcdefghij".toList ++ [Recv.byte '\n']) (List.replicate 10 'x') 10 =
      ⟨((10 : Nat) : Int), true, "abcdefghij".toList ++ (List.replicate 10 'x').drop 10,
        [Recv.byte '\n']⟩ :=
  C5_readBytes_full "abcdefghij".toList [Recv.byte '\n'] (List.replicate 10 'x') 10
    (by decide) (by decide) (by decide)

theorem readlineLoop_bytes (cs : Str) (k n : Nat) (pre old tail : Str) (rest : List Recv)
    (hnl : '\n' ∉ cs) (hold : old.length = cs.length) :
    readlineLoop (cs.length + k) n pre.length (pre ++ old ++ tail)
        (cs.map Recv.byte ++ rest) =
      readlineLoop k (n + cs.length) (pre.length + cs.length) (pre ++ cs ++ tail) rest := by
  induction cs generalizing n pre old with
  | nil =>
    cases old with
    | nil => simp
    | cons o os => simp at hold
  | cons c cs ih =>
    cases old with
    | nil => simp at hold
    | cons o os =>
      have hc : c ≠ '\n' := fun e => hnl (by simp [e])
      have hcs : '\n' ∉ cs := fun e => hnl (by simp [e])
      have hos : os.length = cs.length := by simpa using hold
      have hk : (c :: cs).length + k = (cs.length + k) + 1 := by
        simp only [List.length_cons]; omega
      have hset : (pre ++ o :: os ++ tail).set pre.length c = (pre ++ [c]) ++ os ++ tail := by
        rw [List.append_assoc, List.set_append_right _ _ (Nat.le_refl _)]
        simp
      rw [hk]
      simp only [List.map_cons, List.cons_append, readlineLoop, recv, hc, if_false]
      rw [hset]
      have := ih (n + 1) (pre ++ [c]) os hcs hos
      simp only [List.length_append, List.length_singleton] at this
      rw [this]
      simp only [List.length_cons, List.append_assoc, List.singleton_append]
      congr 1 <;> omega

/-- On a stream delivered without interruption or error whose first newline
is at position `k`, with `k + 1 < maxlen` and room in the buffer, `readline`
stores the `k + 1` bytes and a NUL after them, and returns `k`. -/
theorem readline_newline (cs : Str) (rest : List Recv) (buf : Str) (maxlen : Nat)
    (hnl : '\n' ∉ cs) (hk : cs.length + 1 < maxlen) (hmax : maxlen < 2 ^ 64)
    (hbuf : cs.length + 2 ≤ buf.length) :
    readline (delivered (cs ++ ['\n']) ++ rest) buf maxlen =
      ⟨(cs.length : Int), false, cs ++ '\n' :: NUL :: buf.drop (cs.length + 2), rest⟩ := by
  have hm : (maxlen + 2 ^ 64 - 1) % 2 ^ 64 = maxlen - 1 := by omega
  obtain ⟨j, hj⟩ : ∃ j, maxlen - 1 = cs.length + (j + 1) := ⟨maxlen - 1 - cs.length - 1, by omega⟩
  have h := readlineLoop_bytes cs (j + 1) 0 [] (buf.take cs.length) (buf.drop cs.length)
    (Recv.byte '\n' :: rest) hnl (by rw [List.length_take]; omega)
  simp only [List.nil_append, List.take_append_drop, List.length_nil, Nat.zero_add] at h
  have hin : delivered (cs ++ ['\n']) ++ rest = cs.map Recv.byte ++ Recv.byte '\n' :: rest := by
    simp [delivered]
  rw [readline, hm, hj, hin, h]
  have hset : ((cs ++ List.drop cs.length buf).set cs.length '\n').set (cs.length + 1) NUL =
      cs ++ '\n' :: NUL :: buf.drop (cs.length + 2) := by
    cases hd : List.drop cs.length buf with
    | nil =>
      have := congrArg List.length hd
      simp only [List.length_drop, List.length_nil] at this
      omega
    | cons x xs =>
      have hx : List.drop (cs.length + 1) buf = xs := by
        rw [← List.drop_drop, hd]; rfl
      cases hd2 : xs with
      | nil =>
        have := congrArg List.length hx
        simp only [List.length_drop, hd2, List.length_nil] at this
        omega
      | cons y ys =>
        have hy : List.drop (cs.length + 2) buf = ys := by
          have h3 : List.drop (cs.length + 2) buf = List.drop 1 (List.drop (cs.length + 1) buf) := by
            rw [List.drop_drop]
          rw [h3, hx, hd2]; rfl
        rw [hy, List.set_append_right _ _ (Nat.le_refl _), Nat.sub_self,
          List.set_append_right _ _ (Nat.le_succ _)]
        simp
  simp only [readlineLoop, recv, if_true, hset]

theorem cstr_append_NUL (l tail : Str) (h : NUL ∉ l) : cstr (l ++ NUL :: tail) = l := by
  unfold cstr
  rw [List.takeWhile_append_of_pos]
  · simp
  · intro a ha
    have : a ≠ NUL := fun e => h (e ▸ ha)
    simpa using this

theorem cstr_of_no_NUL (l : Str) (h : NUL ∉ l) : cstr l = l := by
  have := cstr_append_NUL l [] h
  unfold cstr at this ⊢
  rw [List.takeWhile_eq_self_iff]
  intro a ha
  have : a ≠ NUL := fun e => h (e ▸ ha)
  simpa using this

theorem strncmpEq_eq_take (n : Nat) (s t : Str) (ht : NUL ∉ t) (hlen : t.length = n) :
    strncmpEq n s t = decide (s.take n = t) := by
  induction n generalizing s t with
  | zero =>
    have : t = [] := List.length_eq_zero.1 hlen
    simp [strncmpEq, this]
  | succ n ih =>
    cases t with
    | nil => simp at hlen
    | cons b t =>
      have hb : b ≠ NUL := fun e => ht (by simp [e])
      have ht2 : NUL ∉ t := fun e => ht (by simp [e])
      have hl2 : t.length = n := by simpa using hlen
      cases s with
      | nil =>
        have : ¬ NUL = b := fun e => hb e.symm
        simp [strncmpEq, this]
      | cons a s =>
        by_cases hab : a = b
        · subst hab
          simp only [strncmpEq, List.headD_cons, ne_eq, not_true_eq_false, if_false, hb,
            List.tail_cons, ih s t ht2 hl2, List.take_succ_cons, List.cons.injEq, true_and]
        · simp [strncmpEq, hab]

theorem readBytesLoop_ret_neg (k n ptr : Nat) (buf : Str) (input : List Recv) :
    (readBytesLoop k n ptr buf input).ret < 0 ↔ recvFails k input = true := by
  induction k generalizing n ptr buf input with
  | zero =>
    simp only [readBytesLoop, recvFails]
    constructor
    · intro h; omega
    · intro h; exact Bool.noConfusion h
  | succ k ih =>
    cases input with
    | nil => simp [readBytesLoop, recv, recvFails]
    | cons r rest =>
      cases r with
      | byte c =>
        by_cases hc : c = '\n'
        · simp only [readBytesLoop, recv, hc, if_true, recvFails]
          constructor
          · intro h; omega
          · intro h; exact Bool.noConfusion h
        · simp only [readBytesLoop, recv, hc, if_false, recvFails]
          exact ih _ _ _ _
      | closed => simp [readBytesLoop, recv, recvFails]
      | eintr =>
        simp only [readBytesLoop, recv, recvFails]
        exact ih _ _ _ _
      | error => simp [readBytesLoop, recv, recvFails]

theorem readBytesLoop_more (k n ptr : Nat) (buf : Str) (input : List Recv)
    (h : (readBytesLoop k n ptr buf input).more = true) : recvFails k input = false := by
  induction k generalizing n ptr buf input with
  | zero => rfl
  | succ k ih =>
    cases input with
    | nil => rfl
    | cons r rest =>
      cases r with
      | byte c =>
        by_cases hc : c = '\n'
        · simp only [recvFails, hc, if_true]
        · simp only [readBytesLoop, recv, hc, if_false] at h
          simp only [recvFails, hc, if_false]
          exact ih _ _ _ _ h
      | closed => rfl
      | eintr =>
        simp only [readBytesLoop, recv] at h
        simp only [recvFails]
        exact ih _ _ _ _ h
      | error => simp [readBytesLoop, recv] at h

theorem readlineLoop_ret_neg (k n ptr : Nat) (buf : Str) (input : List Recv) :
    (readlineLoop k n ptr buf input).ret < 0 ↔ recvFails k input = true := by
  induction k generalizing n ptr buf input with
  | zero =>
    simp only [readlineLoop, recvFails]
    constructor
    · intro h; omega
    · intro h; exact Bool.noConfusion h
  | succ k ih =>
    cases input with
    | nil => simp [readlineLoop, recv, recvFails]
    | cons r rest =>
      cases r with
      | byte c =>
        by_cases hc : c = '\n'
        · simp only [readlineLoop, recv, hc, if_true, recvFails]
          constructor
          · intro h; omega
          · intro h; exact Bool.noConfusion h
        · simp only [readlineLoop, recv, hc, if_false, recvFails]
          exact ih _ _ _ _
      | closed => simp [readlineLoop, recv, recvFails]
      | eintr =>
        simp only [readlineLoop, recv, recvFails]
        exact ih _ _ _ _
      | error => simp [readlineLoop, recv, recvFails]

theorem recvFails_error_mem (k : Nat) (input : List Recv) (h : recvFails k input = true) :
    Recv.error ∈ input := by
  induction k generalizing input with
  | zero => exact Bool.noConfusion h
  | succ k ih =>
    cases input with
    | nil => exact Bool.noConfusion h
    | cons r rest =>
      cases r with
      | byte c =>
        by_cases hc : c = '\n'
        · simp [recvFails, hc] at h
        · simp only [recvFails, hc, if_false] at h
          exact List.mem_cons_of_mem _ (ih _ h)
      | closed => exact Bool.noConfusion h
      | eintr =>
        simp only [recvFails] at h
        exact List.mem_cons_of_mem _ (ih _ h)
      | error => exact List.mem_cons_self _ _

theorem readBytesLoop_rest_suffix (k n ptr : Nat) (buf : Str) (input : List Recv) :
    (readBytesLoop k n ptr buf input).rest <:+ input := by
  induction k generalizing n ptr buf input with
  | zero => exact List.suffix_refl _
  | succ k ih =>
    cases input with
    | nil => simp [readBytesLoop, recv]
    | cons r rest =>
      cases r with
      | byte c =>
        by_cases hc : c = '\n'
        · simp only [readBytesLoop, recv, hc, if_true]
          exact List.suffix_cons _ _
        · simp only [readBytesLoop, recv, hc, if_false]
          exact (ih _ _ _ _).trans (List.suffix_cons _ _)
      | closed => exact List.suffix_cons _ _
      | eintr =>
        simp only [readBytesLoop, recv]
        exact (ih _ _ _ _).trans (List.suffix_cons _ _)
      | error => exact List.suffix_cons _ _

/-! ## Theorems: maps and the registry -/

namespace Map

theorem find_eq_none_iff {α : Type} (m : List (Str × α)) (k : Str) :
    find m k = none ↔ k ∉ keys m := by
  induction m with
  | nil => simp only [find, keys, List.map_nil, List.not_mem_nil, not_false_eq_true]
  | cons e rest ih =>
    obtain ⟨k1, v⟩ := e
    by_cases h : k1 = k
    · simp only [find, keys, h, if_true, List.map_cons, List.mem_cons, true_or, not_true_eq_false]
      simp
    · have h2 : ¬ k = k1 := fun e => h e.symm
      simp only [find, h, if_false, ih]
      simp only [keys, List.map_cons, List.mem_cons, h2, false_or]

theorem keys_erase_subset {α : Type} (m : List (Str × α)) (k x : Str)
    (hx : x ∈ keys (erase m k)) : x ∈ keys m := by
  induction m with
  | nil => exact hx
  | cons e rest ih =>
    obtain ⟨k1, v⟩ := e
    by_cases h : k1 = k
    · simp only [erase, h, if_true] at hx
      simp only [keys, List.map_cons, List.mem_cons]
      exact Or.inr hx
    · simp only [erase, h, if_false, keys, List.map_cons, List.mem_cons] at hx
      simp only [keys, List.map_cons, List.mem_cons]
      rcases hx with hx | hx
      · exact Or.inl hx
      · exact Or.inr (ih hx)

theorem nodup_erase {α : Type} (m : List (Str × α)) (k : Str) (hm : (keys m).Nodup) :
    (keys (erase m k)).Nodup := by
  induction m with
  | nil => exact hm
  | cons e rest ih =>
    obtain ⟨k1, v⟩ := e
    simp only [keys, List.map_cons, List.nodup_cons] at hm
    by_cases h : k1 = k
    · simp only [erase, h, if_true]
      exact hm.2
    · simp only [erase, h, if_false, keys, List.map_cons, List.nodup_cons]
      exact ⟨fun hx => hm.1 (keys_erase_subset rest k k1 hx), ih hm.2⟩

theorem find_erase_self {α : Type} (m : List (Str × α)) (k : Str) (hm : (keys m).Nodup) :
    find (erase m k) k = none := by
  induction m with
  | nil => rfl
  | cons e rest ih =>
    obtain ⟨k1, v⟩ := e
    simp only [keys, List.map_cons, List.nodup_cons] at hm
    by_cases h : k1 = k
    · simp only [erase, h, if_true]
      rw [find_eq_none_iff]
      exact h ▸ hm.1
    · simp only [erase, h, if_false, find]
      exact ih hm.2

theorem find_erase_ne {α : Type} (m : List (Str × α)) (k x : Str) (hx : x ≠ k) :
    find (erase m k) x = find m x := by
  induction m with
  | nil => rfl
  | cons e rest ih =>
    obtain ⟨k1, v⟩ := e
    by_cases h : k1 = k
    · have h1 : ¬ k1 = x := fun e => hx (e.symm.trans h)
      simp only [erase, h, if_true, find]
      rw [if_neg (fun e => hx e.symm)]
    · by_cases h1 : k1 = x
      · simp only [erase, h, if_false, find]
        rw [if_pos h1, if_pos h1]
      · simp only [erase, h, if_false, find, h1, ih]

theorem length_erase {α : Type} (m : List (Str × α)) (k : Str) (v : α)
    (hk : find m k = some v) : (erase m k).length + 1 = m.length := by
  induction m with
  | nil => exact absurd hk (by simp only [find]; exact fun e => Option.noConfusion e)
  | cons e rest ih =>
    obtain ⟨k1, v1⟩ := e
    by_cases h : k1 = k
    · simp only [erase, h, if_true, List.length_cons]
    · simp only [find, h, if_false] at hk
      simp only [erase, h, if_false, List.length_cons]
      rw [ih hk]

theorem find_append_single {α : Type} (m : List (Str × α)) (k x : Str) (v : α) :
    find (m ++ [(k, v)]) x = match find m x with
      | some u => some u
      | none => if k = x then some v else none := by
  induction m with
  | nil => simp only [List.nil_append, find]
  | cons e rest ih =>
    obtain ⟨k1, v1⟩ := e
    by_cases h : k1 = x
    · simp only [List.cons_append, find, h, if_true]
    · simp only [List.cons_append, find, h, if_false]
      exact ih

theorem keys_append_single {α : Type} (m : List (Str × α)) (k : Str) (v : α) :
    keys (m ++ [(k, v)]) = keys m ++ [k] := by
  simp only [keys, List.map_append, List.map_cons, List.map_nil]

theorem assign_absent {α : Type} (m : List (Str × α)) (k : Str) (v : α)
    (hk : k ∉ keys m) : assign m k v = m ++ [(k, v)] := by
  induction m with
  | nil => rfl
  | cons e rest ih =>
    obtain ⟨k1, v1⟩ := e
    simp only [keys, List.map_cons, List.mem_cons, not_or] at hk
    have h : ¬ k1 = k := fun e => hk.1 e.symm
    simp only [assign, h, if_false, List.cons_append]
    rw [ih hk.2]

theorem emplace_absent {α : Type} (m : List (Str × α)) (k : Str) (v : α)
    (hk : k ∉ keys m) : emplace m k v = m ++ [(k, v)] := by
  have : find m k = none := (find_eq_none_iff m k).2 hk
  simp only [emplace, this]

end Map

namespace Command

mutual
theorem copy_eq : ∀ c : Command, WF c = true → copy c = c
  | mk n h cb subs, hc => by
    rw [WF, Bool.and_eq_true, decide_eq_true_eq] at hc
    rw [copy, copySubs_eq subs [] hc.2 (by rw [List.nil_append]; exact hc.1)]
    rfl
theorem copySubs_eq : ∀ (l acc : List (Str × Command)), WFSubs l = true →
    (Map.keys (acc ++ l)).Nodup → copySubs l acc = acc ++ l
  | [], acc, _, _ => by rw [copySubs, List.append_nil]
  | (k, c) :: rest, acc, hl, hn => by
    rw [WFSubs, Bool.and_eq_true] at hl
    have hk : k ∉ Map.keys acc := by
      intro hmem
      simp only [Map.keys, List.map_append, List.map_cons] at hn
      have := (List.nodup_append.1 hn).2.2
      exact this hmem (List.mem_cons_self _ _)
    rw [copySubs, copy_eq c hl.1, Map.assign_absent acc k c hk,
      copySubs_eq rest (acc ++ [(k, c)]) hl.2
        (by rw [List.append_assoc]; exact hn), List.append_assoc]
    rfl
end

end Command

/-- What erase-then-insert does to a map with unique keys that has the key:
the size and the other entries stay, the key gets the new value, the keys
stay unique. -/
theorem Map.erase_insert {α : Type} (m : List (Str × α)) (k : Str) (v old : α)
    (hm : (Map.keys m).Nodup) (hk : Map.find m k = some old) :
    (Map.erase m k ++ [(k, v)]).length = m.length ∧
      (∀ x, x ≠ k → Map.find (Map.erase m k ++ [(k, v)]) x = Map.find m x) ∧
      Map.find (Map.erase m k ++ [(k, v)]) k = some v ∧
      (Map.keys (Map.erase m k ++ [(k, v)])).Nodup := by
  have habs : Map.find (Map.erase m k) k = none := Map.find_erase_self m k hm
  refine ⟨?_, ?_, ?_, ?_⟩
  · rw [List.length_append, List.length_singleton, Map.length_erase m k old hk]
  · intro x hx
    rw [Map.find_append_single, Map.find_erase_ne m k x hx]
    cases hf : Map.find m x with
    | some u => rfl
    | none => exact if_neg (fun e : k = x => hx e.symm)
  · rw [Map.find_append_single, habs]
    simp only [if_true]
  · rw [Map.keys_append_single]
    refine List.nodup_append.2 ⟨Map.nodup_erase m k hm, List.nodup_singleton k, ?_⟩
    intro a ha hb
    rw [List.mem_singleton] at hb
    subst hb
    exact (Map.find_eq_none_iff _ _).1 habs ha

theorem Command.copy_name (c : Command) : (Command.copy c).name = c.name := by
  cases c
  rfl

theorem Command.copy_help (c : Command) : (Command.copy c).help = c.help := by
  cases c
  rfl

theorem Console.addCommand_commands_absent (s : Console) (c : Command)
    (h : Map.find s.commands c.name = none) :
    (s.addCommand c).commands = s.commands ++ [(c.name, Command.copy c)] := by
  simp only [Console.addCommand, h]
  exact Map.emplace_absent _ _ _ ((Map.find_eq_none_iff _ _).1 h)

theorem Console.addCommand_commands_present (s : Console) (c old : Command)
    (hs : (Map.keys s.commands).Nodup) (h : Map.find s.commands c.name = some old) :
    (s.addCommand c).commands = Map.erase s.commands c.name ++ [(c.name, Command.copy c)] := by
  simp only [Console.addCommand, h]
  exact Map.emplace_absent _ _ _
    ((Map.find_eq_none_iff _ _).1 (Map.find_erase_self s.commands c.name hs))

theorem Command.addSubCommand_subCommands_present (p sub old : Command)
    (hp : (Map.keys p.subCommands).Nodup) (h : Map.find p.subCommands sub.name = some old) :
    (p.addSubCommand sub).subCommands =
      Map.erase p.subCommands sub.name ++ [(sub.name, Command.copy sub)] := by
  unfold Command.addSubCommand
  rw [h]
  exact Map.assign_absent _ _ _
    ((Map.find_eq_none_iff _ _).1 (Map.find_erase_self p.subCommands sub.name hp))

/-- C1: in every registry (a map: its keys are unique) and for every command
`c`, after `addCommand(c)` the lookup `getCommand(c.name)` is present and
gives a command with the name and the help text of `c`; the keys of the
registry are still unique. -/
theorem C1_addCommand_getCommand (s : Console) (c : Command)
    (hs : (Map.keys s.commands).Nodup) :
    (∃ found, (s.addCommand c).getCommand c.name = some found ∧
        found.name = c.name ∧ found.help = c.help) ∧
      (Map.keys (s.addCommand c).commands).Nodup := by
  cases hf : Map.find s.commands c.name with
  | none =>
    rw [Console.getCommand, Console.addCommand_commands_absent s c hf]
    refine ⟨⟨Command.copy c, ?_, Command.copy_name c, Command.copy_help c⟩, ?_⟩
    · rw [Map.find_append_single, hf]
      simp only [if_true]
    · rw [Map.keys_append_single]
      refine List.nodup_append.2 ⟨hs, List.nodup_singleton _, ?_⟩
      intro a ha hb
      rw [List.mem_singleton] at hb
      subst hb
      exact (Map.find_eq_none_iff _ _).1 hf ha
  | some old =>
    rw [Console.getCommand, Console.addCommand_commands_present s c old hs hf]
    have h := Map.erase_insert s.commands c.name (Command.copy c) old hs hf
    exact ⟨⟨Command.copy c, h.2.2.1, Command.copy_name c, Command.copy_help c⟩, h.2.2.2⟩

/-- C2: in a registry (a map: its keys are unique) that has a command named
`c.name`, `addCommand(c)` replaces it: the number of commands is unchanged,
the entry of every other name is unchanged, and `getCommand(c.name)` gives
the new command `c` (help, handler and sub-commands).  The same for
`Command::addSubCommand(sub)` on the sub-command map of a parent `p` that
has a sub-command named `sub.name`. -/
theorem C2_add_replaces (s : Console) (c old : Command) (p sub oldSub : Command)
    (hs : (Map.keys s.commands).Nodup) (hold : s.getCommand c.name = some old)
    (hc : c.WF = true)
    (hp : (Map.keys p.subCommands).Nodup) (holdSub : p.getSubCommand sub.name = some oldSub)
    (hsub : sub.WF = true) :
    ((s.addCommand c).commands.length = s.commands.length ∧
        (∀ m, m ≠ c.name → (s.addCommand c).getCommand m = s.getCommand m) ∧
        (s.addCommand c).getCommand c.name = some c) ∧
      ((p.addSubCommand sub).subCommands.length = p.subCommands.length ∧
        (∀ m, m ≠ sub.name → (p.addSubCommand sub).getSubCommand m = p.getSubCommand m) ∧
        (p.addSubCommand sub).getSubCommand sub.name = some sub) := by
  constructor
  · simp only [Console.getCommand] at hold ⊢
    rw [Console.addCommand_commands_present s c old hs hold, Command.copy_eq c hc]
    have h := Map.erase_insert s.commands c.name c old hs hold
    exact ⟨h.1, h.2.1, h.2.2.1⟩
  · simp only [Command.getSubCommand] at holdSub ⊢
    rw [Command.addSubCommand_subCommands_present p sub oldSub hp holdSub,
      Command.copy_eq sub hsub]
    have h := Map.erase_insert p.subCommands sub.name sub oldSub hp holdSub
    exact ⟨h.1, h.2.1, h.2.2.1⟩

theorem C1_addCommand_getCommand_witness :
    (∃ found, (sampleConsole.addCommand fpsCommand2).getCommand fpsCommand2.name = some found ∧
        found.name = fpsCommand2.name ∧ found.help = fpsCommand2.help) ∧
      (Map.keys (sampleConsole.addCommand fpsCommand2).commands).Nodup :=
  C1_addCommand_getCommand sampleConsole fpsCommand2 (by decide)

theorem C2_add_replaces_witness :
    ((sampleConsole.addCommand fpsCommand2).commands.length = sampleConsole.commands.length ∧
        (∀ m, m ≠ fpsCommand2.name →
          (sampleConsole.addCommand fpsCommand2).getCommand m = sampleConsole.getCommand m) ∧
        (sampleConsole.addCommand fpsCommand2).getCommand fpsCommand2.name = some fpsCommand2) ∧
      ((fpsCommand.addSubCommand onCommand2).subCommands.length = fpsCommand.subCommands.length ∧
        (∀ m, m ≠ onCommand2.name →
          (fpsCommand.addSubCommand onCommand2).getSubCommand m = fpsCommand.getSubCommand m) ∧
        (fpsCommand.addSubCommand onCommand2).getSubCommand onCommand2.name = some onCommand2) :=
  C2_add_replaces sampleConsole fpsCommand2 fpsCommand fpsCommand onCommand2
    (Command.mk "on".toList "Display the FPS on the bottom-left corner.".toList
      (some (Callback.host 1)) [])
    (by decide) rfl (by decide) (by decide) rfl (by decide)

/-! ## Theorems: what handlers leave alone -/

theorem Frame.refl (fd : Int) (w : World) : Frame fd w w :=
  ⟨rfl, rfl, rfl, [], (List.append_nil _).symm, Or.inl rfl⟩

theorem Frame.trans {fd : Int} {w w1 w2 : World} (h1 : Frame fd w w1) (h2 : Frame fd w1 w2) :
    Frame fd w w2 := by
  obtain ⟨c1, p1, s1, e1, t1, f1⟩ := h1
  obtain ⟨c2, p2, s2, e2, t2, f2⟩ := h2
  refine ⟨c2.trans c1, p2.trans p1, s2.trans s1, e1 ++ e2, ?_, ?_⟩
  · rw [t2, t1, List.append_assoc]
  · rcases f1 with f1 | ⟨m1, f1⟩
    · rcases f2 with f2 | ⟨m2, f2⟩
      · exact Or.inl (f2.trans f1)
      · exact Or.inr ⟨List.mem_append_right _ m2, by rw [f2, f1]⟩
    · rcases f2 with f2 | ⟨_, f2⟩
      · exact Or.inr ⟨List.mem_append_left _ m1, f2.trans f1⟩
      · refine Or.inr ⟨List.mem_append_left _ m1, ?_⟩
        rw [f2, f1, List.filter_filter]
        simp only [Bool.and_self]

theorem Frame.emit (fd : Int) (w : World) (evs : List Event) : Frame fd w (w.emit evs) :=
  ⟨rfl, rfl, rfl, evs, rfl, Or.inl rfl⟩

theorem Frame.setNet (fd fd1 : Int) (w : World) (script : List Recv) :
    Frame fd w (w.setNet fd1 script) :=
  ⟨rfl, rfl, rfl, [], (List.append_nil _).symm, Or.inl rfl⟩

theorem commandUpload_frame (env : Env) (fd : Int) (w : World) :
    Frame fd w (commandUpload env fd w) := by
  unfold commandUpload
  split
  · exact (Frame.setNet fd fd w _).trans (Frame.emit fd _ _)
  · simp only
    split
    · exact (Frame.setNet fd fd w _).trans (Frame.emit fd _ _)
    · exact ((Frame.setNet fd fd w _).trans (Frame.setNet fd fd _ _)).trans (Frame.emit fd _ _)

theorem invoke_frame (env : Env) (cb : Callback) (fd : Int) (args : Str) (w : World) :
    Frame fd w (invoke env cb fd args w) := by
  cases cb with
  | commandExit =>
    exact ⟨rfl, rfl, rfl, [Event.close fd], rfl, Or.inr ⟨List.mem_singleton.2 rfl, rfl⟩⟩
  | commandDebugMsg => exact Frame.emit fd _ _
  | commandDebugMsgSubCommandOnOff =>
    exact ⟨rfl, rfl, rfl, [], (List.append_nil _).symm, Or.inl rfl⟩
  | commandHelp => exact Frame.emit fd _ _
  | commandUpload => exact commandUpload_frame env fd w
  | commandVersion => exact Frame.emit fd _ _
  | host id => exact Frame.emit fd _ _

theorem commandGeneric_frame (env : Env) (c : Command) (fd : Int) (args : Str) (w : World) :
    Frame fd w (c.commandGeneric env fd args w) := by
  unfold Command.commandGeneric
  split
  · exact Frame.emit fd _ _
  · split
    · split
      · exact invoke_frame env _ fd args w
      · exact Frame.refl fd w
    · split
      · exact invoke_frame env _ fd args w
      · exact Frame.refl fd w

theorem performCommand_ok_frame (env : Env) (fd : Int) (command : Str) (w w1 : World)
    (h : performCommand env fd command w = Except.ok w1) : Frame fd w w1 := by
  unfold performCommand at h
  split at h
  · exact Except.noConfusion h
  · split at h
    · injection h with h
      rw [← h]
      exact commandGeneric_frame env _ fd _ w
    · exact Except.noConfusion h

theorem performCommand_dispatchable (env : Env) (fd : Int) (command : Str) (w : World)
    (h : dispatchable w.console.commands command = true) :
    ∃ w1, performCommand env fd command w = Except.ok w1 := by
  unfold dispatchable at h
  unfold performCommand
  cases hs : Utility.split command ' ' with
  | nil => rw [hs] at h; exact Bool.noConfusion h
  | cons a0 rest =>
    rw [hs] at h
    simp only at h ⊢
    cases hf : Map.find w.console.commands (Utility.trim a0) with
    | none => rw [hf] at h; exact Bool.noConfusion h
    | some cmd => exact ⟨_, rfl⟩

theorem performCommand_not_dispatchable (env : Env) (fd : Int) (command : Str) (w : World)
    (h : dispatchable w.console.commands command = false) :
    performCommand env fd command w = Except.error (faultMessage command) := by
  unfold dispatchable at h
  unfold performCommand faultMessage
  cases hs : Utility.split command ' ' with
  | nil => rfl
  | cons a0 rest =>
    rw [hs] at h
    simp only at h ⊢
    cases hf : Map.find w.console.commands (Utility.trim a0) with
    | none => rfl
    | some cmd => rw [hf] at h; exact Bool.noConfusion h

/-- The statements before the first one that cannot be dispatched are run,
then the loop is left with the fault of that statement. -/
theorem performAll_fault (env : Env) (fd : Int) (pre : List Str) (bad : Str) (post : List Str)
    (w : World)
    (hpre : ∀ s ∈ pre, dispatchable w.console.commands (Utility.trim s) = true)
    (hbad : dispatchable w.console.commands (Utility.trim bad) = false) :
    ∃ w1, performAll env fd (pre ++ bad :: post) w = (w1, some (faultMessage (Utility.trim bad))) ∧
      Frame fd w w1 ∧ (pre = [] → w1 = w) := by
  induction pre generalizing w with
  | nil =>
    refine ⟨w, ?_, Frame.refl fd w, fun _ => rfl⟩
    simp only [List.nil_append, performAll,
      performCommand_not_dispatchable env fd _ w hbad]
  | cons s pre ih =>
    obtain ⟨w1, h1⟩ := performCommand_dispatchable env fd _ w (hpre s (List.mem_cons_self _ _))
    have f1 := performCommand_ok_frame env fd _ w w1 h1
    obtain ⟨w2, h2, f2, _⟩ := ih w1
      (fun x hx => by rw [f1.commands]; exact hpre x (List.mem_cons_of_mem _ hx))
      (by rw [f1.commands]; exact hbad)
    refine ⟨w2, ?_, f1.trans f2, fun h => List.noConfusion h⟩
    simp only [List.cons_append, performAll, h1]
    exact h2

/-! ## Theorems: the dispatcher -/

theorem World.setNet_setNet (w : World) (fd : Int) (a b : List Recv) :
    (w.setNet fd a).setNet fd b = w.setNet fd b := by
  unfold World.setNet
  congr 1
  funext x
  by_cases h : x = fd <;> simp [h]

theorem sentTo_sendLoop (fd : Int) (fuel : Nat) (buf : Str) (h : buf.length ≤ fuel) :
    sentTo fd (Utility.sendLoop fd fuel buf) = buf := by
  induction fuel generalizing buf with
  | zero =>
    have : buf = [] := List.length_eq_zero.1 (Nat.le_zero.1 h)
    rw [this]; rfl
  | succ fuel ih =>
    cases buf with
    | nil => rfl
    | cons c cs =>
      simp only [Utility.sendLoop, sentTo, if_true]
      rw [ih _ (by
        rw [List.length_drop]
        simp only [List.length_cons, SEND_BUFSIZ] at h ⊢
        omega)]
      exact List.take_append_drop _ _

theorem sentTo_sendToConsole (prompt : Str) (fd : Int) (buffer : Str)
    (h : prompt.length ≠ buffer.length) :
    sentTo fd (Utility.sendToConsole prompt fd buffer) = buffer := by
  unfold Utility.sendToConsole
  rw [if_neg (fun hh => h hh.1)]
  exact sentTo_sendLoop fd _ buffer (Nat.le_refl _)

/-- C7, as stated, fails: for the statement "frobnicate now", whose first
token "frobnicate" is not registered, the message of the fault carries the
whole statement, "Unknown command frobnicate now. Type 'help' for options\n",
and not "Unknown command frobnicate. Type 'help' for options\n". -/
theorem C7_fault_names_whole_statement :
    Utility.split "frobnicate now".toList ' ' = ["frobnicate".toList, "now".toList] ∧
      sampleConsole.getCommand (Utility.trim "frobnicate".toList) = none ∧
      performCommand sampleEnv 7 "frobnicate now".toList (sampleWorld []) =
        Except.error "Unknown command frobnicate now. Type 'help' for options\n".toList ∧
      "Unknown command frobnicate now. Type 'help' for options\n".toList ≠
        "Unknown command ".toList ++ "frobnicate".toList ++
          ". Type 'help' for options\n".toList :=
  ⟨by decide, rfl, rfl, by decide⟩

/-- C7, amended: for every statement whose first space-delimited token,
trimmed, is not a registered command name, `performCommand` calls no handler
(it leaves by the fault, before any call) and raises a fault whose message
is "Unknown command " followed by the whole statement and the hint
". Type 'help' for options\n"; a statement without a space is its own first
token. -/
theorem C7_performCommand_unknown (env : Env) (fd : Int) (command : Str) (w : World)
    (a0 : Str) (rest : List Str) (hsplit : Utility.split command ' ' = a0 :: rest)
    (hunknown : w.console.getCommand (Utility.trim a0) = none) :
    performCommand env fd command w =
        Except.error ("Unknown command ".toList ++ command ++
          ". Type 'help' for options\n".toList) ∧
      (' ' ∉ command → a0 = command ∧ rest = []) := by
  constructor
  · unfold performCommand
    rw [hsplit]
    simp only
    unfold Console.getCommand at hunknown
    rw [hunknown]
    rfl
  · intro hsp
    have h1 := Utility.split_eq_segments command ' '
    rw [Utility.segments_no_delim ' ' command hsp, hsplit] at h1
    unfold Utility.omitFinalEmpty at h1
    split at h1
    · exact List.noConfusion h1
    · injection h1 with h1 h2
      exact ⟨h1, h2⟩

theorem C7_performCommand_unknown_witness :
    performCommand sampleEnv 7 "frobnicate".toList (sampleWorld []) =
        Except.error ("Unknown command ".toList ++ "frobnicate".toList ++
          ". Type 'help' for options\n".toList) ∧
      (' ' ∉ "frobnicate".toList → "frobnicate".toList = "frobnicate".toList ∧
        ([] : List Str) = []) :=
  C7_performCommand_unknown sampleEnv 7 "frobnicate".toList (sampleWorld [])
    "frobnicate".toList [] (by decide) rfl

theorem runCmdLine_fault (env : Env) (fd : Int) (cmdLine : Str) (w : World)
    (pre : List Str) (bad : Str) (post : List Str)
    (hstmts : Utility.split cmdLine w.console.commandSeparator = pre ++ bad :: post)
    (hpre : ∀ s ∈ pre, dispatchable w.console.commands (Utility.trim s) = true)
    (hbad : dispatchable w.console.commands (Utility.trim bad) = false) :
    ∃ w1, Frame fd w w1 ∧ (pre = [] → w1 = w) ∧
      runCmdLine env fd cmdLine w =
        (w1.emit (Utility.sendToConsole w.console.prompt fd
          (cstr (faultMessage (Utility.trim bad))))).emit
          (Utility.sendPrompt w.console.prompt fd) := by
  obtain ⟨w1, h1, f1, e1⟩ := performAll_fault env fd pre bad post w hpre hbad
  refine ⟨w1, f1, e1, ?_⟩
  unfold runCmdLine
  simp only [hstmts, h1, World.emit, f1.prompt]

/-- C9, as stated, fails: when the peer has closed and the first `recv`
returns 0, `readBytes` returns 0, which is not negative, and `parseCommand`
sends the prompt and returns true. -/
theorem C9_closed_peer_returns_true :
    (parseCommand sampleEnv 7 (List.replicate 512 NUL) (sampleWorld [Recv.closed])).1 = true ∧
      (parseCommand sampleEnv 7 (List.replicate 512 NUL) (sampleWorld [Recv.closed])).2.trace =
        [Event.send 7 "> ".toList] :=
  ⟨rfl, rfl⟩

/-- C9, amended: `parseCommand` returns false if and only if a `recv` failed
with an error other than an interruption while the line was being read:
either among the at most 6 attempts of `readBytes` (before a newline or the
close of the peer), or, when these 6 attempts ended with neither and the
buffer does not start with "upload", among the at most 505 attempts of the
`readline` that follows.  The end of the stream alone never makes it return
false: on a script without a receive error it returns true. -/
theorem C9_parseCommand_false_iff (env : Env) (fd : Int) (buf0 : Str) (w : World) :
    ((parseCommand env fd buf0 w).1 = false ↔
      (recvFails 6 (w.net fd) = true ∨
        ((readBytes (w.net fd) buf0 6).more = true ∧
          strncmpEq 6 (readBytes (w.net fd) buf0 6).buf "upload".toList = false ∧
          recvFails 505 (readBytes (w.net fd) buf0 6).rest = true))) ∧
      (Recv.error ∉ w.net fd → (parseCommand env fd buf0 w).1 = true) := by
  have hiff : ((parseCommand env fd buf0 w).1 = false ↔
      (recvFails 6 (w.net fd) = true ∨
        ((readBytes (w.net fd) buf0 6).more = true ∧
          strncmpEq 6 (readBytes (w.net fd) buf0 6).buf "upload".toList = false ∧
          recvFails 505 (readBytes (w.net fd) buf0 6).rest = true))) := by
    have h1 := readBytesLoop_ret_neg 6 0 0 buf0 (w.net fd)
    have h2 := readlineLoop_ret_neg 505 0 0 ((readBytes (w.net fd) buf0 6).buf.drop 6)
      (readBytes (w.net fd) buf0 6).rest
    have h505 : (512 - 6 + 2 ^ 64 - 1) % 2 ^ 64 = 505 := by norm_num
    unfold parseCommand
    simp only
    by_cases hneg : (readBytes (w.net fd) buf0 6).ret < 0
    · rw [if_pos hneg]
      exact ⟨fun _ => Or.inl (h1.1 hneg), fun _ => rfl⟩
    · have hnf : ¬ recvFails 6 (w.net fd) = true := fun h => hneg (h1.2 h)
      rw [if_neg hneg]
      by_cases hup : strncmpEq 6 (readBytes (w.net fd) buf0 6).buf "upload".toList = true
      · rw [if_pos hup]
        constructor
        · intro h
          split at h <;> exact Bool.noConfusion h
        · rintro (h | ⟨_, h, _⟩)
          · exact absurd h hnf
          · rw [hup] at h; exact Bool.noConfusion h
      · rw [if_neg hup]
        by_cases hmore : (readBytes (w.net fd) buf0 6).more = false
        · rw [if_pos hmore]
          constructor
          · intro h; exact Bool.noConfusion h
          · rintro (h | ⟨h, _, _⟩)
            · exact absurd h hnf
            · rw [hmore] at h; exact Bool.noConfusion h
        · rw [if_neg hmore]
          unfold readline
          rw [h505]
          by_cases hrl : (readlineLoop 505 0 0 ((readBytes (w.net fd) buf0 6).buf.drop 6)
              (readBytes (w.net fd) buf0 6).rest).ret < 0
          · rw [if_pos hrl]
            refine ⟨fun _ => Or.inr ⟨?_, ?_, h2.1 hrl⟩, fun _ => rfl⟩
            · simpa using hmore
            · simpa using hup
          · rw [if_neg hrl]
            constructor
            · intro h; exact Bool.noConfusion h
            · rintro (h | ⟨_, _, h⟩)
              · exact absurd h hnf
              · exact absurd (h2.2 h) hrl
  refine ⟨hiff, ?_⟩
  intro hno
  cases hr : (parseCommand env fd buf0 w).1 with
  | true => rfl
  | false =>
    exfalso
    rcases hiff.1 hr with h | ⟨_, _, h⟩
    · exact hno (recvFails_error_mem 6 _ h)
    · exact hno ((readBytesLoop_rest_suffix 6 0 0 buf0 (w.net fd)).mem
        (recvFails_error_mem 505 _ h))

theorem C9_parseCommand_false_iff_witness :
    (parseCommand sampleEnv 7 (List.replicate 512 NUL)
      (sampleWorld (delivered "he".toList ++ [Recv.closed]))).1 = true :=
  (C9_parseCommand_false_iff sampleEnv 7 (List.replicate 512 NUL)
    (sampleWorld (delivered "he".toList ++ [Recv.closed]))).2 (by decide)

/-! ## Theorems: the file name of an upload -/

theorem uploadNameLoop_invalid (pre : List Recv) (c : Char) (rest : List Recv) (j ptr : Nat)
    (buf : Str)
    (hpre : ∀ r ∈ pre, keepsName r = true)
    (hc : c ∈ invalid_filename_char) :
    uploadNameLoop (pre.length + (j + 1)) ptr buf (pre ++ Recv.byte c :: rest) = (none, rest) := by
  induction pre generalizing ptr buf with
  | nil => simp only [List.length_nil, Nat.zero_add, List.nil_append, uploadNameLoop, recv, hc,
      if_true]
  | cons r pre ih =>
    have hk : (r :: pre).length + (j + 1) = (pre.length + (j + 1)) + 1 := by
      simp only [List.length_cons]; omega
    have hrest : ∀ r ∈ pre, keepsName r = true :=
      fun x hx => hpre x (List.mem_cons_of_mem _ hx)
    have hr := hpre r (List.mem_cons_self _ _)
    rw [hk]
    cases r with
    | byte x =>
      simp only [keepsName, Bool.and_eq_true, decide_eq_true_eq] at hr
      simp only [List.cons_append, uploadNameLoop, recv, hr.1, hr.2, if_false]
      exact ih _ _ hrest
    | closed => exact Bool.noConfusion hr
    | eintr =>
      simp only [List.cons_append, uploadNameLoop, recv]
      exact ih _ _ hrest
    | error => exact Bool.noConfusion hr

theorem sendToConsole_sends (prompt : Str) (fd : Int) (buffer : Str) :
    ∀ e ∈ Utility.sendToConsole prompt fd buffer, e.isFile = false := by
  have hloop : ∀ (fuel : Nat) (buf : Str), ∀ e ∈ Utility.sendLoop fd fuel buf,
      e.isFile = false := by
    intro fuel
    induction fuel with
    | zero => intro buf e he; exact absurd he (List.not_mem_nil _)
    | succ fuel ih =>
      intro buf e he
      cases buf with
      | nil => exact absurd he (List.not_mem_nil _)
      | cons c cs =>
        simp only [Utility.sendLoop, List.mem_cons] at he
        rcases he with he | he
        · rw [he]; rfl
        · exact ih _ e he
  intro e he
  unfold Utility.sendToConsole at he
  split at he
  · exact absurd he (List.not_mem_nil _)
  · exact hloop _ _ e he

theorem sendToConsole_short (prompt : Str) (fd : Int) (buffer : Str)
    (hne : prompt ≠ buffer) (hnul : NUL ∉ buffer) (hpos : buffer ≠ [])
    (hlen : buffer.length ≤ 512) :
    Utility.sendToConsole prompt fd buffer = [Event.send fd buffer] := by
  unfold Utility.sendToConsole
  have hcond : ¬ (prompt.length = buffer.length ∧
      strncmpEq buffer.length prompt buffer = true) := by
    rintro ⟨h1, h2⟩
    rw [strncmpEq_eq_take _ _ _ hnul rfl, decide_eq_true_eq,
      List.take_of_length_le (Nat.le_of_eq h1)] at h2
    exact hne h2
  rw [if_neg hcond]
  cases buffer with
  | nil => exact absurd rfl hpos
  | cons c cs =>
    simp only [List.length_cons, Utility.sendLoop, SEND_BUFSIZ]
    rw [List.take_of_length_le (by simpa using hlen),
      List.drop_of_length_le (by simpa using hlen)]
    cases cs.length <;> rfl

/-- C10, as stated, fails in one configuration: when the prompt has been set
to the very text of the reply, `sendToConsole` takes the reply for the prompt
and sends nothing.  The upload of "evil:name" is still rejected without any
file being opened or written. -/
theorem C10_reply_suppressed_when_prompt :
    (commandUpload sampleEnv 7
      { console := { sampleConsole with prompt := "upload: invalid file name!\n".toList }
        net := fun fd => if fd = 7 then delivered "evil:name AAAA\n".toList else []
        trace := [] }).trace = [] :=
  rfl

/-- C10, amended: when, within the first 511 receive attempts of the file name
phase and before any space, close or error, one of the forbidden characters
`: / \ ? % * < > " |` CR LF TAB is received, `commandUpload` hands the reply
"upload: invalid file name!\n" to `sendToConsole` and returns: no file is
opened or created and no byte is written, the socket is left just after the
forbidden character and the console is unchanged.  The reply is sent as one
`send`, unless the prompt has been set to exactly that text. -/
theorem C10_upload_rejects (env : Env) (fd : Int) (w : World) (pre : List Recv) (c : Char)
    (rest : List Recv)
    (hnet : w.net fd = pre ++ Recv.byte c :: rest)
    (hpre : ∀ r ∈ pre, keepsName r = true)
    (hlen : pre.length < 511)
    (hc : c ∈ invalid_filename_char) :
    ∃ evs, (commandUpload env fd w).trace = w.trace ++ evs ∧
      evs = Utility.sendToConsole w.console.prompt fd "upload: invalid file name!\n".toList ∧
      (∀ e ∈ evs, e.isFile = false) ∧
      (w.console.prompt ≠ "upload: invalid file name!\n".toList →
        evs = [Event.send fd "upload: invalid file name!\n".toList]) ∧
      (commandUpload env fd w).net fd = rest ∧
      (commandUpload env fd w).console = w.console := by
  obtain ⟨j, hj⟩ : ∃ j, 511 = pre.length + (j + 1) := ⟨511 - pre.length - 1, by omega⟩
  have hloop := uploadNameLoop_invalid pre c rest j 0 (List.replicate 512 NUL) hpre hc
  rw [← hj, ← hnet] at hloop
  refine ⟨_, ?_, rfl, sendToConsole_sends _ _ _, ?_, ?_, ?_⟩
  · unfold commandUpload
    rw [hloop]
    rfl
  · intro hp
    exact sendToConsole_short _ fd _ hp (by decide) (by decide) (by decide)
  · unfold commandUpload
    rw [hloop]
    simp [World.emit, World.setNet]
  · unfold commandUpload
    rw [hloop]
    rfl

theorem C10_upload_rejects_witness :
    ∃ evs, (commandUpload sampleEnv 7 (sampleWorld (delivered "evil:name AAAA\n".toList))).trace
        = (sampleWorld (delivered "evil:name AAAA\n".toList)).trace ++ evs ∧
      evs = Utility.sendToConsole sampleConsole.prompt 7 "upload: invalid file name!\n".toList ∧
      (∀ e ∈ evs, e.isFile = false) ∧
      (sampleConsole.prompt ≠ "upload: invalid file name!\n".toList →
        evs = [Event.send 7 "upload: invalid file name!\n".toList]) ∧
      (commandUpload sampleEnv 7 (sampleWorld (delivered "evil:name AAAA\n".toList))).net 7
        = delivered "name AAAA\n".toList ∧
      (commandUpload sampleEnv 7 (sampleWorld (delivered "evil:name AAAA\n".toList))).console
        = sampleConsole :=
  C10_upload_rejects sampleEnv 7 (sampleWorld (delivered "evil:name AAAA\n".toList))
    (delivered "evil".toList) ':' (delivered "name AAAA\n".toList) rfl
    (by decide) (by decide) (by decide)

/-! ## Theorems: the pointer level -/

namespace Mem

theorem read_lt {h : Heap} {a : Nat} {o : Obj} (hr : read h a = some o) : a < h.length := by
  unfold read at hr
  by_contra hlt
  rw [List.getElem?_eq_none (Nat.le_of_not_lt hlt)] at hr
  exact Option.noConfusion hr

theorem read_write_same (h : Heap) (a : Nat) (o : Obj) (ha : a < h.length) :
    read (write h a o) a = some o := by
  unfold read write
  rw [List.getElem?_set_self (by simpa using ha)]
  rfl

theorem read_write_ne (h : Heap) (a x : Nat) (o : Obj) (hx : x ≠ a) :
    read (write h a o) x = read h x := by
  unfold read write
  rw [List.getElem?_set_ne (fun e => hx e.symm)]

theorem length_write (h : Heap) (a : Nat) (o : Obj) : (write h a o).length = h.length := by
  unfold write
  exact List.length_set _ _ _

theorem read_free_same (h : Heap) (a : Nat) : read (free h a) a = none := by
  unfold read free
  by_cases ha : a < h.length
  · rw [List.getElem?_set_self (by simpa using ha)]
    rfl
  · rw [List.getElem?_eq_none (by rw [List.length_set]; omega)]
    rfl

theorem read_free_ne (h : Heap) (a x : Nat) (hx : x ≠ a) : read (free h a) x = read h x := by
  unfold read free
  rw [List.getElem?_set_ne (fun e => hx e.symm)]

theorem length_free (h : Heap) (a : Nat) : (free h a).length = h.length := by
  unfold free
  exact List.length_set _ _ _

theorem read_alloc_old (h : Heap) (x : Nat) (hx : x < h.length) :
    read (alloc h).1 x = read h x := by
  unfold read alloc
  rw [List.getElem?_append_left hx]

theorem read_alloc_new (h : Heap) : read (alloc h).1 (alloc h).2 = some ⟨[], [], none, []⟩ := by
  unfold read alloc
  simp

theorem length_alloc (h : Heap) : (alloc h).1.length = h.length + 1 := by
  unfold alloc
  simp

theorem alloc_snd (h : Heap) : (alloc h).2 = h.length := rfl

mutual
theorem Owns.lt : ∀ (t : Command) (h : Heap) (a : Nat) (fp : List Nat),
    Owns h t a fp → ∀ x ∈ fp, x < h.length
  | Command.mk n hl cb subs, h, a, fp, ho => by
    rw [Owns] at ho
    obtain ⟨o, fp1, hr, _, _, _, hall, _, hfp, _⟩ := ho
    intro x hx
    rw [hfp] at hx
    rcases List.mem_cons.1 hx with hx | hx
    · rw [hx]; exact read_lt hr
    · exact OwnsAll.lt_all subs h o.subCommands fp1 hall x hx
theorem OwnsAll.lt_all : ∀ (subs : List (Str × Command)) (h : Heap) (entries : List (Str × Nat))
    (fp : List Nat), OwnsAll h subs entries fp → ∀ x ∈ fp, x < h.length
  | [], h, entries, fp, ho => by
    rw [OwnsAll] at ho
    intro x hx
    rw [ho.2] at hx
    exact absurd hx (List.not_mem_nil _)
  | (k, t) :: subs, h, entries, fp, ho => by
    rw [OwnsAll] at ho
    obtain ⟨p, rest, fp1, fp2, _, h1, h2, _, hfp⟩ := ho
    intro x hx
    rw [hfp] at hx
    rcases List.mem_append.1 hx with hx | hx
    · exact Owns.lt t h p fp1 h1 x hx
    · exact OwnsAll.lt_all subs h rest fp2 h2 x hx
end

mutual
theorem Owns.frame : ∀ (t : Command) (h h1 : Heap) (a : Nat) (fp : List Nat),
    Owns h t a fp → (∀ x ∈ fp, read h1 x = read h x) → Owns h1 t a fp
  | Command.mk n hl cb subs, h, h1, a, fp, ho, hsame => by
    rw [Owns] at ho ⊢
    obtain ⟨o, fp1, hr, e1, e2, e3, hall, hn, hfp, hk⟩ := ho
    refine ⟨o, fp1, ?_, e1, e2, e3, ?_, hn, hfp, hk⟩
    · rw [hsame a (by rw [hfp]; exact List.mem_cons_self _ _)]
      exact hr
    · exact OwnsAll.frame_all subs h h1 o.subCommands fp1 hall
        (fun x hx => hsame x (by rw [hfp]; exact List.mem_cons_of_mem _ hx))
theorem OwnsAll.frame_all : ∀ (subs : List (Str × Command)) (h h1 : Heap)
    (entries : List (Str × Nat)) (fp : List Nat),
    OwnsAll h subs entries fp → (∀ x ∈ fp, read h1 x = read h x) → OwnsAll h1 subs entries fp
  | [], h, h1, entries, fp, ho, _ => by
    rw [OwnsAll] at ho ⊢
    exact ho
  | (k, t) :: subs, h, h1, entries, fp, ho, hsame => by
    rw [OwnsAll] at ho ⊢
    obtain ⟨p, rest, fp1, fp2, he, o1, o2, hd, hfp⟩ := ho
    refine ⟨p, rest, fp1, fp2, he, ?_, ?_, hd, hfp⟩
    · exact Owns.frame t h h1 p fp1 o1
        (fun x hx => hsame x (by rw [hfp]; exact List.mem_append_left _ hx))
    · exact OwnsAll.frame_all subs h h1 rest fp2 o2
        (fun x hx => hsame x (by rw [hfp]; exact List.mem_append_right _ hx))
end

/-- A tree is not touched by an operation on a tree with a disjoint
footprint. -/
theorem Owns.step {h h1 : Heap} {t : Command} {b : Nat} {fb fa : List Nat}
    (ho : Owns h t b fb) (hd : ∀ x ∈ fb, x ∉ fa) (hs : Step h fa h1) : Owns h1 t b fb :=
  Owns.frame t h h1 b fb ho (fun x hx => hs.2 x (Owns.lt t h b fb ho x hx) (hd x hx))

theorem OwnsAll.step_all {h h1 : Heap} {subs : List (Str × Command)} {entries : List (Str × Nat)}
    {fb fa : List Nat}
    (ho : OwnsAll h subs entries fb) (hd : ∀ x ∈ fb, x ∉ fa) (hs : Step h fa h1) :
    OwnsAll h1 subs entries fb :=
  OwnsAll.frame_all subs h h1 entries fb ho
    (fun x hx => hs.2 x (OwnsAll.lt_all subs h entries fb ho x hx) (hd x hx))

theorem Owns.root_mem {h : Heap} {t : Command} {a : Nat} {fp : List Nat} (ho : Owns h t a fp) :
    a ∈ fp := by
  cases t with
  | mk n hl cb subs =>
    rw [Owns] at ho
    obtain ⟨o, fp1, _, _, _, _, _, _, hfp, _⟩ := ho
    rw [hfp]
    exact List.mem_cons_self _ _

theorem OwnsAll.keys_eq : ∀ (subs : List (Str × Command)) (h : Heap)
    (entries : List (Str × Nat)) (fp : List Nat),
    OwnsAll h subs entries fp → Map.keys entries = Map.keys subs
  | [], h, entries, fp, ho => by
    rw [OwnsAll] at ho
    rw [ho.1]
    rfl
  | (k, t) :: subs, h, entries, fp, ho => by
    rw [OwnsAll] at ho
    obtain ⟨p, rest, fp1, fp2, he, _, o2, _, _⟩ := ho
    rw [he]
    simp only [Map.keys, List.map_cons]
    exact congrArg _ (OwnsAll.keys_eq subs h rest fp2 o2)

theorem OwnsAll.append : ∀ (subs1 : List (Str × Command)) (h : Heap)
    (entries1 : List (Str × Nat)) (fp1 : List Nat) (subs2 : List (Str × Command))
    (entries2 : List (Str × Nat)) (fp2 : List Nat),
    OwnsAll h subs1 entries1 fp1 → OwnsAll h subs2 entries2 fp2 → (∀ x ∈ fp1, x ∉ fp2) →
    OwnsAll h (subs1 ++ subs2) (entries1 ++ entries2) (fp1 ++ fp2)
  | [], h, entries1, fp1, subs2, entries2, fp2, o1, o2, _ => by
    rw [OwnsAll] at o1
    rw [o1.1, o1.2]
    exact o2
  | (k, t) :: subs1, h, entries1, fp1, subs2, entries2, fp2, o1, o2, hd => by
    rw [OwnsAll] at o1
    obtain ⟨p, rest, fa, fb, he, oa, ob, hab, hfp⟩ := o1
    rw [List.cons_append, OwnsAll]
    refine ⟨p, rest ++ entries2, fa, fb ++ fp2, ?_, oa, ?_, ?_, ?_⟩
    · rw [he]; rfl
    · exact OwnsAll.append subs1 h rest fb subs2 entries2 fp2 ob o2
        (fun x hx => hd x (by rw [hfp]; exact List.mem_append_right _ hx))
    · intro x hx hmem
      rcases List.mem_append.1 hmem with hm | hm
      · exact hab x hx hm
      · exact hd x (by rw [hfp]; exact List.mem_append_left _ hx) hm
    · rw [hfp, List.append_assoc]

theorem destroyAll_cons (fuel : Nat) (h : Heap) (k : Str) (p : Nat) (rest : List (Str × Nat)) :
    destroyAll fuel h ((k, p) :: rest) =
      (destroy fuel h p).bind (fun h1 => destroyAll fuel h1 rest) := by
  unfold destroyAll
  rw [List.foldlM_cons]
  rfl

theorem destroy_succ (fuel : Nat) (h : Heap) (p : Nat) :
    destroy (fuel + 1) h p =
      match read h p with
      | none => none
      | some o =>
        match destroyAll fuel h o.subCommands with
        | none => none
        | some h1 => some (free h1 p) := by
  rw [destroy]
  rfl

mutual
theorem destroy_spec : ∀ (t : Command) (fuel : Nat) (h : Heap) (p : Nat) (fp : List Nat),
    Owns h t p fp → fp.length ≤ fuel →
    ∃ h1, destroy fuel h p = some h1 ∧ h1.length = h.length ∧
      (∀ x, x ∉ fp → read h1 x = read h x) ∧ (∀ x ∈ fp, read h1 x = none)
  | Command.mk n hl cb subs, fuel, h, p, fp, ho, hf => by
    rw [Owns] at ho
    obtain ⟨o, fp1, hr, _, _, _, hall, hn, hfp, _⟩ := ho
    subst hfp
    obtain ⟨f, rfl⟩ : ∃ f, fuel = f + 1 := ⟨fuel - 1, by simp only [List.length_cons] at hf; omega⟩
    obtain ⟨h1, e1, l1, s1, z1⟩ := destroyAll_spec subs f h o.subCommands fp1 hall
      (by simp only [List.length_cons] at hf; omega)
    refine ⟨free h1 p, ?_, ?_, ?_, ?_⟩
    · rw [destroy_succ, hr]
      simp only [e1]
    · rw [length_free, l1]
    · intro x hx
      rw [List.mem_cons, not_or] at hx
      rw [read_free_ne _ _ _ hx.1, s1 x hx.2]
    · intro x hx
      rcases List.mem_cons.1 hx with hx | hx
      · rw [hx]; exact read_free_same _ _
      · have hne : x ≠ p := fun e => hn (e ▸ hx)
        rw [read_free_ne _ _ _ hne, z1 x hx]
theorem destroyAll_spec : ∀ (subs : List (Str × Command)) (fuel : Nat) (h : Heap)
    (entries : List (Str × Nat)) (fp : List Nat),
    OwnsAll h subs entries fp → fp.length ≤ fuel →
    ∃ h1, destroyAll fuel h entries = some h1 ∧ h1.length = h.length ∧
      (∀ x, x ∉ fp → read h1 x = read h x) ∧ (∀ x ∈ fp, read h1 x = none)
  | [], fuel, h, entries, fp, ho, _ => by
    rw [OwnsAll] at ho
    rw [ho.1, ho.2]
    exact ⟨h, rfl, rfl, fun _ _ => rfl, fun x hx => absurd hx (List.not_mem_nil _)⟩
  | (k, t) :: subs, fuel, h, entries, fp, ho, hf => by
    rw [OwnsAll] at ho
    obtain ⟨p, rest, fp1, fp2, he, o1, o2, hd, hfp⟩ := ho
    subst hfp he
    rw [List.length_append] at hf
    obtain ⟨h1, e1, l1, s1, z1⟩ := destroy_spec t fuel h p fp1 o1 (by omega)
    have o2a : OwnsAll h1 subs rest fp2 :=
      OwnsAll.frame_all subs h h1 rest fp2 o2 (fun x hx => s1 x (fun hm => hd x hm hx))
    obtain ⟨h2, e2, l2, s2, z2⟩ := destroyAll_spec subs fuel h1 rest fp2 o2a (by omega)
    refine ⟨h2, ?_, l2.trans l1, ?_, ?_⟩
    · rw [destroyAll_cons, e1]
      exact e2
    · intro x hx
      rw [List.mem_append, not_or] at hx
      rw [s2 x hx.2, s1 x hx.1]
    · intro x hx
      rcases List.mem_append.1 hx with hx | hx
      · rw [s2 x (hd x hx), z1 x hx]
      · exact z2 x hx
end

theorem keys_append {α : Type} (a b : List (Str × α)) :
    Map.keys (a ++ b) = Map.keys a ++ Map.keys b := by
  simp only [Map.keys, List.map_append]

/-- A default-constructed object owns the command without name, help,
handler and sub-commands. -/
theorem owns_alloc (h : Heap) :
    Owns (alloc h).1 (Command.mk [] [] none []) (alloc h).2 [(alloc h).2] := by
  rw [Owns]
  refine ⟨⟨[], [], none, []⟩, [], read_alloc_new h, rfl, rfl, rfl, ?_, List.not_mem_nil _, rfl,
    List.nodup_nil⟩
  rw [OwnsAll]
  exact ⟨rfl, rfl⟩

theorem copyAssign_succ (fuel : Nat) (h : Heap) (dst src : Nat) (d s : Obj) (h1 : Heap)
    (hne : dst ≠ src) (hd : read h dst = some d) (hs : read h src = some s)
    (hdel : destroyAll fuel h d.subCommands = some h1)
    (hs1 : read (write h1 dst ⟨s.name, s.help, s.callback, []⟩) src = some s) :
    copyAssign (fuel + 1) h dst src =
      s.subCommands.foldlM (copyEntry (copyAssign fuel) dst)
        (write h1 dst ⟨s.name, s.help, s.callback, []⟩) := by
  rw [copyAssign, if_neg hne]
  simp only [hd, hs, hdel, hs1]

mutual
theorem copyAssign_spec : ∀ (t : Command) (fuel : Nat) (h : Heap) (dst src : Nat)
    (td : Command) (fps fpd : List Nat),
    Owns h t src fps → Owns h td dst fpd → (∀ x ∈ fps, x ∉ fpd) →
    fps.length + fpd.length ≤ fuel →
    ∃ h1 fp1, copyAssign fuel h dst src = some h1 ∧ Owns h1 t dst fp1 ∧ Step h fpd h1 ∧
      (∀ x ∈ fp1, x = dst ∨ h.length ≤ x) ∧ fp1.length = fps.length
  | Command.mk n hl cb subs, fuel, h, dst, src, td, fps, fpd, hsrc, hdst, hdisj, hfuel => by
    have hsrcmem : src ∈ fps := Owns.root_mem hsrc
    have hsrc0 := hsrc
    rw [Owns] at hsrc
    obtain ⟨s, fps1, hrs, e1, e2, e3, halls, hns, hfps, hks⟩ := hsrc
    cases td with
    | mk nd hld cbd subsd =>
      have hdstmem : dst ∈ fpd := Owns.root_mem hdst
      rw [Owns] at hdst
      obtain ⟨d, fpd1, hrd, _, _, _, halld, hnd, hfpd, _⟩ := hdst
      have hne : dst ≠ src := fun e => hdisj src hsrcmem (e ▸ hdstmem)
      have hlen1 : fps.length = fps1.length + 1 := by rw [hfps]; rfl
      have hlen2 : fpd.length = fpd1.length + 1 := by rw [hfpd]; rfl
      obtain ⟨f, rfl⟩ : ∃ f, fuel = f + 1 := ⟨fuel - 1, by omega⟩
      obtain ⟨h1, hdel, l1, s1, _⟩ := destroyAll_spec subsd f h d.subCommands fpd1 halld
        (by omega)
      have hdlt : dst < h1.length := by rw [l1]; exact read_lt hrd
      have hsame2 : ∀ x, x ∉ fpd → read (write h1 dst ⟨s.name, s.help, s.callback, []⟩) x =
          read h x := by
        intro x hx
        rw [hfpd, List.mem_cons, not_or] at hx
        rw [read_write_ne _ _ _ _ hx.1, s1 x hx.2]
      have hrs1 : read (write h1 dst ⟨s.name, s.help, s.callback, []⟩) src = some s := by
        rw [hsame2 src (hdisj src hsrcmem)]
        exact hrs
      have hall2 : OwnsAll (write h1 dst ⟨s.name, s.help, s.callback, []⟩) subs s.subCommands
          fps1 :=
        OwnsAll.frame_all subs h _ s.subCommands fps1 halls
          (fun x hx => hsame2 x (hdisj x (by rw [hfps]; exact List.mem_cons_of_mem _ hx)))
      have hnil : OwnsAll (write h1 dst ⟨s.name, s.help, s.callback, []⟩) [] [] [] := by
        rw [OwnsAll]
        exact ⟨rfl, rfl⟩
      obtain ⟨g1, acc1, accFp1, hfold, hrd1, hown1, hdn1, hlen, hsame, hfresh, hkeys, hfl⟩ :=
        copyEntries_spec subs f (write h1 dst ⟨s.name, s.help, s.callback, []⟩) dst
          s.name s.help s.callback [] [] [] s.subCommands fps1
          (read_write_same _ _ _ hdlt) hnil hall2 (List.not_mem_nil _)
          (fun hm => hdisj dst (by rw [hfps]; exact List.mem_cons_of_mem _ hm) hdstmem)
          (fun x hx => absurd hx (List.not_mem_nil _))
          (by rw [List.nil_append]; exact hks) (by omega)
      rw [length_write, l1] at hlen hsame hfresh
      refine ⟨g1, dst :: accFp1, ?_, ?_, ⟨hlen, ?_⟩, ?_, ?_⟩
      · rw [copyAssign_succ f h dst src d s h1 hne hrd hrs hdel hrs1]
        exact hfold
      · rw [Owns]
        refine ⟨_, accFp1, hrd1, e1, e2, e3, ?_, hdn1, rfl, ?_⟩
        · rw [List.nil_append] at hown1
          exact hown1
        · show (Map.keys acc1).Nodup
          rw [hkeys, List.nil_append]
          exact hks
      · intro x hx hxf
        have hxd : x ≠ dst := fun e => hxf (e ▸ hdstmem)
        rw [hsame x hx hxd, hsame2 x hxf]
      · intro x hx
        rcases List.mem_cons.1 hx with hx | hx
        · exact Or.inl hx
        · rcases hfresh x hx with hm | hm
          · exact absurd hm (List.not_mem_nil _)
          · exact Or.inr hm
      · rw [List.length_cons, hfl, hlen1]
        simp
theorem copyEntries_spec : ∀ (subs : List (Str × Command)) (fuel : Nat) (g : Heap) (dst : Nat)
    (n hl : Str) (cb : Option Callback) (acc : List (Str × Nat))
    (accSubs : List (Str × Command)) (accFp : List Nat) (entries : List (Str × Nat))
    (fp : List Nat),
    read g dst = some ⟨n, hl, cb, acc⟩ →
    OwnsAll g accSubs acc accFp → OwnsAll g subs entries fp →
    dst ∉ accFp → dst ∉ fp → (∀ x ∈ accFp, x ∉ fp) →
    (Map.keys (acc ++ entries)).Nodup → fp.length + 1 ≤ fuel →
    ∃ g1 acc1 accFp1,
      List.foldlM (copyEntry (copyAssign fuel) dst) g entries = some g1 ∧
      read g1 dst = some ⟨n, hl, cb, acc1⟩ ∧
      OwnsAll g1 (accSubs ++ subs) acc1 accFp1 ∧ dst ∉ accFp1 ∧
      g.length ≤ g1.length ∧ (∀ x, x < g.length → x ≠ dst → read g1 x = read g x) ∧
      (∀ x ∈ accFp1, x ∈ accFp ∨ g.length ≤ x) ∧
      Map.keys acc1 = Map.keys (acc ++ entries) ∧
      accFp1.length = accFp.length + fp.length
  | [], fuel, g, dst, n, hl, cb, acc, accSubs, accFp, entries, fp, hrd, hacc, hent, hd1, _, _,
      _, _ => by
    rw [OwnsAll] at hent
    rw [hent.1, hent.2]
    refine ⟨g, acc, accFp, rfl, hrd, ?_, hd1, Nat.le_refl _, fun _ _ _ => rfl,
      fun x hx => Or.inl hx, by rw [List.append_nil], rfl⟩
    rw [List.append_nil]
    exact hacc
  | (k, t1) :: subs, fuel, g, dst, n, hl, cb, acc, accSubs, accFp, entries, fp, hrd, hacc, hent,
      hd1, hd2, hdisj, hkeys, hfuel => by
    rw [OwnsAll] at hent
    obtain ⟨p, rest, fp1, fp2, he, o1, o2, h12, hfp⟩ := hent
    subst he hfp
    rw [List.length_append] at hfuel
    have hdlt : dst < g.length := read_lt hrd
    have hc : (alloc g).2 = g.length := rfl
    -- the copy of the sub-command into a fresh object
    have o1a : Owns (alloc g).1 t1 p fp1 :=
      Owns.frame t1 g _ p fp1 o1 (fun x hx => read_alloc_old g x (Owns.lt t1 g p fp1 o1 x hx))
    obtain ⟨g3, fpc, hcopy, ownc, hstep, hfreshc, hlenc⟩ :=
      copyAssign_spec t1 fuel (alloc g).1 (alloc g).2 p (Command.mk [] [] none []) fp1
        [(alloc g).2] o1a (owns_alloc g)
        (fun x hx hm => by
          rw [List.mem_singleton, hc] at hm
          have := Owns.lt t1 g p fp1 o1 x hx
          omega)
        (by simp only [List.length_singleton]; omega)
    have hstepL : g.length + 1 ≤ g3.length := by
      have := hstep.1
      rw [length_alloc] at this
      exact this
    have hstepR : ∀ x, x < g.length + 1 → x ∉ [(alloc g).2] → read g3 x = read (alloc g).1 x := by
      have := hstep.2
      rw [length_alloc] at this
      exact this
    rw [length_alloc] at hfreshc
    have hfreshc2 : ∀ x ∈ fpc, g.length ≤ x := by
      intro x hx
      rcases hfreshc x hx with e | e
      · rw [e, hc]
      · omega
    have hrd3 : read g3 dst = some ⟨n, hl, cb, acc⟩ := by
      rw [hstepR dst (by omega) (by rw [List.mem_singleton, hc]; omega),
        read_alloc_old g dst hdlt]
      exact hrd
    have hk : k ∉ Map.keys acc := by
      intro hm
      rw [keys_append] at hkeys
      exact (List.nodup_append.1 hkeys).2.2 hm (by simp [Map.keys])
    have hsame : ∀ x, x < g.length → x ≠ dst →
        read (write g3 dst ⟨n, hl, cb, acc ++ [(k, (alloc g).2)]⟩) x = read g x := by
      intro x hx hxd
      rw [read_write_ne _ _ _ _ hxd,
        hstepR x (by omega) (by rw [List.mem_singleton, hc]; omega), read_alloc_old g x hx]
    have ownc4 : Owns (write g3 dst ⟨n, hl, cb, acc ++ [(k, (alloc g).2)]⟩) t1 (alloc g).2 fpc :=
      Owns.frame t1 g3 _ _ fpc ownc (fun x hx => by
        have := hfreshc2 x hx
        exact read_write_ne _ _ _ _ (by omega))
    have hone : OwnsAll (write g3 dst ⟨n, hl, cb, acc ++ [(k, (alloc g).2)]⟩) [(k, t1)]
        [(k, (alloc g).2)] (fpc ++ []) := by
      rw [OwnsAll]
      refine ⟨_, [], fpc, [], rfl, ownc4, ?_, fun _ _ hm => absurd hm (List.not_mem_nil _), rfl⟩
      rw [OwnsAll]
      exact ⟨rfl, rfl⟩
    rw [List.append_nil] at hone
    have hacc4 : OwnsAll (write g3 dst ⟨n, hl, cb, acc ++ [(k, (alloc g).2)]⟩)
        (accSubs ++ [(k, t1)]) (acc ++ [(k, (alloc g).2)]) (accFp ++ fpc) :=
      OwnsAll.append accSubs _ acc accFp _ _ fpc
        (OwnsAll.frame_all accSubs g _ acc accFp hacc
          (fun x hx => hsame x (OwnsAll.lt_all accSubs g acc accFp hacc x hx)
            (fun e => hd1 (e ▸ hx))))
        hone
        (fun x hx hm => by
          have h1 := OwnsAll.lt_all accSubs g acc accFp hacc x hx
          have h2 := hfreshc2 x hm
          omega)
    have o2lt := OwnsAll.lt_all subs g rest fp2 o2
    have o2a : OwnsAll (write g3 dst ⟨n, hl, cb, acc ++ [(k, (alloc g).2)]⟩) subs rest fp2 :=
      OwnsAll.frame_all subs g _ rest fp2 o2
        (fun x hx => hsame x (o2lt x hx)
          (fun e => hd2 (List.mem_append_right _ (e ▸ hx))))
    obtain ⟨g5, acc5, accFp5, hfold, hrd5, hown5, hdn5, hlen5, hsame5, hfresh5, hkeys5, hfl5⟩ :=
      copyEntries_spec subs fuel (write g3 dst ⟨n, hl, cb, acc ++ [(k, (alloc g).2)]⟩) dst
        n hl cb (acc ++ [(k, (alloc g).2)]) (accSubs ++ [(k, t1)]) (accFp ++ fpc) rest fp2
        (read_write_same _ _ _ (by omega)) hacc4 o2a
        (fun hm => by
          rcases List.mem_append.1 hm with hm | hm
          · exact hd1 hm
          · have := hfreshc2 dst hm
            omega)
        (fun hm => hd2 (List.mem_append_right _ hm))
        (fun x hx hm => by
          rcases List.mem_append.1 hx with hx | hx
          · exact hdisj x hx (List.mem_append_right _ hm)
          · have h1 := hfreshc2 x hx
            have h2 := o2lt x hm
            omega)
        (by
          simp only [Map.keys, List.map_append, List.map_cons, List.map_nil, List.append_assoc,
            List.singleton_append] at hkeys ⊢
          exact hkeys)
        (by omega)
    rw [length_write] at hlen5 hsame5 hfresh5
    refine ⟨g5, acc5, accFp5, ?_, hrd5, ?_, hdn5, by omega, ?_, ?_, ?_, ?_⟩
    · rw [List.foldlM_cons]
      have hentry : copyEntry (copyAssign fuel) dst g (k, p) =
          some (write g3 dst ⟨n, hl, cb, acc ++ [(k, (alloc g).2)]⟩) := by
        unfold copyEntry
        simp only [hcopy, hrd3, Map.assign_absent acc k _ hk]
      rw [hentry]
      exact hfold
    · rw [List.append_assoc] at hown5
      exact hown5
    · intro x hx hxd
      rw [hsame5 x (by omega) hxd, hsame x hx hxd]
    · intro x hx
      rcases hfresh5 x hx with hm | hm
      · rcases List.mem_append.1 hm with hm | hm
        · exact Or.inl hm
        · exact Or.inr (hfreshc2 x hm)
      · exact Or.inr (by omega)
    · rw [hkeys5]
      simp only [Map.keys, List.map_append, List.map_cons, List.map_nil, List.append_assoc,
        List.singleton_append]
    · rw [hfl5, List.length_append, List.length_append, hlenc]
      omega
end

mutual
theorem Owns.wf : ∀ (t : Command) (h : Heap) (a : Nat) (fp : List Nat),
    Owns h t a fp → t.WF = true
  | Command.mk n hl cb subs, h, a, fp, ho => by
    rw [Owns] at ho
    obtain ⟨o, fp1, _, _, _, _, hall, _, _, hk⟩ := ho
    rw [Command.WF, Bool.and_eq_true, decide_eq_true_eq]
    refine ⟨?_, OwnsAll.wf_all subs h o.subCommands fp1 hall⟩
    rw [← OwnsAll.keys_eq subs h o.subCommands fp1 hall]
    exact hk
theorem OwnsAll.wf_all : ∀ (subs : List (Str × Command)) (h : Heap) (entries : List (Str × Nat))
    (fp : List Nat), OwnsAll h subs entries fp → Command.WFSubs subs = true
  | [], _, _, _, _ => by rw [Command.WFSubs]
  | (k, t) :: subs, h, entries, fp, ho => by
    rw [OwnsAll] at ho
    obtain ⟨p, rest, fp1, fp2, _, o1, o2, _, _⟩ := ho
    rw [Command.WFSubs, Bool.and_eq_true]
    exact ⟨Owns.wf t h p fp1 o1, OwnsAll.wf_all subs h rest fp2 o2⟩
end

/-- The entry found for a key owns one of the trees; the other entries own
the rest, on addresses apart from it. -/
theorem OwnsAll.erase_spec (h : Heap) (k : Str) : ∀ (subs : List (Str × Command))
    (entries : List (Str × Nat)) (fp : List Nat), OwnsAll h subs entries fp →
    (Map.find entries k = none → Map.find subs k = none) ∧
    (∀ q, Map.find entries k = some q →
      ∃ tq fq fp1, Map.find subs k = some tq ∧ Owns h tq q fq ∧
        OwnsAll h (Map.erase subs k) (Map.erase entries k) fp1 ∧
        (∀ x ∈ fq, x ∈ fp) ∧ (∀ x ∈ fp1, x ∈ fp) ∧ (∀ x ∈ fq, x ∉ fp1) ∧
        fq.length ≤ fp.length)
  | [], entries, fp, ho => by
    rw [OwnsAll] at ho
    rw [ho.1]
    exact ⟨fun _ => rfl, fun q hq => Option.noConfusion hq⟩
  | (k1, t1) :: subs, entries, fp, ho => by
    rw [OwnsAll] at ho
    obtain ⟨p, rest, fp1, fp2, he, o1, o2, h12, hfp⟩ := ho
    subst he hfp
    obtain ⟨ih1, ih2⟩ := OwnsAll.erase_spec h k subs rest fp2 o2
    by_cases hk : k1 = k
    · constructor
      · intro hf
        simp only [Map.find, hk, if_true] at hf
        exact Option.noConfusion hf
      · intro q hq
        simp only [Map.find, hk, if_true, Option.some.injEq] at hq
        subst hq
        refine ⟨t1, fp1, fp2, ?_, o1, ?_, fun x hx => List.mem_append_left _ hx,
          fun x hx => List.mem_append_right _ hx, h12, ?_⟩
        · simp only [Map.find, hk, if_true]
        · simp only [Map.erase, hk, if_true]
          exact o2
        · rw [List.length_append]; omega
    · constructor
      · intro hf
        simp only [Map.find, hk, if_false] at hf ⊢
        exact ih1 hf
      · intro q hq
        simp only [Map.find, hk, if_false] at hq
        obtain ⟨tq, fq, fpr, e1, oq, oall, s1, s2, d1, l1⟩ := ih2 q hq
        refine ⟨tq, fq, fp1 ++ fpr, ?_, oq, ?_, fun x hx => List.mem_append_right _ (s1 x hx),
          ?_, ?_, ?_⟩
        · simp only [Map.find, hk, if_false]
          exact e1
        · simp only [Map.erase, hk, if_false]
          rw [OwnsAll]
          exact ⟨p, _, fp1, fpr, rfl, o1, oall, fun x hx hm => h12 x hx (s2 x hm), rfl⟩
        · intro x hx
          rcases List.mem_append.1 hx with hx | hx
          · exact List.mem_append_left _ hx
          · exact List.mem_append_right _ (s2 x hx)
        · intro x hx hm
          rcases List.mem_append.1 hm with hm | hm
          · exact h12 x hm (s1 x hx)
          · exact d1 x hx hm
        · rw [List.length_append]; omega

/-- `delSubCommand` on an owned tree does at the pointer level what
`Command.delSubCommand` does to the value, inside the footprint of the
tree. -/
theorem delSubCommand_spec (t : Command) (fuel : Nat) (h : Heap) (a : Nat) (fa : List Nat)
    (k : Str) (ho : Owns h t a fa) (hf : fa.length ≤ fuel) :
    ∃ h1 fa1, delSubCommand fuel h a k = some h1 ∧ Owns h1 (t.delSubCommand k) a fa1 ∧
      Step h fa h1 ∧ h1.length = h.length ∧ (∀ x ∈ fa1, x ∈ fa) := by
  cases t with
  | mk n hl cb subs =>
    have ho0 := ho
    rw [Owns] at ho
    obtain ⟨o, fp1, hr, e1, e2, e3, hall, hn, hfp, hk⟩ := ho
    obtain ⟨hnone, hsome⟩ := OwnsAll.erase_spec h k subs o.subCommands fp1 hall
    cases hfind : Map.find o.subCommands k with
    | none =>
      refine ⟨h, fa, ?_, ?_, ⟨Nat.le_refl _, fun _ _ _ => rfl⟩, rfl, fun x hx => hx⟩
      · simp only [delSubCommand, hr, hfind]
      · simp only [Command.delSubCommand, Command.subCommands, hnone hfind]
        exact ho0
    | some q =>
      obtain ⟨tq, fq, fpr, ev, oq, oall, s1, s2, d1, l1⟩ := hsome q hfind
      have hlen : fa.length = fp1.length + 1 := by rw [hfp]; rfl
      obtain ⟨h1, hd, hl1, hs1, _⟩ := destroy_spec tq fuel h q fq oq (by omega)
      have halt : a < h1.length := by rw [hl1]; exact read_lt hr
      have hsame : ∀ x, x ≠ a → x ∉ fq →
          read (write h1 a { o with subCommands := Map.erase o.subCommands k }) x = read h x := by
        intro x hx hxq
        rw [read_write_ne _ _ _ _ hx, hs1 x hxq]
      refine ⟨write h1 a { o with subCommands := Map.erase o.subCommands k }, a :: fpr,
        ?_, ?_, ⟨?_, ?_⟩, ?_, ?_⟩
      · simp only [delSubCommand, hr, hfind, hd, Option.map_some']
      · simp only [Command.delSubCommand, Command.subCommands, ev, Command.name, Command.help,
          Command.callback]
        rw [Owns]
        refine ⟨_, fpr, read_write_same _ _ _ halt, e1, e2, e3, ?_, fun hm => hn (s2 a hm), rfl,
          Map.nodup_erase _ _ hk⟩
        exact OwnsAll.frame_all _ h _ _ fpr oall
          (fun x hx => hsame x (fun e => hn (e ▸ s2 x hx)) (fun hm => d1 x hm hx))
      · rw [length_write, hl1]
      · intro x _ hx
        rw [hfp, List.mem_cons, not_or] at hx
        exact hsame x hx.1 (fun hm => hx.2 (s1 x hm))
      · rw [length_write, hl1]
      · intro x hx
        rw [hfp]
        rcases List.mem_cons.1 hx with hx | hx
        · rw [hx]; exact List.mem_cons_self _ _
        · exact List.mem_cons_of_mem _ (s2 x hx)

theorem addSubCommand_eq (fuel : Nat) (h : Heap) (a s : Nat) (p so : Obj) (h1 h2 : Heap)
    (p2 s2 : Obj)
    (hp : read h a = some p) (hs : read h s = some so)
    (hdel : delSubCommand fuel h a so.name = some h1)
    (hcopy : copyAssign fuel (alloc h1).1 (alloc h1).2 s = some h2)
    (hp2 : read h2 a = some p2) (hs2 : read h2 s = some s2) :
    addSubCommand fuel h a s =
      some (write h2 a
        { p2 with subCommands := Map.assign p2.subCommands s2.name (alloc h1).2 }) := by
  unfold delSubCommand at hdel
  unfold addSubCommand
  simp only [hp, hs] at hdel ⊢
  cases hfind : Map.find p.subCommands so.name with
  | none =>
    simp only [hfind, Option.some.injEq] at hdel ⊢
    subst hdel
    simp only [hcopy, hp2, hs2]
  | some q =>
    simp only [hfind] at hdel ⊢
    rw [hdel]
    simp only [hcopy, hp2, hs2]

theorem delSubCommand_value (n hl : Str) (cb : Option Callback) (subs : List (Str × Command))
    (k : Str) (hk : (Map.keys subs).Nodup) :
    ∃ subsE, (Command.mk n hl cb subs).delSubCommand k = Command.mk n hl cb subsE ∧
      subsE = (match Map.find subs k with
        | some _ => Map.erase subs k
        | none => subs) ∧
      k ∉ Map.keys subsE := by
  cases hf : Map.find subs k with
  | none =>
    refine ⟨subs, ?_, rfl, (Map.find_eq_none_iff subs k).1 hf⟩
    simp only [Command.delSubCommand, Command.subCommands, hf]
  | some v =>
    refine ⟨Map.erase subs k, ?_, rfl,
      (Map.find_eq_none_iff _ k).1 (Map.find_erase_self subs k hk)⟩
    simp only [Command.delSubCommand, Command.subCommands, hf, Command.name, Command.help,
      Command.callback]

/-- `addSubCommand` on an owned tree, with the sub-command taken from an owned
tree apart from it, does at the pointer level what `Command.addSubCommand`
does to the value; it writes only inside the footprint of the tree and to
fresh addresses. -/
theorem addSubCommand_spec (t ts : Command) (fuel : Nat) (h : Heap) (a s : Nat)
    (fa fs : List Nat) (ho : Owns h t a fa) (hs : Owns h ts s fs) (hd : ∀ x ∈ fs, x ∉ fa)
    (hf : fa.length + fs.length + 1 ≤ fuel) :
    ∃ h1 fa1, addSubCommand fuel h a s = some h1 ∧ Owns h1 (t.addSubCommand ts) a fa1 ∧
      Step h fa h1 ∧ (∀ x ∈ fa1, x ∈ fa ∨ h.length ≤ x) := by
  have hwf : ts.WF = true := Owns.wf ts h s fs hs
  have hamem : a ∈ fa := Owns.root_mem ho
  have hsmem : s ∈ fs := Owns.root_mem hs
  have hslt : s < h.length := Owns.lt ts h s fs hs s hsmem
  cases t with
  | mk n hl cb subs =>
    cases ts with
    | mk ns hls cbs subss =>
      have ho0 := ho
      have hs0 := hs
      rw [Owns] at ho hs
      obtain ⟨o, fp1, hr, e1, e2, e3, hall, hn, hfp, hk⟩ := ho
      obtain ⟨so, _, hrs, es1, _, _, _, _, _, _⟩ := hs
      have hksubs : (Map.keys subs).Nodup := by
        rw [← OwnsAll.keys_eq subs h o.subCommands fp1 hall]
        exact hk
      obtain ⟨hE, faE, hdel, ownE, stepE, lenE, subE⟩ :=
        delSubCommand_spec (Command.mk n hl cb subs) fuel h a fa so.name ho0 (by omega)
      obtain ⟨subsE, hval, hsubsE, hkE⟩ := delSubCommand_value n hl cb subs so.name hksubs
      rw [hval, Owns] at ownE
      obtain ⟨oE, fpE, hrE, eE1, eE2, eE3, hallE, hnE, hfpE, hkEn⟩ := ownE
      have hkEntries : so.name ∉ Map.keys oE.subCommands := by
        rw [OwnsAll.keys_eq subsE hE oE.subCommands fpE hallE]
        exact hkE
      have hc : (alloc hE).2 = h.length := by rw [alloc_snd, lenE]
      -- the copy of the sub-command into a fresh object
      have ownS1 : Owns hE (Command.mk ns hls cbs subss) s fs := Owns.step hs0 hd stepE
      have ownS2 : Owns (alloc hE).1 (Command.mk ns hls cbs subss) s fs :=
        Owns.frame _ hE _ s fs ownS1
          (fun x hx => read_alloc_old hE x (Owns.lt _ hE s fs ownS1 x hx))
      obtain ⟨h2, fpc, hcopy, ownc, hstep, hfreshc, _⟩ :=
        copyAssign_spec (Command.mk ns hls cbs subss) fuel (alloc hE).1 (alloc hE).2 s
          (Command.mk [] [] none []) fs [(alloc hE).2] ownS2 (owns_alloc hE)
          (fun x hx hm => by
            rw [List.mem_singleton, hc] at hm
            have := Owns.lt _ h s fs hs0 x hx
            omega)
          (by simp only [List.length_singleton]; omega)
      have hstepL : h.length + 1 ≤ h2.length := by
        have := hstep.1
        rw [length_alloc, lenE] at this
        exact this
      have hstepR : ∀ x, x < h.length → read h2 x = read hE x := by
        intro x hx
        have := hstep.2 x (by rw [length_alloc, lenE]; omega)
          (by rw [List.mem_singleton, hc]; omega)
        rw [this, read_alloc_old hE x (by rw [lenE]; exact hx)]
      rw [length_alloc, lenE] at hfreshc
      have hfreshc2 : ∀ x ∈ fpc, h.length ≤ x := by
        intro x hx
        rcases hfreshc x hx with e | e
        · rw [e, hc]
        · omega
      have halt : a < h.length := read_lt hr
      have hr2a : read h2 a = some oE := by rw [hstepR a halt]; exact hrE
      have hr2s : read h2 s = some so := by
        rw [hstepR s hslt, stepE.2 s hslt (hd s hsmem)]
        exact hrs
      have hsame : ∀ x, x < h.length → x ≠ a →
          read (write h2 a { oE with subCommands := oE.subCommands ++ [(so.name, (alloc hE).2)] })
            x = read hE x := by
        intro x hx hxa
        rw [read_write_ne _ _ _ _ hxa, hstepR x hx]
      have hfpElt : ∀ x ∈ fpE, x < h.length := by
        intro x hx
        have := OwnsAll.lt_all subsE hE oE.subCommands fpE hallE x hx
        rw [lenE] at this
        exact this
      have hone : OwnsAll
          (write h2 a { oE with subCommands := oE.subCommands ++ [(so.name, (alloc hE).2)] })
          [(so.name, Command.mk ns hls cbs subss)] [(so.name, (alloc hE).2)] (fpc ++ []) := by
        rw [OwnsAll]
        refine ⟨_, [], fpc, [], rfl, ?_, ?_, fun _ _ hm => absurd hm (List.not_mem_nil _), rfl⟩
        · exact Owns.frame _ h2 _ _ fpc ownc (fun x hx => by
            have := hfreshc2 x hx
            exact read_write_ne _ _ _ _ (by omega))
        · rw [OwnsAll]
          exact ⟨rfl, rfl⟩
      rw [List.append_nil] at hone
      refine ⟨write h2 a { oE with subCommands := oE.subCommands ++ [(so.name, (alloc hE).2)] },
        a :: (fpE ++ fpc), ?_, ?_, ⟨?_, ?_⟩, ?_⟩
      · rw [addSubCommand_eq fuel h a s o so hE h2 oE so hr hrs hdel hcopy hr2a hr2s,
          Map.assign_absent _ _ _ hkEntries]
      · have hvalue : (Command.mk n hl cb subs).addSubCommand (Command.mk ns hls cbs subss) =
            Command.mk n hl cb (subsE ++ [(so.name, Command.mk ns hls cbs subss)]) := by
          rw [es1] at hkE hsubsE ⊢
          cases hfv : Map.find subs ns with
          | none =>
            simp only [hfv] at hsubsE
            simp only [Command.addSubCommand, Command.subCommands, Command.name, Command.help,
              Command.callback, hfv]
            rw [Command.copy_eq _ hwf, ← hsubsE, Map.assign_absent _ _ _ hkE]
          | some v =>
            simp only [hfv] at hsubsE
            simp only [Command.addSubCommand, Command.subCommands, Command.name, Command.help,
              Command.callback, hfv]
            rw [Command.copy_eq _ hwf, ← hsubsE, Map.assign_absent _ _ _ hkE]
        rw [hvalue, Owns]
        refine ⟨_, fpE ++ fpc, read_write_same _ _ _ (by omega), eE1, eE2, eE3, ?_, ?_, rfl, ?_⟩
        · exact OwnsAll.append subsE _ oE.subCommands fpE _ _ fpc
            (OwnsAll.frame_all subsE hE _ _ fpE hallE
              (fun x hx => hsame x (hfpElt x hx) (fun e => hnE (e ▸ hx))))
            hone
            (fun x hx hm => by
              have h1 := hfpElt x hx
              have h2 := hfreshc2 x hm
              omega)
        · intro hm
          rcases List.mem_append.1 hm with hm | hm
          · exact hnE hm
          · have := hfreshc2 a hm
            omega
        · show (Map.keys (oE.subCommands ++ [(so.name, (alloc hE).2)])).Nodup
          rw [Map.keys_append_single]
          refine List.nodup_append.2 ⟨hkEn, List.nodup_singleton _, ?_⟩
          intro x hx hm
          rw [List.mem_singleton] at hm
          exact hkEntries (hm ▸ hx)
      · rw [length_write]; omega
      · intro x hx hxa
        rw [hsame x hx (fun e => hxa (e ▸ hamem)), stepE.2 x hx hxa]
      · intro x hx
        rcases List.mem_cons.1 hx with hx | hx
        · rw [hx]; exact Or.inl hamem
        · rcases List.mem_append.1 hx with hx | hx
          · exact Or.inl (subE x (by rw [hfpE]; exact List.mem_cons_of_mem _ hx))
          · exact Or.inr (hfreshc2 x hx)

mutual
theorem Owns.unique : ∀ (t t2 : Command) (h : Heap) (a : Nat) (fp fp2 : List Nat),
    Owns h t a fp → Owns h t2 a fp2 → t = t2 ∧ fp = fp2
  | Command.mk n hl cb subs, Command.mk n2 hl2 cb2 subs2, h, a, fp, fp2, o1, o2 => by
    rw [Owns] at o1 o2
    obtain ⟨o, f1, hr, e1, e2, e3, hall, _, hfp, _⟩ := o1
    obtain ⟨o', f2, hr2, e1', e2', e3', hall2, _, hfp2, _⟩ := o2
    rw [hr] at hr2
    injection hr2 with hr2
    subst hr2
    obtain ⟨hs, hf⟩ := OwnsAll.unique_all subs subs2 h o.subCommands f1 f2 hall hall2
    rw [← e1, ← e2, ← e3, ← e1', ← e2', ← e3', hs, hfp, hfp2, hf]
    exact ⟨rfl, rfl⟩
theorem OwnsAll.unique_all : ∀ (subs subs2 : List (Str × Command)) (h : Heap)
    (entries : List (Str × Nat)) (fp fp2 : List Nat),
    OwnsAll h subs entries fp → OwnsAll h subs2 entries fp2 → subs = subs2 ∧ fp = fp2
  | [], [], _, _, _, _, o1, o2 => by
    rw [OwnsAll] at o1
    rw [OwnsAll] at o2
    rw [o1.2, o2.2]
    exact ⟨rfl, rfl⟩
  | [], (k2, t2) :: subs2, _, _, _, _, o1, o2 => by
    rw [OwnsAll] at o1
    rw [OwnsAll] at o2
    obtain ⟨p, rest, _, _, he, _⟩ := o2
    rw [o1.1] at he
    exact List.noConfusion he
  | (k, t) :: subs, [], _, _, _, _, o1, o2 => by
    rw [OwnsAll] at o1
    rw [OwnsAll] at o2
    obtain ⟨p, rest, _, _, he, _⟩ := o1
    rw [o2.1] at he
    exact List.noConfusion he
  | (k, t) :: subs, (k2, t2) :: subs2, h, entries, fp, fp2, o1, o2 => by
    rw [OwnsAll] at o1
    rw [OwnsAll] at o2
    obtain ⟨p, rest, fa, fb, he, oa, ob, _, hfp⟩ := o1
    obtain ⟨p2, rest2, fa2, fb2, he2, oa2, ob2, _, hfp2⟩ := o2
    rw [he] at he2
    injection he2 with he2 he3
    injection he2 with hk hp
    subst hk hp he3
    obtain ⟨ht, hfa⟩ := Owns.unique t t2 h p fa fa2 oa oa2
    obtain ⟨hs, hfb⟩ := OwnsAll.unique_all subs subs2 h rest fb fb2 ob ob2
    rw [ht, hs, hfp, hfp2, hfa, hfb]
    exact ⟨rfl, rfl⟩
end

/-- Two trees on disjoint addresses: what is done to one leaves the other. -/
theorem unaffected_of_disjoint (g : Heap) (a : Nat) (ta : Command) (fa : List Nat) (b : Nat)
    (tb : Command) (fb : List Nat) (oa : Owns g ta a fa) (ob : Owns g tb b fb)
    (hd : ∀ x ∈ fa, x ∉ fb) : Unaffected g a ta fa b tb fb := by
  have hd2 : ∀ x ∈ fb, x ∉ fa := fun x hx hm => hd x hm hx
  have hblt := Owns.lt tb g b fb ob
  refine ⟨?_, ?_, ?_⟩
  · intro fuel hf
    obtain ⟨g1, e, l, s, z⟩ := destroy_spec ta fuel g a fa oa hf
    exact ⟨g1, e, z a (Owns.root_mem oa),
      Owns.frame tb g g1 b fb ob (fun x hx => s x (hd2 x hx))⟩
  · intro fuel k hf
    obtain ⟨g1, fa1, e, o1, st, _, sub⟩ := delSubCommand_spec ta fuel g a fa k oa hf
    exact ⟨g1, fa1, e, o1, fun x hx => hd x (sub x hx), Owns.step ob hd2 st⟩
  · intro fuel s ts fs os hds hf
    obtain ⟨g1, fa1, e, o1, st, fresh⟩ := addSubCommand_spec ta ts fuel g a s fa fs oa os hds hf
    refine ⟨g1, fa1, e, o1, ?_, Owns.step ob hd2 st⟩
    intro x hx hm
    rcases fresh x hx with h1 | h1
    · exact hd x h1 hm
    · have := hblt x hm
      omega

theorem copyAssign_independent (h : Heap) (src dst : Nat) (t td : Command)
    (fps fpd : List Nat) (fuel : Nat)
    (hsrc : Owns h t src fps) (hdst : Owns h td dst fpd) (hdisj : ∀ x ∈ fps, x ∉ fpd)
    (hfuel : fps.length + fpd.length ≤ fuel) :
    ∃ h1 fp1, copyAssign fuel h dst src = some h1 ∧
      Owns h1 t src fps ∧ Owns h1 t dst fp1 ∧ (∀ x ∈ fps, x ∉ fp1) ∧
      Unaffected h1 dst t fp1 src t fps ∧ Unaffected h1 src t fps dst t fp1 := by
  obtain ⟨h1, fp1, e, o1, st, fresh, _⟩ :=
    copyAssign_spec t fuel h dst src td fps fpd hsrc hdst hdisj hfuel
  have osrc : Owns h1 t src fps := Owns.step hsrc hdisj st
  have hd : ∀ x ∈ fps, x ∉ fp1 := by
    intro x hx hm
    rcases fresh x hm with h2 | h2
    · exact hdisj x hx (h2 ▸ Owns.root_mem hdst)
    · have := Owns.lt t h src fps hsrc x hx
      omega
  exact ⟨h1, fp1, e, osrc, o1, hd,
    unaffected_of_disjoint h1 dst t fp1 src t fps o1 osrc (fun x hx hm => hd x hm hx),
    unaffected_of_disjoint h1 src t fps dst t fp1 osrc o1 hd⟩

theorem copyConstruct_independent (h : Heap) (src : Nat) (t : Command) (fps : List Nat)
    (fuel : Nat) (hsrc : Owns h t src fps) (hfuel : fps.length + 1 ≤ fuel) :
    ∃ h2 c fp2, copyConstruct fuel h src = some (h2, c) ∧
      Owns h2 t src fps ∧ Owns h2 t c fp2 ∧ (∀ x ∈ fps, x ∉ fp2) ∧
      Unaffected h2 c t fp2 src t fps ∧ Unaffected h2 src t fps c t fp2 := by
  have hlt := Owns.lt t h src fps hsrc
  have o1 : Owns (alloc h).1 t src fps :=
    Owns.frame t h _ src fps hsrc (fun x hx => read_alloc_old h x (hlt x hx))
  obtain ⟨h2, fp2, e, os, oc, hd, u1, u2⟩ :=
    copyAssign_independent (alloc h).1 src (alloc h).2 t (Command.mk [] [] none []) fps
      [(alloc h).2] fuel o1 (owns_alloc h)
      (fun x hx hm => by
        rw [List.mem_singleton, alloc_snd] at hm
        have := hlt x hx
        omega)
      (by simp only [List.length_singleton]; exact hfuel)
  refine ⟨h2, (alloc h).2, fp2, ?_, os, oc, hd, u1, u2⟩
  simp only [copyConstruct, e, Option.map_some']

end Mem

/-- C3: for every command `c` that is a well-formed tree in memory (at `src`,
of value `t`), copy-assignment into a command `dst` apart from it and
copy-construction both succeed and give a copy whose value is `t` again:
the same name, help, handler and, recursively, the same sub-commands, while
`c` still has the value `t`.  The copy lies on addresses apart from those of
`c`, and the two trees are independent: a later `addSubCommand`,
`delSubCommand` or destruction applied to one of them leaves the other with
the same value on the same addresses (`Unaffected`, in both directions). -/
theorem C3_copy_independent (h : Mem.Heap) (src dst : Nat) (t td : Command)
    (fps fpd : List Nat) (fuel : Nat)
    (hsrc : Mem.Owns h t src fps) (hdst : Mem.Owns h td dst fpd)
    (hdisj : ∀ x ∈ fps, x ∉ fpd) (hfuel : fps.length + fpd.length ≤ fuel) :
    (∃ h1 fp1, Mem.copyAssign fuel h dst src = some h1 ∧
        Mem.Owns h1 t src fps ∧ Mem.Owns h1 t dst fp1 ∧ (∀ x ∈ fps, x ∉ fp1) ∧
        Mem.Unaffected h1 dst t fp1 src t fps ∧ Mem.Unaffected h1 src t fps dst t fp1) ∧
      (∃ h2 c fp2, Mem.copyConstruct fuel h src = some (h2, c) ∧
        Mem.Owns h2 t src fps ∧ Mem.Owns h2 t c fp2 ∧ (∀ x ∈ fps, x ∉ fp2) ∧
        Mem.Unaffected h2 c t fp2 src t fps ∧ Mem.Unaffected h2 src t fps c t fp2) := by
  refine ⟨Mem.copyAssign_independent h src dst t td fps fpd fuel hsrc hdst hdisj hfuel,
    Mem.copyConstruct_independent h src t fps fuel hsrc ?_⟩
  have : 1 ≤ fpd.length := by
    have := Mem.Owns.root_mem hdst
    cases fpd with
    | nil => exact absurd this (List.not_mem_nil _)
    | cons x xs => simp
  omega

theorem sampleHeap_owns_fps : Mem.Owns Mem.sampleHeap fpsCommand 0 [0, 1, 2] := by
  unfold fpsCommand
  rw [Mem.Owns]
  refine ⟨_, [1, 2], rfl, rfl, rfl, rfl, ?_, by decide, rfl, by decide⟩
  rw [Mem.OwnsAll]
  refine ⟨1, _, [1], [2], rfl, ?_, ?_, by decide, rfl⟩
  · rw [Mem.Owns]
    refine ⟨_, [], rfl, rfl, rfl, rfl, ?_, by decide, rfl, by decide⟩
    rw [Mem.OwnsAll]
    exact ⟨rfl, rfl⟩
  · rw [Mem.OwnsAll]
    refine ⟨2, _, [2], [], rfl, ?_, ?_, by decide, rfl⟩
    · rw [Mem.Owns]
      refine ⟨_, [], rfl, rfl, rfl, rfl, ?_, by decide, rfl, by decide⟩
      rw [Mem.OwnsAll]
      exact ⟨rfl, rfl⟩
    · rw [Mem.OwnsAll]
      exact ⟨rfl, rfl⟩

theorem sampleHeap_owns_old : Mem.Owns Mem.sampleHeap Mem.oldCommand 3 [3, 4] := by
  unfold Mem.oldCommand
  rw [Mem.Owns]
  refine ⟨_, [4], rfl, rfl, rfl, rfl, ?_, by decide, rfl, by decide⟩
  rw [Mem.OwnsAll]
  refine ⟨4, _, [4], [], rfl, ?_, ?_, by decide, rfl⟩
  · rw [Mem.Owns]
    refine ⟨_, [], rfl, rfl, rfl, rfl, ?_, by decide, rfl, by decide⟩
    rw [Mem.OwnsAll]
    exact ⟨rfl, rfl⟩
  · rw [Mem.OwnsAll]
    exact ⟨rfl, rfl⟩

/-- Outside the setting of C3: when the source is a sub-command of the target
itself, `operator=` deletes the source before it reads its sub-commands; the
embedding reports the use of the dead object. -/
theorem copyAssign_from_own_subCommand : Mem.copyAssign 5 Mem.sampleHeap 3 4 = none := by
  decide

theorem C3_copy_independent_witness :
    (∃ h1 fp1, Mem.copyAssign 5 Mem.sampleHeap 3 0 = some h1 ∧
        Mem.Owns h1 fpsCommand 0 [0, 1, 2] ∧ Mem.Owns h1 fpsCommand 3 fp1 ∧
        (∀ x ∈ [0, 1, 2], x ∉ fp1) ∧
        Mem.Unaffected h1 3 fpsCommand fp1 0 fpsCommand [0, 1, 2] ∧
        Mem.Unaffected h1 0 fpsCommand [0, 1, 2] 3 fpsCommand fp1) ∧
      (∃ h2 c fp2, Mem.copyConstruct 5 Mem.sampleHeap 0 = some (h2, c) ∧
        Mem.Owns h2 fpsCommand 0 [0, 1, 2] ∧ Mem.Owns h2 fpsCommand c fp2 ∧
        (∀ x ∈ [0, 1, 2], x ∉ fp2) ∧
        Mem.Unaffected h2 c fpsCommand fp2 0 fpsCommand [0, 1, 2] ∧
        Mem.Unaffected h2 0 fpsCommand [0, 1, 2] c fpsCommand fp2) :=
  C3_copy_independent Mem.sampleHeap 0 3 fpsCommand Mem.oldCommand [0, 1, 2] [3, 4] 5
    sampleHeap_owns_fps sampleHeap_owns_old (by decide) (by decide)

/-! ## Theorems: the log queue -/

/-- C12: `Console::log(m)` changes nothing (the queue and every other member
stay as they are, the message is dropped) when `_sendDebugStrings` is off; when
it is on, the C string `m` becomes the last element of `_DebugStrings`, the
earlier entries keep their places, and no other member changes. -/
theorem C12_log_queue (s : Console) (m : Str) :
    (s.sendDebugStrings = false → s.log m = s) ∧
    (s.sendDebugStrings = true →
      s.log m = { s with DebugStrings := s.DebugStrings ++ [cstr m] } ∧
      (s.log m).DebugStrings.dropLast = s.DebugStrings ∧
      (s.log m).DebugStrings.getLast? = some (cstr m)) := by
  constructor
  · intro h
    simp only [Console.log, h, Bool.false_eq_true, if_false]
  · intro h
    simp only [Console.log, h, if_true, List.dropLast_concat, List.getLast?_concat, and_self]

theorem C12_log_queue_witness :
    (quietConsole.log "hello".toList = quietConsole) ∧
    (loudConsole.log "hello".toList).DebugStrings = ["a".toList, "hello".toList] :=
  ⟨(C12_log_queue quietConsole "hello".toList).1 rfl,
    by
      rw [((C12_log_queue loudConsole "hello".toList).2 rfl).1]
      decide⟩

/-! ## Theorems: `commandGeneric` -/

theorem firstKey_token (s rest : Str) (hne : s ≠ []) (hsp : ' ' ∉ s) :
    firstKey (s ++ ' ' :: rest) = s := by
  have hidx : (s ++ ' ' :: rest).indexOf ' ' = s.length := by
    rw [List.indexOf_append_of_not_mem hsp, List.indexOf_cons_self, Nat.add_zero]
  have hpos : 0 < s.length := List.length_pos.2 hne
  unfold firstKey
  rw [hidx, if_pos ⟨by simp, hpos⟩, List.take_left]

/-- C14, as stated, fails: the command `fps` has the sub-command `on` with
the host handler 1; on the arguments "on now" that handler is called once, and
it is given the whole argument string "on now", not the remainder "now". -/
theorem C14_subcommand_gets_full_args :
    (fpsCommand.commandGeneric sampleEnv 7 "on now".toList (sampleWorld [])).trace =
        [Event.call 1 7 "on now".toList] ∧
      (fpsCommand.commandGeneric sampleEnv 7 "on now".toList (sampleWorld [])).trace ≠
        [Event.call 1 7 "now".toList] := by
  decide

/-- C14, amended: when the command has a sub-command registered under the
non-empty, space-free name `s` (other than `help` and `-h`) with a handler,
`commandGeneric` on the arguments `s ++ " " ++ rest` is exactly one call of
that handler, with the whole argument string `s ++ " " ++ rest`; the own
handler of the command is not called (for host handlers: the only event is
the call of the handler of the sub-command). -/
theorem C14_subcommand_dispatch (env : Env) (c sub : Command) (cb : Callback) (fd : Int)
    (s rest : Str) (w : World)
    (hne : s ≠ []) (hsp : ' ' ∉ s) (hhelp : s ≠ "help".toList) (hh : s ≠ "-h".toList)
    (hfind : Map.find c.subCommands s = some sub) (hcb : sub.callback = some cb) :
    c.commandGeneric env fd (s ++ ' ' :: rest) w = invoke env cb fd (s ++ ' ' :: rest) w ∧
    (∀ id, cb = Callback.host id →
      c.commandGeneric env fd (s ++ ' ' :: rest) w =
        w.emit [Event.call id fd (s ++ ' ' :: rest)]) := by
  have h : c.commandGeneric env fd (s ++ ' ' :: rest) w =
      invoke env cb fd (s ++ ' ' :: rest) w := by
    unfold Command.commandGeneric
    rw [firstKey_token s rest hne hsp, if_neg (by rintro (h | h); exact hhelp h; exact hh h)]
    simp only [hfind, hcb]
  refine ⟨h, ?_⟩
  intro id hid
  rw [h, hid]
  rfl

theorem C14_subcommand_dispatch_witness :
    fpsCommand.commandGeneric sampleEnv 7 "off later".toList (sampleWorld []) =
      (sampleWorld []).emit [Event.call 1 7 "off later".toList] :=
  (C14_subcommand_dispatch sampleEnv fpsCommand
    (Command.mk "off".toList "Hide the FPS on the bottom-left corner.".toList
      (some (Callback.host 1)) [])
    (Callback.host 1) 7 "off".toList "later".toList (sampleWorld [])
    (by decide) (by decide) (by decide) (by decide) rfl rfl).2 1 rfl

/-- C15: when the first token of the arguments (`firstKey`) is neither `help`
nor `-h` nor the name of a sub-command, `commandGeneric` is exactly one call
of the own handler of the command with the unchanged argument string; a
command without a handler leaves the world as it is: nothing is called and
nothing is sent. -/
theorem C15_own_handler (env : Env) (c : Command) (fd : Int) (args : Str) (w : World)
    (hhelp : firstKey args ≠ "help".toList) (hh : firstKey args ≠ "-h".toList)
    (hfind : Map.find c.subCommands (firstKey args) = none) :
    (∀ cb, c.callback = some cb → c.commandGeneric env fd args w = invoke env cb fd args w) ∧
    (∀ id, c.callback = some (Callback.host id) →
      c.commandGeneric env fd args w = w.emit [Event.call id fd args]) ∧
    (c.callback = none → c.commandGeneric env fd args w = w) := by
  have hno : ¬ (firstKey args = "help".toList ∨ firstKey args = "-h".toList) := by
    rintro (h | h)
    · exact hhelp h
    · exact hh h
  refine ⟨?_, ?_, ?_⟩
  · intro cb hcb
    unfold Command.commandGeneric
    rw [if_neg hno]
    simp only [hfind, hcb]
  · intro id hcb
    unfold Command.commandGeneric
    rw [if_neg hno]
    simp only [hfind, hcb]
    rfl
  · intro hcb
    unfold Command.commandGeneric
    rw [if_neg hno]
    simp only [hfind, hcb]

theorem C15_own_handler_witness :
    fpsCommand.commandGeneric sampleEnv 7 "toggle now".toList (sampleWorld []) =
      (sampleWorld []).emit [Event.call 0 7 "toggle now".toList] :=
  (C15_own_handler sampleEnv fpsCommand 7 "toggle now".toList (sampleWorld [])
    (by decide) (by decide) rfl).2.1 0 rfl

/-! ## Theorems: the argument string of `performCommand` -/

theorem buildArgs2_from_two (i : Nat) (hi : 1 < i) (rest : List Str) (args2 : Str) :
    buildArgs2 i rest args2 = args2 ++ (rest.map (fun a => ' ' :: Utility.trim a)).flatten := by
  induction rest generalizing i args2 with
  | nil => simp only [buildArgs2, List.map_nil, List.flatten_nil, List.append_nil]
  | cons a rest ih =>
    simp only [buildArgs2, if_pos hi, List.map_cons, List.flatten_cons]
    rw [ih (i + 1) (by omega)]
    simp only [List.append_assoc, List.singleton_append]

theorem joinWith_cons (d : Char) (x : Str) (xs : List Str) :
    Utility.joinWith d (x :: xs) = x ++ (xs.map (fun a => d :: a)).flatten := by
  induction xs generalizing x with
  | nil => simp only [Utility.joinWith, List.map_nil, List.flatten_nil, List.append_nil]
  | cons y ys ih =>
    simp only [Utility.joinWith, List.map_cons, List.flatten_cons]
    rw [ih y]
    rfl

theorem buildArgs2_eq_joinWith (rest : List Str) :
    buildArgs2 1 rest [] = Utility.joinWith ' ' (rest.map Utility.trim) := by
  cases rest with
  | nil => rfl
  | cons a rest =>
    simp only [buildArgs2, List.map_cons, joinWith_cons]
    rw [buildArgs2_from_two 2 (by omega)]
    simp only [Nat.lt_irrefl, if_false, List.nil_append, List.map_map]
    rfl

theorem trim_head (t : Str) (c : Char) (h : (Utility.trim t).head? = some c) :
    Utility.isspace c = false := by
  have := List.head?_dropWhile_not Utility.isspace (Utility.rtrim t)
  unfold Utility.trim Utility.ltrim at h
  rw [h] at this
  exact this

theorem trim_getLast (t : Str) (c : Char) (h : (Utility.trim t).getLast? = some c) :
    Utility.isspace c = false := by
  unfold Utility.trim Utility.ltrim Utility.rtrim at h
  obtain ⟨pre, hpre⟩ := List.dropWhile_suffix Utility.isspace
    (l := (List.dropWhile Utility.isspace t.reverse).reverse)
  have hne : List.dropWhile Utility.isspace
      (List.dropWhile Utility.isspace t.reverse).reverse ≠ [] := by
    intro e
    rw [e] at h
    exact Option.noConfusion h
  have hlast : (List.dropWhile Utility.isspace t.reverse).reverse.getLast? = some c := by
    rw [← hpre, List.getLast?_append_of_ne_nil _ hne]
    exact h
  rw [List.getLast?_reverse] at hlast
  have := List.head?_dropWhile_not Utility.isspace t.reverse
  rw [hlast] at this
  exact this

theorem joinWith_head (d : Char) (x : Str) (xs : List Str) (hx : x ≠ []) :
    (Utility.joinWith d (x :: xs)).head? = x.head? := by
  rw [joinWith_cons]
  cases x with
  | nil => exact absurd rfl hx
  | cons c cs => rfl

theorem joinWith_getLast (d : Char) (xs : List Str) (hne : ∀ x ∈ xs, x ≠ []) (c : Char)
    (h : (Utility.joinWith d xs).getLast? = some c) : ∃ x ∈ xs, x.getLast? = some c := by
  induction xs with
  | nil => exact Option.noConfusion h
  | cons x xs ih =>
    cases xs with
    | nil => exact ⟨x, List.mem_singleton.2 rfl, h⟩
    | cons y ys =>
      have hJ : Utility.joinWith d (y :: ys) ≠ [] := by
        rw [joinWith_cons]
        intro e
        exact hne y (List.mem_cons_of_mem _ (List.mem_cons_self _ _))
          (List.append_eq_nil.1 e).1
      have hstep : Utility.joinWith d (x :: y :: ys) =
          (x ++ [d]) ++ Utility.joinWith d (y :: ys) := by
        simp only [Utility.joinWith, List.append_assoc, List.singleton_append]
      rw [hstep, List.getLast?_append_of_ne_nil _ hJ] at h
      obtain ⟨z, hz, hzc⟩ := ih (fun z hz => hne z (List.mem_cons_of_mem _ hz)) h
      exact ⟨z, List.mem_cons_of_mem _ hz, hzc⟩

/-- C17, as stated, fails: the statement "fps  on" (two spaces) has the tokens
"fps", "" and "on"; the command `fps` is invoked once without a fault, but its
argument string is " on", which starts with a space. -/
theorem C17_args_may_start_with_space :
    (match performCommand sampleEnv 7 "fps  on".toList (sampleWorld []) with
      | Except.ok w1 => w1.trace
      | Except.error _ => []) = [Event.call 0 7 " on".toList] := by
  decide

/-- C17, amended: for a statement whose first token, trimmed, names a
registered command, `performCommand` raises no fault and is exactly one call
of `commandGeneric` of that command, with the argument string made of the
remaining tokens as `split` yields them (empty ones included), each trimmed,
joined with single spaces; the string is empty when the statement has no
further token, and it neither starts nor ends with whitespace when no
remaining token is empty after trimming. -/
theorem C17_performCommand_args (env : Env) (fd : Int) (statement : Str) (w : World)
    (t0 : Str) (rest : List Str) (cmd : Command)
    (hs : Utility.split statement ' ' = t0 :: rest)
    (hf : Map.find w.console.commands (Utility.trim t0) = some cmd) :
    performCommand env fd statement w =
      Except.ok (cmd.commandGeneric env fd
        (Utility.joinWith ' ' (rest.map Utility.trim)) w) ∧
    (rest = [] → Utility.joinWith ' ' (rest.map Utility.trim) = []) ∧
    ((∀ t ∈ rest, Utility.trim t ≠ []) →
      ∀ c, ((Utility.joinWith ' ' (rest.map Utility.trim)).head? = some c ∨
          (Utility.joinWith ' ' (rest.map Utility.trim)).getLast? = some c) →
        Utility.isspace c = false) := by
  refine ⟨?_, ?_, ?_⟩
  · unfold performCommand
    rw [hs]
    simp only [hf, buildArgs2_eq_joinWith]
  · intro h
    rw [h]
    rfl
  · intro hne c hc
    rcases hc with hc | hc
    · cases rest with
      | nil => exact Option.noConfusion hc
      | cons a rest =>
        rw [List.map_cons, joinWith_head _ _ _ (hne a (List.mem_cons_self _ _))] at hc
        exact trim_head a c hc
    · obtain ⟨x, hx, hxc⟩ := joinWith_getLast ' ' (rest.map Utility.trim)
        (fun x hx => by
          obtain ⟨t, ht, rfl⟩ := List.mem_map.1 hx
          exact hne t ht) c hc
      obtain ⟨t, _, rfl⟩ := List.mem_map.1 hx
      exact trim_getLast t c hxc

theorem C17_performCommand_args_witness :
    performCommand sampleEnv 7 "fps on now".toList (sampleWorld []) =
      Except.ok (fpsCommand.commandGeneric sampleEnv 7 "on now".toList (sampleWorld [])) :=
  (C17_performCommand_args sampleEnv 7 "fps on now".toList (sampleWorld [])
    "fps".toList ["on".toList, "now".toList] fpsCommand (by decide) rfl).1

/-! ## Theorems: `stop` -/

theorem stop_of_not_running (joinable : Bool) (loopRest : World → World) (w : World)
    (h : w.console.running = false) : stop joinable loopRest w = w := by
  simp only [stop, h, Bool.false_eq_true, if_false]

theorem stop_joined_not_running (loopRest : World → World) (w : World) :
    (stop true loopRest w).console.running = false := by
  cases hr : w.console.running with
  | false => rw [stop_of_not_running _ _ _ hr]; exact hr
  | true =>
    unfold stop
    rw [if_pos hr, if_pos rfl]
    rfl

/-- C19: `stop()` on a console whose `_running` flag is clear changes nothing
and joins no thread (the world, its trace included, is the same); and a
second `stop()` after one that completed (joined the loop thread, or found
no thread to join) leaves the world exactly as the first call left it. -/
theorem C19_stop_idempotent (joinable j2 : Bool) (loopRest r2 : World → World) (w : World) :
    (w.console.running = false →
      stop joinable loopRest w = w ∧ Event.join ∉ (stop joinable loopRest w).trace.drop
        w.trace.length) ∧
    stop j2 r2 (stop true loopRest w) = stop true loopRest w ∧
    stop false r2 (stop false loopRest w) = stop false loopRest w := by
  refine ⟨?_, ?_, ?_⟩
  · intro h
    rw [stop_of_not_running _ _ _ h, List.drop_length]
    exact ⟨rfl, List.not_mem_nil _⟩
  · exact stop_of_not_running _ _ _ (stop_joined_not_running loopRest w)
  · cases hr : w.console.running with
    | false =>
      rw [stop_of_not_running _ _ _ hr]
      exact stop_of_not_running _ _ _ hr
    | true =>
      have hw : stop false loopRest w =
          { w with console := { w.console with endThread := true } } := by
        unfold stop
        rw [if_pos hr, if_neg Bool.false_ne_true]
      rw [hw]
      unfold stop
      rw [if_pos hr, if_neg Bool.false_ne_true]

theorem C19_stop_idempotent_witness : stop true id freshWorld = freshWorld :=
  ((C19_stop_idempotent true true id id freshWorld).1 rfl).1

/-! ## Theorems: the flush of the log queue -/

theorem sentTo_append (fd : Int) (a b : List Event) :
    sentTo fd (a ++ b) = sentTo fd a ++ sentTo fd b := by
  induction a with
  | nil => rfl
  | cons e a ih =>
    cases e with
    | send fd1 data =>
      show sentTo fd (Event.send fd1 data :: (a ++ b)) = _
      simp only [sentTo]
      split
      · rw [ih, List.append_assoc]
      · exact ih
    | close _ => exact ih
    | call _ _ _ => exact ih
    | fopen _ => exact ih
    | fwrite _ _ => exact ih
    | join => exact ih

theorem sentTo_sendLoop_other (fd fd1 : Int) (h : fd1 ≠ fd) (fuel : Nat) (buf : Str) :
    sentTo fd (Utility.sendLoop fd1 fuel buf) = [] := by
  induction fuel generalizing buf with
  | zero => rfl
  | succ fuel ih =>
    cases buf with
    | nil => rfl
    | cons c cs =>
      simp only [Utility.sendLoop, sentTo, if_neg h]
      exact ih _

theorem sentTo_sendToConsole_other (prompt : Str) (fd fd1 : Int) (h : fd1 ≠ fd) (buffer : Str) :
    sentTo fd (Utility.sendToConsole prompt fd1 buffer) = [] := by
  unfold Utility.sendToConsole
  split
  · rfl
  · exact sentTo_sendLoop_other fd fd1 h _ _

theorem sentTo_sendToConsole_msg (prompt : Str) (fd : Int) (m : Str) (hnul : NUL ∉ m) :
    sentTo fd (Utility.sendToConsole prompt fd m) = if m = prompt then [] else m := by
  unfold Utility.sendToConsole
  by_cases hm : m = prompt
  · rw [if_pos hm, if_pos]
    · rfl
    · rw [strncmpEq_eq_take _ _ _ hnul rfl, decide_eq_true_eq, hm]
      exact ⟨rfl, List.take_length _⟩
  · rw [if_neg hm, if_neg]
    · exact sentTo_sendLoop fd _ m (Nat.le_refl _)
    · rintro ⟨h1, h2⟩
      rw [strncmpEq_eq_take _ _ _ hnul rfl, decide_eq_true_eq,
        List.take_of_length_le (Nat.le_of_eq h1)] at h2
      exact hm h2.symm

theorem sentTo_sendToAll_absent (prompt : Str) (fd : Int) (m : Str) (fds : List Int)
    (h : fd ∉ fds) : sentTo fd (sendToAll prompt m fds) = [] := by
  induction fds with
  | nil => rfl
  | cons x fds ih =>
    simp only [sendToAll, sentTo_append]
    rw [sentTo_sendToConsole_other prompt fd x (fun e => h (by simp [e])),
      ih (fun e => h (List.mem_cons_of_mem _ e))]
    rfl

theorem sentTo_sendToAll (prompt : Str) (fd : Int) (m : Str) (fds : List Int)
    (hnul : NUL ∉ m) (hnd : fds.Nodup) (hfd : fd ∈ fds) :
    sentTo fd (sendToAll prompt m fds) = if m = prompt then [] else m := by
  induction fds with
  | nil => exact absurd hfd (List.not_mem_nil _)
  | cons x fds ih =>
    simp only [sendToAll, sentTo_append]
    rw [List.nodup_cons] at hnd
    by_cases hx : x = fd
    · subst hx
      rw [sentTo_sendToConsole_msg prompt x m hnul, sentTo_sendToAll_absent prompt x m fds hnd.1,
        List.append_nil]
    · have hmem : fd ∈ fds := by
        rcases List.mem_cons.1 hfd with e | e
        · exact absurd e.symm hx
        · exact e
      rw [sentTo_sendToConsole_other prompt fd x hx, ih hnd.2 hmem, List.nil_append]

theorem sentTo_fanOut (prompt : Str) (fd : Int) (fds : List Int) (msgs : List Str)
    (hnul : ∀ m ∈ msgs, NUL ∉ m) (hnd : fds.Nodup) (hfd : fd ∈ fds) :
    sentTo fd (fanOut prompt fds msgs) = broadcast prompt msgs := by
  induction msgs with
  | nil => rfl
  | cons m msgs ih =>
    simp only [fanOut, sentTo_append, broadcast]
    rw [sentTo_sendToAll prompt fd m fds (hnul m (List.mem_cons_self _ _)) hnd hfd,
      ih (fun x hx => hnul x (List.mem_cons_of_mem _ hx))]

theorem broadcast_no_prompt (prompt : Str) (msgs : List Str) (h : prompt ∉ msgs) :
    broadcast prompt msgs = msgs.flatten := by
  induction msgs with
  | nil => rfl
  | cons m msgs ih =>
    simp only [broadcast, List.flatten_cons]
    rw [if_neg (fun e => h (by simp [e])), ih (fun e => h (List.mem_cons_of_mem _ e))]

/-- C13, as stated, fails for one message content: with the prompt "> " and
the client 7 connected, a flush of the queue that holds the message "> "
sends nothing at all (`sendToConsole` takes the message for the prompt), and
the queue is emptied all the same. -/
theorem C13_prompt_message_not_sent :
    (flushDebugStrings true (pendingWorld [PROMPT])).trace = [] ∧
      (flushDebugStrings true (pendingWorld [PROMPT])).console.DebugStrings = [] := by
  decide

/-- C13, amended: when the flush step runs with a non-empty queue
`[m1, .., mn]` of C strings and gets the lock, the queue is empty afterwards
and nothing else of the console changes, and every connection of the
connection set (each handle listed once) is sent, in the order of the queue
and each once, the full bytes of the queued messages other than those equal
to the prompt, which are not sent; so all of `m1 .. mn` when none of them is
the prompt. -/
theorem C13_flush_fans_out (w : World) (fd : Int)
    (hq : w.console.DebugStrings ≠ [])
    (hnul : ∀ m ∈ w.console.DebugStrings, NUL ∉ m)
    (hnd : w.console.fds.Nodup) (hfd : fd ∈ w.console.fds) :
    ∃ evs, flushDebugStrings true w =
        { w with console := { w.console with DebugStrings := [] }, trace := w.trace ++ evs } ∧
      sentTo fd evs = broadcast w.console.prompt w.console.DebugStrings ∧
      (w.console.prompt ∉ w.console.DebugStrings →
        sentTo fd evs = w.console.DebugStrings.flatten) := by
  refine ⟨fanOut w.console.prompt w.console.fds w.console.DebugStrings, ?_, ?_, ?_⟩
  · unfold flushDebugStrings
    have he : w.console.DebugStrings.isEmpty = false := by
      cases hd : w.console.DebugStrings with
      | nil => exact absurd hd hq
      | cons _ _ => rfl
    rw [he]
    rfl
  · exact sentTo_fanOut _ fd _ _ hnul hnd hfd
  · intro hp
    rw [sentTo_fanOut _ fd _ _ hnul hnd hfd, broadcast_no_prompt _ _ hp]

theorem C13_flush_fans_out_witness :
    ∃ evs, flushDebugStrings true (pendingWorld ["hello".toList, "> ".toList, "bye".toList]) =
        { pendingWorld ["hello".toList, "> ".toList, "bye".toList] with
          console := { (pendingWorld ["hello".toList, "> ".toList, "bye".toList]).console with
            DebugStrings := [] },
          trace := (pendingWorld ["hello".toList, "> ".toList, "bye".toList]).trace ++ evs } ∧
      sentTo 7 evs = "hellobye".toList :=
  (C13_flush_fans_out (pendingWorld ["hello".toList, "> ".toList, "bye".toList]) 7
    (by decide) (by decide) (by decide) (by decide)).imp (fun _ h => ⟨h.1, h.2.1⟩)

/-! ## Theorems: the help listing -/

theorem sendToConsole_only_sends (prompt : Str) (fd : Int) (buffer : Str) :
    ∀ e ∈ Utility.sendToConsole prompt fd buffer, ∃ data, e = Event.send fd data := by
  have hloop : ∀ (fuel : Nat) (buf : Str), ∀ e ∈ Utility.sendLoop fd fuel buf,
      ∃ data, e = Event.send fd data := by
    intro fuel
    induction fuel with
    | zero => intro buf e he; exact absurd he (List.not_mem_nil _)
    | succ fuel ih =>
      intro buf e he
      cases buf with
      | nil => exact absurd he (List.not_mem_nil _)
      | cons c cs =>
        simp only [Utility.sendLoop, List.mem_cons] at he
        rcases he with he | he
        · exact ⟨_, he⟩
        · exact ih _ e he
  intro e he
  unfold Utility.sendToConsole at he
  split at he
  · exact absurd he (List.not_mem_nil _)
  · exact hloop _ _ e he

theorem sentTo_mydprintf (prompt : Str) (fd : Int) (t : Str) (hnul : NUL ∉ t)
    (hlen : t.length ≤ 16385) (hne : t ≠ prompt) :
    sentTo fd (Utility.mydprintf prompt fd t) = t := by
  unfold Utility.mydprintf
  rw [List.take_of_length_le hlen, cstr_of_no_NUL t hnul, sentTo_sendToConsole_msg prompt fd t hnul,
    if_neg hne]

theorem sentTo_sendTabs (prompt : Str) (fd : Int) (n : Nat) (hhead : prompt.head? ≠ some '\t') :
    sentTo fd (sendTabs prompt fd n) = List.replicate n '\t' := by
  induction n with
  | zero => rfl
  | succ n ih =>
    simp only [sendTabs, sentTo_append]
    rw [sentTo_mydprintf prompt fd ['\t'] (by decide) (by decide)
      (fun e => hhead (by rw [← e]; rfl)), ih]
    rfl

theorem plainText_spec (s : Str) (h : plainText s = true) : NUL ∉ s ∧ s.length < 16384 := by
  simpa [plainText] using h

theorem sentTo_sendHelpEntry (prompt : Str) (fd : Int) (command : Command)
    (hhead : prompt.head? ≠ some '\t') (hlast : prompt.getLast? ≠ some '\n')
    (hname : plainText command.name = true) (hhelp : plainText command.help = true) :
    sentTo fd (sendHelpEntry prompt fd command) =
      if command.help = [] then []
      else helpLead command.name ++ command.help ++ ['\n'] := by
  obtain ⟨hn1, hn2⟩ := plainText_spec _ hname
  obtain ⟨hh1, hh2⟩ := plainText_spec _ hhelp
  unfold sendHelpEntry
  by_cases he : command.help = []
  · rw [if_pos he, if_pos he]
    rfl
  · rw [if_neg he, if_neg he, sentTo_append, sentTo_append,
      cstr_of_no_NUL _ hn1, cstr_of_no_NUL _ hh1,
      sentTo_sendTabs prompt fd _ hhead]
    have htabs : ((3 : Int) - ((command.name.length / 8 : Nat) : Int)).toNat =
        3 - command.name.length / 8 := by omega
    rw [htabs, sentTo_mydprintf prompt fd ('\t' :: command.name), sentTo_mydprintf prompt fd]
    · simp only [helpLead, List.cons_append, List.append_assoc]
    · intro hm
      rcases List.mem_append.1 hm with hm | hm
      · exact hh1 hm
      · revert hm; decide
    · simp only [List.length_append, List.length_singleton]; omega
    · intro e
      exact hlast (by rw [← e, List.getLast?_append_of_ne_nil _ (List.cons_ne_nil _ _)]; rfl)
    · intro hm
      rcases List.mem_cons.1 hm with hm | hm
      · revert hm; decide
      · exact hn1 hm
    · simp only [List.length_cons]; omega
    · intro e
      exact hhead (by rw [← e]; rfl)

theorem sentTo_sendHelpLoop (prompt : Str) (fd : Int) (commands : List (Str × Command))
    (hhead : prompt.head? ≠ some '\t') (hlast : prompt.getLast? ≠ some '\n')
    (hplain : plainEntries commands = true) :
    sentTo fd (sendHelpLoop prompt fd commands) = helpListing commands := by
  induction commands with
  | nil => rfl
  | cons e rest ih =>
    obtain ⟨k, command⟩ := e
    simp only [plainEntries, List.all_cons, Bool.and_eq_true] at hplain
    simp only [sendHelpLoop, helpListing, sentTo_append]
    rw [sentTo_sendHelpEntry prompt fd command hhead hlast hplain.1.1 hplain.1.2,
      ih hplain.2]

theorem sendToConsole_empty (prompt : Str) (fd : Int) :
    Utility.sendToConsole prompt fd [] = [] := by
  unfold Utility.sendToConsole
  split <;> rfl

theorem sentTo_commandHelp (prompt : Str) (fd : Int) (c : Command)
    (hhead : prompt.head? ≠ some '\t') (hlast : prompt.getLast? ≠ some '\n')
    (hc : plainText c.help = true) (hsubs : plainEntries c.subCommands = true) :
    sentTo fd (c.commandHelp prompt fd) =
      (if c.help = [] then [] else c.help ++ ['\n']) ++ helpListing c.subCommands := by
  obtain ⟨hh1, hh2⟩ := plainText_spec _ hc
  unfold Command.commandHelp
  rw [sentTo_append]
  congr 1
  · by_cases he : c.help = []
    · rw [if_pos he, if_pos he]; rfl
    · rw [if_neg he, if_neg he, cstr_of_no_NUL _ hh1, sentTo_mydprintf prompt fd]
      · intro hm
        rcases List.mem_append.1 hm with hm | hm
        · exact hh1 hm
        · revert hm; decide
      · simp only [List.length_append, List.length_singleton]; omega
      · intro e
        exact hlast (by rw [← e, List.getLast?_append_of_ne_nil _ (List.cons_ne_nil _ _)]; rfl)
  · cases hs : c.subCommands with
    | nil => rfl
    | cons e rest =>
      rw [hs] at hsubs
      simp only [List.isEmpty_cons, Bool.false_eq_true, if_false, sendHelp]
      rw [show cstr [] = [] from rfl, sendToConsole_empty, List.nil_append]
      exact sentTo_sendHelpLoop prompt fd _ hhead hlast hsubs

theorem column_append (col : Nat) (a b : Str) :
    column col (a ++ b) = column (column col a) b := by
  induction a generalizing col with
  | nil => rfl
  | cons c cs ih => exact ih _

theorem column_no_tab (col : Nat) (s : Str) (h : '\t' ∉ s) : column col s = col + s.length := by
  induction s generalizing col with
  | nil => rfl
  | cons c cs ih =>
    have hc : c ≠ '\t' := fun e => h (by simp [e])
    simp only [column, if_neg hc, List.length_cons]
    rw [ih _ (fun e => h (List.mem_cons_of_mem _ e))]
    omega

theorem column_tabs (col n : Nat) :
    column col (List.replicate (n + 1) '\t') = (col / 8 + (n + 1)) * 8 := by
  induction n generalizing col with
  | zero => rfl
  | succ n ih =>
    rw [List.replicate_succ]
    show column ((col / 8 + 1) * 8) (List.replicate (n + 1) '\t') = _
    rw [ih]
    have : (col / 8 + 1) * 8 / 8 = col / 8 + 1 := Nat.mul_div_cancel _ (by decide)
    rw [this]
    omega

theorem helpLead_column (name : Str) (hlen : name.length < 24) (htab : '\t' ∉ name) :
    column 0 (helpLead name) = 32 ∧ (helpLead name).getLast? = some '\t' := by
  obtain ⟨n, hn⟩ : ∃ n, 3 - name.length / 8 = n + 1 := ⟨2 - name.length / 8, by omega⟩
  unfold helpLead
  rw [hn]
  constructor
  · rw [show '\t' :: name ++ List.replicate (n + 1) '\t' =
        ['\t'] ++ (name ++ List.replicate (n + 1) '\t') from rfl,
      column_append, column_append, column_tabs, column_no_tab _ _ htab]
    simp only [column, if_true]
    omega
  · rw [show '\t' :: name ++ List.replicate (n + 1) '\t' =
        ('\t' :: name) ++ List.replicate (n + 1) '\t' from rfl,
      List.getLast?_append_of_ne_nil _ (by simp), List.replicate_succ', List.getLast?_concat]

/-- C16, as stated, fails for long names: the command `texture` has the
sub-commands `on` and `abcdefghijklmnopqrstuvwxy` (25 bytes).  On `help` the
line of `on` has three tabs after the name and its help text starts at column
32; the line of the long name has no tab after the name, and its help text
starts right after it, at column 33. -/
theorem C16_long_name_not_padded :
    sentTo 7 (wideCommand.commandGeneric sampleEnv 7 "help".toList (sampleWorld [])).trace =
        "texture tools\n\ton\t\t\tshow\n\tabcdefghijklmnopqrstuvwxywide\n".toList ∧
      column 0 "\ton\t\t\t".toList = 32 ∧
      column 0 "\tabcdefghijklmnopqrstuvwxy".toList = 33 := by
  decide

/-- C16, amended: when the first token of the arguments is `help` or `-h`,
`commandGeneric` calls no handler.  Provided that the help text of the
command and the names and help texts of its sub-commands contain no NUL byte
and are shorter than 16384 bytes (they are printed as C strings through the
buffer of `mydprintf`), and that the prompt neither starts with a tab nor
ends with a newline (`sendToConsole` drops a piece equal to the prompt), all
it does is send to the client the help text of the command and a newline
(when the help is not empty), then one line for each sub-command with a
non-empty help and none for the others: a tab, the name, `3 - length / 8`
tabs (none when that is not positive), the help text and a newline.  For
every name shorter than 24 bytes that contains no tab, the help text is
preceded by a tab and starts at column 32 (tab stops every 8 columns, every
byte other than a tab taking one column); names of 24 bytes or more get no
tab after the name. -/
theorem C16_help_listing (env : Env) (c : Command) (fd : Int) (args : Str) (w : World)
    (hkey : firstKey args = "help".toList ∨ firstKey args = "-h".toList)
    (hhead : w.console.prompt.head? ≠ some '\t')
    (hlast : w.console.prompt.getLast? ≠ some '\n')
    (hc : plainText c.help = true) (hsubs : plainEntries c.subCommands = true) :
    ∃ evs, c.commandGeneric env fd args w = w.emit evs ∧
      (∀ e ∈ evs, ∃ data, e = Event.send fd data) ∧
      sentTo fd evs =
        (if c.help = [] then [] else c.help ++ ['\n']) ++ helpListing c.subCommands ∧
      (∀ e ∈ c.subCommands, e.2.name.length < 24 → '\t' ∉ e.2.name →
        column 0 (helpLead e.2.name) = 32 ∧ (helpLead e.2.name).getLast? = some '\t') ∧
      (∀ e ∈ c.subCommands, 24 ≤ e.2.name.length → helpLead e.2.name = '\t' :: e.2.name) := by
  refine ⟨c.commandHelp w.console.prompt fd, ?_, ?_, ?_, ?_, ?_⟩
  · unfold Command.commandGeneric
    rw [if_pos hkey]
  · intro e he
    unfold Command.commandHelp sendHelp at he
    have hloop : ∀ (l : List (Str × Command)), ∀ e ∈ sendHelpLoop w.console.prompt fd l,
        ∃ data, e = Event.send fd data := by
      intro l
      induction l with
      | nil => intro e he; exact absurd he (List.not_mem_nil _)
      | cons x rest ih =>
        intro e he
        simp only [sendHelpLoop, sendHelpEntry, List.mem_append] at he
        rcases he with he | he
        · split at he
          · exact absurd he (List.not_mem_nil _)
          · have htabs : ∀ n, ∀ e ∈ sendTabs w.console.prompt fd n,
                ∃ data, e = Event.send fd data := by
              intro n
              induction n with
              | zero => intro e he; exact absurd he (List.not_mem_nil _)
              | succ n ihn =>
                intro e he
                simp only [sendTabs, List.mem_append] at he
                rcases he with he | he
                · exact sendToConsole_only_sends _ _ _ e he
                · exact ihn e he
            simp only [List.mem_append] at he
            rcases he with (he | he) | he
            · exact sendToConsole_only_sends _ _ _ e he
            · exact htabs _ e he
            · exact sendToConsole_only_sends _ _ _ e he
        · exact ih e he
    rcases List.mem_append.1 he with he | he
    · split at he
      · exact absurd he (List.not_mem_nil _)
      · exact sendToConsole_only_sends _ _ _ e he
    · split at he
      · exact absurd he (List.not_mem_nil _)
      · rcases List.mem_append.1 he with he | he
        · exact sendToConsole_only_sends _ _ _ e he
        · exact hloop _ e he
  · exact sentTo_commandHelp _ fd c hhead hlast hc hsubs
  · intro e _ hlen htab
    exact helpLead_column _ hlen htab
  · intro e _ hlen
    unfold helpLead
    have : 3 - e.2.name.length / 8 = 0 := by omega
    rw [this]
    exact List.append_nil _

theorem C16_help_listing_witness :
    ∃ evs, fpsCommand.commandGeneric sampleEnv 7 "-h".toList (sampleWorld []) =
        (sampleWorld []).emit evs ∧
      sentTo 7 evs = ("Turn on / off the FPS. Args: [-h | help | on | off | ]\n" ++
        "\ton\t\t\tDisplay the FPS on the bottom-left corner.\n" ++
        "\toff\t\t\tHide the FPS on the bottom-left corner.\n").toList :=
  (C16_help_listing sampleEnv fpsCommand 7 "-h".toList (sampleWorld [])
    (by decide) (by decide) (by decide) (by decide) (by decide)).imp
    (fun _ h => ⟨h.1, h.2.2.1.trans (by decide)⟩)

/-! ## Theorems: the body of an upload -/

theorem uploadNameLoop_byte (k ptr : Nat) (buf : Str) (c : Char) (rest : List Recv)
    (h1 : c ∉ invalid_filename_char) (h2 : c ≠ ' ') :
    uploadNameLoop (k + 1) ptr buf (Recv.byte c :: rest) =
      uploadNameLoop k (ptr + 1) (buf.set ptr c) rest := by
  rw [uploadNameLoop]
  simp only [recv, if_neg h1, if_neg h2]

theorem uploadNameLoop_space (k ptr : Nat) (buf : Str) (rest : List Recv) :
    uploadNameLoop (k + 1) ptr buf (Recv.byte ' ' :: rest) = (some (buf, ptr), rest) := by
  rw [uploadNameLoop]
  simp only [recv]
  rw [if_neg (by decide), if_pos trivial]

theorem uploadNameLoop_accepts (cs : Str) (j : Nat) (pre old tail : Str) (rest : List Recv)
    (hok : ∀ c ∈ cs, c ∉ invalid_filename_char ∧ c ≠ ' ') (hold : old.length = cs.length) :
    uploadNameLoop (cs.length + (j + 1)) pre.length (pre ++ old ++ tail)
        (cs.map Recv.byte ++ Recv.byte ' ' :: rest) =
      (some (pre ++ cs ++ tail, pre.length + cs.length), rest) := by
  induction cs generalizing pre old with
  | nil =>
    have : old = [] := List.length_eq_zero.1 hold
    subst this
    rw [List.length_nil, Nat.zero_add, List.map_nil, List.nil_append, uploadNameLoop_space]
    simp only [List.append_nil, Nat.add_zero]
  | cons c cs ih =>
    cases old with
    | nil => exact absurd hold (by simp)
    | cons o os =>
      have hc := hok c (List.mem_cons_self _ _)
      have hk : (c :: cs).length + (j + 1) = (cs.length + (j + 1)) + 1 := by
        simp only [List.length_cons]; omega
      have hset : (pre ++ o :: os ++ tail).set pre.length c = (pre ++ [c]) ++ os ++ tail := by
        rw [List.append_assoc, List.set_append_right _ _ (Nat.le_refl _), Nat.sub_self]
        simp only [List.cons_append, List.set_cons_zero, List.append_assoc, List.singleton_append,
          List.nil_append]
      have hlen : pre.length + 1 = (pre ++ [c]).length := by simp
      rw [hk, List.map_cons, List.cons_append, uploadNameLoop_byte _ _ _ _ _ hc.1 hc.2, hset, hlen,
        ih (pre ++ [c]) os (fun x hx => hok x (List.mem_cons_of_mem _ hx)) (by simpa using hold)]
      simp only [List.append_assoc, List.singleton_append, List.length_append,
        List.length_singleton, List.length_cons, List.length_nil, Nat.zero_add, Nat.add_assoc,
        Nat.add_comm 1, List.cons_append, List.nil_append]

theorem written_quantumWrites (env : Env) (path : Str) (quanta : List Str) :
    written path (quantumWrites env path quanta) = (quanta.map env.base64Decode).flatten ∧
    ∀ e ∈ quantumWrites env path quanta, ∃ data, e = Event.fwrite path data := by
  induction quanta with
  | nil => exact ⟨rfl, fun e he => absurd he (List.not_mem_nil _)⟩
  | cons q quanta ih =>
    simp only [quantumWrites, List.map_cons, List.flatten_cons]
    by_cases hpos : 0 < (env.base64Decode q).length
    · rw [if_pos hpos]
      refine ⟨?_, ?_⟩
      · show written path (Event.fwrite path (env.base64Decode q) ::
            quantumWrites env path quanta) = _
        simp only [written, if_true]
        rw [ih.1]
      · intro e he
        rcases List.mem_append.1 he with he | he
        · exact ⟨_, List.mem_singleton.1 he⟩
        · exact ih.2 e he
    · rw [if_neg hpos, List.nil_append]
      have : env.base64Decode q = [] := List.length_eq_zero.1 (by omega)
      rw [this, List.nil_append]
      exact ih

theorem completeQuantum_spec (q : Str) (h : completeQuantum q = true) :
    q.length = 4 ∧ '\n' ∉ q := by
  simpa [completeQuantum] using h

theorem uploadBodyLoop_quanta (env : Env) (path : Str) (quanta : List Str) (j : Nat)
    (rest : List Recv) (evs : List Event)
    (hq : ∀ q ∈ quanta, completeQuantum q = true) :
    uploadBodyLoop env path (quanta.length + 1 + j)
        (delivered (quanta.flatten ++ ['\n']) ++ rest) evs =
      (rest, evs ++ quantumWrites env path quanta) := by
  induction quanta generalizing evs with
  | nil =>
    have h := readBytes_newline [] rest ['=', '=', '=', '='] 4 (List.not_mem_nil _)
      (by decide) (by decide)
    simp only [List.nil_append] at h
    have hk : ([] : List Str).length + 1 + j = j + 1 := by simp only [List.length_nil]; omega
    rw [hk]
    simp only [List.flatten_nil, List.nil_append, uploadBodyLoop, h, if_true, quantumWrites,
      List.append_nil]
  | cons q quanta ih =>
    obtain ⟨hlen, hnl⟩ := completeQuantum_spec q (hq q (List.mem_cons_self _ _))
    have hin : delivered ((q :: quanta).flatten ++ ['\n']) ++ rest =
        delivered q ++ (delivered (quanta.flatten ++ ['\n']) ++ rest) := by
      simp only [delivered, List.flatten_cons, List.map_append, List.append_assoc]
    have h := readBytes_full q (delivered (quanta.flatten ++ ['\n']) ++ rest)
      ['=', '=', '=', '='] 4 hlen hnl (by decide)
    have hdrop : q ++ List.drop 4 ['=', '=', '=', '='] = q := by
      simp only [List.drop_succ_cons, List.drop_zero, List.append_nil]
    rw [hdrop] at h
    have hk : (q :: quanta).length + 1 + j = (quanta.length + 1 + j) + 1 := by
      simp only [List.length_cons]; omega
    rw [hk, hin]
    simp only [uploadBodyLoop, h, Bool.true_eq_false, if_false]
    rw [ih _ (fun x hx => hq x (List.mem_cons_of_mem _ hx))]
    by_cases hpos : 0 < (env.base64Decode q).length
    · simp only [if_pos hpos, quantumWrites, List.append_assoc]
    · simp only [if_neg hpos, quantumWrites, List.nil_append]

theorem acceptedName_spec (f : Str) (h : acceptedName f = true) :
    (∀ c ∈ f, c ∉ invalid_filename_char ∧ c ≠ ' ') ∧ NUL ∉ f ∧ f.length ≤ 510 := by
  unfold acceptedName at h
  rw [Bool.and_eq_true, List.all_eq_true, decide_eq_true_eq] at h
  refine ⟨?_, ?_, h.2⟩
  · intro c hc
    have := h.1 c hc
    simp only [Bool.and_eq_true, decide_eq_true_eq] at this
    exact ⟨this.1.1, this.1.2⟩
  · intro hc
    have := h.1 NUL hc
    simp only [Bool.and_eq_true, decide_eq_true_eq] at this
    exact this.2 rfl

theorem commandUpload_writes (env : Env) (fd : Int) (w : World) (f : Str) (quanta : List Str)
    (rest : List Recv)
    (hf : acceptedName f = true) (hq : ∀ q ∈ quanta, completeQuantum q = true)
    (hopen : env.openFileStream (env.writablePath ++ f) = true)
    (hnet : w.net fd = delivered (f ++ ' ' :: (quanta.flatten ++ ['\n'])) ++ rest) :
    commandUpload env fd w =
      (w.setNet fd rest).emit
        (Event.fopen (env.writablePath ++ f) ::
          quantumWrites env (env.writablePath ++ f) quanta) := by
  obtain ⟨hok, hnul, hlen⟩ := acceptedName_spec f hf
  obtain ⟨j, hj⟩ : ∃ j, 511 = f.length + (j + 1) := ⟨510 - f.length, by omega⟩
  have hname := uploadNameLoop_accepts f j [] (List.replicate f.length NUL)
    (List.replicate (512 - f.length) NUL) (delivered (quanta.flatten ++ ['\n']) ++ rest) hok
    (List.length_replicate _ _)
  have hbuf : ([] : Str) ++ List.replicate f.length NUL ++ List.replicate (512 - f.length) NUL =
      List.replicate 512 NUL := by
    rw [List.nil_append, List.append_replicate_replicate]
    congr 1
    omega
  have hin : w.net fd =
      f.map Recv.byte ++ Recv.byte ' ' :: (delivered (quanta.flatten ++ ['\n']) ++ rest) := by
    rw [hnet]
    simp only [delivered, List.map_append, List.map_cons, List.append_assoc, List.cons_append]
  rw [hbuf, ← hj, ← hin] at hname
  simp only [List.length_nil, Nat.zero_add, List.nil_append] at hname
  have hpath : cstr ((f ++ List.replicate (512 - f.length) NUL).set f.length NUL) = f := by
    obtain ⟨m, hm⟩ : ∃ m, 512 - f.length = m + 1 := ⟨511 - f.length, by omega⟩
    rw [hm, List.set_append_right _ _ (Nat.le_refl _), Nat.sub_self, List.replicate_succ,
      List.set_cons_zero]
    exact cstr_append_NUL f _ hnul
  unfold commandUpload
  rw [hname]
  simp only [hpath, hopen, Bool.true_eq_false, if_false]
  have hfuel : (delivered (quanta.flatten ++ ['\n']) ++ rest).length + 1 =
      quanta.length + 1 + ((delivered (quanta.flatten ++ ['\n']) ++ rest).length -
        quanta.length) := by
    have : quanta.length ≤ (delivered (quanta.flatten ++ ['\n']) ++ rest).length := by
      have hsum : quanta.length ≤ quanta.flatten.length := by
        clear hnet hin hname
        induction quanta with
        | nil => exact Nat.le_refl _
        | cons q qs ih =>
          have h4 := (completeQuantum_spec q (hq q (List.mem_cons_self _ _))).1
          have := ih (fun x hx => hq x (List.mem_cons_of_mem _ hx))
          simp only [List.length_cons, List.flatten_cons, List.length_append]
          omega
      simp only [delivered, List.length_append, List.length_map, List.length_singleton]
      omega
    omega
  rw [hfuel, uploadBodyLoop_quanta env _ quanta _ rest [] hq, World.setNet_setNet]
  rfl

/-- The upload of a stream delivered without interruption: for an accepted
file name `f` (free of forbidden characters, spaces and NUL, within the cap
of the name phase, and for which the file can be opened) followed by a
space, and a body of `k ≥ 0` complete quanta (four bytes, no newline)
followed by a newline, `commandUpload` consumes exactly the name, the space,
the quanta and the newline, opens `writablePath ++ f`, and what it then does
is only writes to that file, whose bytes are the decodings of the `k` quanta
concatenated in order. -/
theorem upload_writes_decodings (env : Env) (fd : Int) (w : World) (f : Str)
    (quanta : List Str) (rest : List Recv)
    (hf : acceptedName f = true) (hq : ∀ q ∈ quanta, completeQuantum q = true)
    (hopen : env.openFileStream (env.writablePath ++ f) = true)
    (hnet : w.net fd = delivered (f ++ ' ' :: (quanta.flatten ++ ['\n'])) ++ rest) :
    ∃ evs, commandUpload env fd w =
        (w.setNet fd rest).emit (Event.fopen (env.writablePath ++ f) :: evs) ∧
      (∀ e ∈ evs, ∃ data, e = Event.fwrite (env.writablePath ++ f) data) ∧
      written (env.writablePath ++ f) evs = (quanta.map env.base64Decode).flatten :=
  ⟨quantumWrites env (env.writablePath ++ f) quanta,
    commandUpload_writes env fd w f quanta rest hf hq hopen hnet,
    (written_quantumWrites env _ quanta).2, (written_quantumWrites env _ quanta).1⟩

/-- C11 fails on the code when a `recv` of the body is interrupted: the file
name "ok.bin", the space, one interruption, then the body "AAAA" and its
newline.  The interrupted `recv` uses up one of the four rounds of
`readBytes(fd, data, 4)`, so the first quantum is read as "AAA=", which
decodes to two zero bytes; the next call reads the last "A" up to the newline
and ends the transfer.  The file receives two zero bytes, not the three of
the quantum "AAAA", which it does receive when no `recv` is interrupted. -/
theorem C11_interrupted_upload_loses_bytes :
    (commandUpload base64Env 7
        (sampleWorld (delivered "ok.bin ".toList ++ Recv.eintr :: delivered "AAAA\n".toList))).trace =
      [Event.fopen "/w/ok.bin".toList,
        Event.fwrite "/w/ok.bin".toList [Char.ofNat 0, Char.ofNat 0]] ∧
    (commandUpload base64Env 7 (sampleWorld (delivered "ok.bin AAAA\n".toList))).trace =
      [Event.fopen "/w/ok.bin".toList,
        Event.fwrite "/w/ok.bin".toList [Char.ofNat 0, Char.ofNat 0, Char.ofNat 0]] := by
  decide

/-! ## Theorems: the connection set and the poll set -/

theorem keeps_refl (w : World) : Keeps w w := ⟨rfl, id⟩

theorem keeps_trans {w w1 w2 : World} (h1 : Keeps w w1) (h2 : Keeps w1 w2) : Keeps w w2 :=
  ⟨h2.1.trans h1.1, fun h => h2.2 (h1.2 h)⟩

theorem keeps_of_console {w w1 : World} (h : w1.console = w.console) : Keeps w w1 := by
  unfold Keeps
  rw [h]
  exact ⟨rfl, id⟩

theorem keeps_filter (w : World) (fd : Int) :
    Keeps w { w with console := { w.console with
      read_set := FD_CLR fd w.console.read_set
      fds := w.console.fds.filter (fun x => x != fd) } } := by
  refine ⟨rfl, ?_⟩
  intro h x hx
  simp only [FD_CLR, List.mem_filter]
  rw [h x hx]

theorem keeps_commandExit (fd : Int) (w : World) : Keeps w (commandExit fd w) := by
  refine ⟨rfl, ?_⟩
  intro h x hx
  simp only [commandExit, List.mem_filter]
  rw [h x hx]

theorem commandUpload_console (env : Env) (fd : Int) (w : World) :
    (commandUpload env fd w).console = w.console := by
  unfold commandUpload
  split
  · rfl
  · simp only
    split <;> rfl

theorem keeps_invoke (env : Env) (cb : Callback) (fd : Int) (args : Str) (w : World) :
    Keeps w (invoke env cb fd args w) := by
  cases cb with
  | commandExit => exact keeps_commandExit fd w
  | commandDebugMsg => exact keeps_of_console rfl
  | commandDebugMsgSubCommandOnOff => exact ⟨rfl, fun h => h⟩
  | commandHelp => exact keeps_of_console rfl
  | commandUpload => exact keeps_of_console (commandUpload_console env fd w)
  | commandVersion => exact keeps_of_console rfl
  | host id => exact keeps_of_console rfl

theorem keeps_commandGeneric (env : Env) (c : Command) (fd : Int) (args : Str) (w : World) :
    Keeps w (c.commandGeneric env fd args w) := by
  unfold Command.commandGeneric
  split
  · exact keeps_of_console rfl
  · split
    · split
      · exact keeps_invoke env _ fd args w
      · exact keeps_refl w
    · split
      · exact keeps_invoke env _ fd args w
      · exact keeps_refl w

theorem keeps_performCommand (env : Env) (fd : Int) (command : Str) (w w1 : World)
    (h : performCommand env fd command w = Except.ok w1) : Keeps w w1 := by
  unfold performCommand at h
  split at h
  · exact Except.noConfusion h
  · split at h
    · injection h with h
      rw [← h]
      exact keeps_commandGeneric env _ fd _ w
    · exact Except.noConfusion h

theorem keeps_performAll (env : Env) (fd : Int) (l : List Str) (w : World) :
    Keeps w (performAll env fd l w).1 := by
  induction l generalizing w with
  | nil => exact keeps_refl w
  | cons s l ih =>
    unfold performAll
    cases h : performCommand env fd (Utility.trim s) w with
    | ok w1 => exact keeps_trans (keeps_performCommand env fd _ w w1 h) (ih w1)
    | error msg => exact keeps_refl w

theorem keeps_runCmdLine (env : Env) (fd : Int) (cmdLine : Str) (w : World) :
    Keeps w (runCmdLine env fd cmdLine w) := by
  unfold runCmdLine
  simp only
  refine keeps_trans (keeps_performAll env fd
    (Utility.split cmdLine w.console.commandSeparator) w) ?_
  cases (performAll env fd (Utility.split cmdLine w.console.commandSeparator) w).2 with
  | some msg => exact keeps_of_console rfl
  | none => exact keeps_of_console rfl

theorem keeps_parseCommand (env : Env) (fd : Int) (buf0 : Str) (w : World) :
    Keeps w (parseCommand env fd buf0 w).2 := by
  unfold parseCommand
  simp only
  split
  · exact keeps_of_console rfl
  · split
    · split
      · exact keeps_of_console (by
          show (commandUpload env fd _).console = w.console
          rw [commandUpload_console]
          rfl)
      · exact keeps_of_console rfl
    · split
      · exact @keeps_trans _ (w.setNet fd _) _ (keeps_of_console rfl)
          (keeps_runCmdLine env fd _ _)
      · split
        · exact keeps_of_console rfl
        · exact @keeps_trans _ ((w.setNet fd _).setNet fd _) _ (keeps_of_console rfl)
            (keeps_runCmdLine env fd _ _)

theorem mem_FD_SET (x fd : Int) (set : List Int) : x ∈ FD_SET fd set ↔ x ∈ set ∨ x = fd := by
  unfold FD_SET
  split
  · constructor
    · exact Or.inl
    · rintro (h | h)
      · exact h
      · rw [h]; assumption
  · simp only [List.mem_append, List.mem_singleton]

theorem keeps_addClient (accepted : Int) (w : World) : Keeps w (addClient accepted w) := by
  unfold addClient
  split
  · refine ⟨rfl, ?_⟩
    intro h x hx
    simp only [mem_FD_SET, List.mem_append, List.mem_singleton]
    rw [h x hx]
  · exact keeps_refl w

theorem keeps_removeClosed (to_remove : List Int) (w : World) :
    Keeps w (removeClosed to_remove w) := by
  induction to_remove generalizing w with
  | nil => exact keeps_refl w
  | cons fd rest ih => exact keeps_trans (keeps_filter w fd) (ih _)

theorem keeps_loopClients (env : Env) (os : Ready) (fds : List Int) (nready : Int)
    (to_remove : List Int) (w : World) :
    Keeps w (loopClients env os fds nready to_remove w).2 := by
  induction fds generalizing nready to_remove w with
  | nil => exact keeps_refl w
  | cons fd rest ih =>
    unfold loopClients
    split
    · split
      · exact keeps_refl w
      · split
        · exact ih _ _ _
        · split
          · exact keeps_parseCommand env fd os.buf0 w
          · exact keeps_trans (keeps_parseCommand env fd os.buf0 w) (ih _ _ _)
    · exact ih _ _ _

theorem keeps_flushDebugStrings (lockFree : Bool) (w : World) :
    Keeps w (flushDebugStrings lockFree w) := by
  unfold flushDebugStrings
  split
  · exact keeps_refl w
  · split
    · exact ⟨rfl, fun h => h⟩
    · exact keeps_refl w

theorem keeps_loopIteration (env : Env) (os : Ready) (w : World) :
    Keeps w (loopIteration env os w) := by
  unfold loopIteration
  split
  · exact keeps_refl w
  · split
    · exact keeps_flushDebugStrings _ w
    · split
      · split
        · exact keeps_addClient _ w
        · exact keeps_trans (keeps_addClient os.accepted w)
            (keeps_trans (keeps_loopClients env os _ _ _ _)
              (keeps_trans (keeps_removeClosed _ _) (keeps_flushDebugStrings _ _)))
      · exact keeps_trans (keeps_loopClients env os _ _ _ _)
          (keeps_trans (keeps_removeClosed _ _) (keeps_flushDebugStrings _ _))

theorem keeps_run (env : Env) (op : LoopOp) (w : World) : Keeps w (op.run env w) := by
  cases op with
  | accept fd => exact keeps_addClient fd w
  | evict to_remove => exact keeps_removeClosed to_remove w
  | exit fd => exact keeps_commandExit fd w
  | round os => exact keeps_loopIteration env os w

theorem keeps_runOps (env : Env) (ops : List LoopOp) (w : World) :
    Keeps w (runOps env ops w) := by
  induction ops generalizing w with
  | nil => exact keeps_refl w
  | cons op rest ih => exact keeps_trans (keeps_run env op w) (ih _)

theorem synced_loopStart (w : World) (h : w.console.fds = []) :
    Synced (loopStart w).console := by
  intro x hx
  simp only [loopStart, h, mem_FD_SET, List.not_mem_nil, false_or, false_iff]
  exact hx

/-- C18: accepting a client (`addClient`), evicting the handles queued for
removal, the `exit` command and whole rounds of the loop update the two sets
together: from a state in which they agree these operations only lead to
states in which they agree; so in every state that the loop thread reaches
this way from its start on a console without connections, a client handle
(any handle other than the listening one) is in the connection set `_fds` if
and only if it is in the poll set `_read_set`. -/
theorem C18_sets_agree (env : Env) (w : World) (ops : List LoopOp) :
    (Synced w.console → Synced (runOps env ops w).console) ∧
    (w.console.fds = [] →
      ∀ fd, fd ≠ (runOps env ops (loopStart w)).console.listenfd →
        (fd ∈ (runOps env ops (loopStart w)).console.fds ↔
          fd ∈ (runOps env ops (loopStart w)).console.read_set)) :=
  ⟨(keeps_runOps env ops w).2,
    fun hfresh => (keeps_runOps env ops (loopStart w)).2 (synced_loopStart w hfresh)⟩

theorem C18_sets_agree_witness :
    (runOps sampleEnv [LoopOp.accept 7, LoopOp.accept 8, LoopOp.exit 7, LoopOp.evict [9]]
        (loopStart freshWorld)).console.fds = [8] ∧
    (runOps sampleEnv [LoopOp.accept 7, LoopOp.accept 8, LoopOp.exit 7, LoopOp.evict [9]]
        (loopStart freshWorld)).console.read_set = [3, 8] ∧
    (8 ∈ (runOps sampleEnv [LoopOp.accept 7, LoopOp.accept 8, LoopOp.exit 7, LoopOp.evict [9]]
        (loopStart freshWorld)).console.fds ↔
      8 ∈ (runOps sampleEnv [LoopOp.accept 7, LoopOp.accept 8, LoopOp.exit 7, LoopOp.evict [9]]
        (loopStart freshWorld)).console.read_set) :=
  ⟨by decide, by decide,
    (C18_sets_agree sampleEnv freshWorld
      [LoopOp.accept 7, LoopOp.accept 8, LoopOp.exit 7, LoopOp.evict [9]]).2 rfl 8 (by decide)⟩

/-! ## Theorems: eviction -/

/-- The eviction loop of `Console::loop` makes no call that the trace
records: in particular it closes nothing. -/
theorem removeClosed_trace (to_remove : List Int) (w : World) :
    (removeClosed to_remove w).trace = w.trace := by
  induction to_remove generalizing w with
  | nil => rfl
  | cons fd rest ih => exact ih _

/-- C20 fails on the code: in a round in which `select` reports the client 7
readable and `FIONREAD` finds no byte pending (the peer has closed), the
handle is queued for removal and, by the end of the round, it is out of the
connection set and out of the poll set, but no `close(7)` has been made: the
trace of the round is empty.  The same holds when the handle is queued
because `parseCommand` returned false after a failed `recv`: the trace has no
`close(7)`. -/
theorem C20_evicted_handle_not_closed :
    ((loopIteration sampleEnv closedPeerRound (sampleWorld [])).console.fds = [] ∧
      (loopIteration sampleEnv closedPeerRound (sampleWorld [])).console.read_set = [3] ∧
      (loopIteration sampleEnv closedPeerRound (sampleWorld [])).trace = []) ∧
    ((loopIteration sampleEnv readableRound (sampleWorld [Recv.error])).console.fds = [] ∧
      (loopIteration sampleEnv readableRound (sampleWorld [Recv.error])).console.read_set = [3] ∧
      Event.close 7 ∉ (loopIteration sampleEnv readableRound (sampleWorld [Recv.error])).trace) := by
  decide

/-! ## Theorems: the stores stay inside the buffers -/

theorem store_lt (buf : Str) (i : Nat) (c : Char) (h : i < buf.length) :
    store buf i c = some (buf.set i c) := by
  unfold store
  rw [if_pos h]

theorem readBytesLoopChecked_eq (k n ptr : Nat) (buf : Str) (input : List Recv)
    (h : ptr + k ≤ buf.length) :
    readBytesLoopChecked k n ptr buf input = some (readBytesLoop k n ptr buf input) := by
  induction k generalizing n ptr buf input with
  | zero => rfl
  | succ k ih =>
    rw [readBytesLoopChecked, readBytesLoop]
    cases input with
    | nil => rfl
    | cons r rest =>
      cases r with
      | byte c =>
        simp only [recv]
        rw [store_lt buf ptr c (by omega)]
        simp only
        split
        · rfl
        · exact ih _ _ _ _ (by rw [List.length_set]; omega)
      | closed => rfl
      | eintr =>
        simp only [recv]
        exact ih _ _ _ _ (by omega)
      | error => rfl

theorem readlineLoopChecked_eq (k n ptr : Nat) (buf : Str) (input : List Recv)
    (h : ptr + k < buf.length) :
    readlineLoopChecked k n ptr buf input = some (readlineLoop k n ptr buf input) := by
  induction k generalizing n ptr buf input with
  | zero =>
    rw [readlineLoopChecked, readlineLoop, store_lt buf ptr NUL (by omega)]
  | succ k ih =>
    rw [readlineLoopChecked, readlineLoop]
    cases input with
    | nil => rfl
    | cons r rest =>
      cases r with
      | byte c =>
        simp only [recv]
        rw [store_lt buf ptr c (by omega)]
        simp only
        split
        · rw [store_lt _ (ptr + 1) NUL (by rw [List.length_set]; omega)]
        · exact ih _ _ _ _ (by rw [List.length_set]; omega)
      | closed => rfl
      | eintr =>
        simp only [recv]
        exact ih _ _ _ _ (by omega)
      | error => rfl

theorem uploadNameLoopChecked_eq (k ptr : Nat) (buf : Str) (input : List Recv)
    (h : ptr + k ≤ buf.length) :
    uploadNameLoopChecked k ptr buf input = some (uploadNameLoop k ptr buf input) := by
  induction k generalizing ptr buf input with
  | zero => rfl
  | succ k ih =>
    rw [uploadNameLoopChecked, uploadNameLoop]
    cases input with
    | nil => rfl
    | cons r rest =>
      cases r with
      | byte c =>
        simp only [recv]
        split
        · rfl
        · split
          · rfl
          · rw [store_lt buf ptr c (by omega)]
            exact ih _ _ _ (by rw [List.length_set]; omega)
      | closed => rfl
      | eintr =>
        simp only [recv]
        exact ih _ _ _ (by omega)
      | error => rfl

theorem uploadNameLoop_bound (k ptr : Nat) (buf : Str) (input : List Recv) (b : Str) (p : Nat)
    (rest : List Recv) (h : uploadNameLoop k ptr buf input = (some (b, p), rest)) :
    p ≤ ptr + k ∧ b.length = buf.length := by
  induction k generalizing ptr buf input with
  | zero =>
    rw [uploadNameLoop] at h
    injection h with h1 _
    injection h1 with h1
    injection h1 with hb hp
    rw [← hb, ← hp]
    exact ⟨Nat.le_refl _, rfl⟩
  | succ k ih =>
    rw [uploadNameLoop] at h
    have hdone : ∀ (x : List Recv), (some (buf, ptr), x) = (some (b, p), rest) →
        p ≤ ptr + (k + 1) ∧ b.length = buf.length := by
      intro x hx
      injection hx with h1 _
      injection h1 with h1
      injection h1 with hb hp
      rw [← hb, ← hp]
      exact ⟨by omega, rfl⟩
    cases input with
    | nil => exact hdone _ h
    | cons r rs =>
      cases r with
      | byte c =>
        simp only [recv] at h
        split at h
        · injection h with h1 _
          exact Option.noConfusion h1
        · split at h
          · exact hdone _ h
          · have := ih _ _ _ h
            rw [List.length_set] at this
            exact ⟨by omega, this.2⟩
      | closed => exact hdone _ h
      | eintr =>
        simp only [recv] at h
        have := ih _ _ _ h
        exact ⟨by omega, this.2⟩
      | error => exact hdone _ h

theorem readBytesLoop_buf_length (k n ptr : Nat) (buf : Str) (input : List Recv) :
    (readBytesLoop k n ptr buf input).buf.length = buf.length := by
  induction k generalizing n ptr buf input with
  | zero => rfl
  | succ k ih =>
    rw [readBytesLoop]
    cases input with
    | nil => rfl
    | cons r rest =>
      cases r with
      | byte c =>
        simp only [recv]
        split
        · exact List.length_set _ _ _
        · rw [ih, List.length_set]
      | closed => rfl
      | eintr => exact ih _ _ _ _
      | error => rfl

theorem readBytesLoop_ret_lt (k n ptr : Nat) (buf : Str) (input : List Recv)
    (h : (readBytesLoop k n ptr buf input).more = false) :
    (readBytesLoop k n ptr buf input).ret < n + k := by
  induction k generalizing n ptr buf input with
  | zero => exact Bool.noConfusion h
  | succ k ih =>
    rw [readBytesLoop] at h ⊢
    cases input with
    | nil => simp only [recv]; omega
    | cons r rest =>
      cases r with
      | byte c =>
        simp only [recv] at h ⊢
        split
        · simp only; omega
        · rename_i hc
          rw [if_neg hc] at h
          have := ih _ _ _ _ h
          push_cast at this ⊢
          omega
      | closed => simp only [recv]; omega
      | eintr =>
        simp only [recv] at h ⊢
        have := ih _ _ _ _ h
        push_cast at this ⊢
        omega
      | error => simp only [recv]; omega

theorem readlineLoop_buf_length (k n ptr : Nat) (buf : Str) (input : List Recv) :
    (readlineLoop k n ptr buf input).buf.length = buf.length := by
  induction k generalizing n ptr buf input with
  | zero => exact List.length_set _ _ _
  | succ k ih =>
    rw [readlineLoop]
    cases input with
    | nil => rfl
    | cons r rest =>
      cases r with
      | byte c =>
        simp only [recv]
        split
        · rw [List.length_set, List.length_set]
        · rw [ih, List.length_set]
      | closed => rfl
      | eintr => exact ih _ _ _ _
      | error => rfl

theorem parseCommandStores_some (input : List Recv) (buf0 : Str) (h : buf0.length = 512) :
    ∃ buf, parseCommandStores input buf0 = some buf ∧ buf.length = 512 := by
  have hr : readBytesChecked input buf0 6 = some (readBytes input buf0 6) :=
    readBytesLoopChecked_eq 6 0 0 buf0 input (by omega)
  have hlen : (readBytes input buf0 6).buf.length = 512 := by
    rw [readBytes, readBytesLoop_buf_length, h]
  unfold parseCommandStores
  rw [hr]
  simp only
  split
  · exact ⟨_, rfl, hlen⟩
  · split
    · exact ⟨_, rfl, hlen⟩
    · split
      · rename_i hneg _ hmore
        have hlt := readBytesLoop_ret_lt 6 0 0 buf0 input hmore
        have hidx : (readBytes input buf0 6).ret.toNat < (readBytes input buf0 6).buf.length := by
          rw [hlen]
          unfold readBytes
          omega
        rw [store_lt _ _ _ hidx]
        exact ⟨_, rfl, by rw [List.length_set, hlen]⟩
      · have hdrop : ((readBytes input buf0 6).buf.drop 6).length = 506 := by
          rw [List.length_drop, hlen]
        have hrl : readlineChecked (readBytes input buf0 6).rest
            ((readBytes input buf0 6).buf.drop 6) (512 - 6) =
            some (readline (readBytes input buf0 6).rest
              ((readBytes input buf0 6).buf.drop 6) (512 - 6)) := by
          unfold readlineChecked readline
          exact readlineLoopChecked_eq _ 0 0 _ _ (by rw [hdrop]; decide)
        rw [hrl]
        refine ⟨_, rfl, ?_⟩
        rw [List.length_append, List.length_take, hlen, readline, readlineLoop_buf_length, hdrop]
        rfl

theorem uploadNameStores_some (input : List Recv) :
    ∃ buf, uploadNameStores input = some buf ∧ buf.length = 512 := by
  have hc := uploadNameLoopChecked_eq 511 0 (List.replicate 512 NUL) input
    (by rw [List.length_replicate]; omega)
  unfold uploadNameStores
  rw [hc]
  cases hl : uploadNameLoop 511 0 (List.replicate 512 NUL) input with
  | mk r rest =>
    cases r with
    | none => exact ⟨_, rfl, List.length_replicate _ _⟩
    | some bp =>
      obtain ⟨b, p⟩ := bp
      have hb := uploadNameLoop_bound 511 0 _ input b p rest hl
      rw [List.length_replicate] at hb
      simp only
      rw [store_lt b p NUL (by omega)]
      exact ⟨_, rfl, by rw [List.length_set, hb.2]⟩

/-- C23: for every script of `recv` outcomes (any length, with or without a
newline, with any interruptions, closes and errors) and whatever the 512
cells of the line buffer hold on entry, none of the stores of `parseCommand`
into the buffer (the up to 6 bytes of `readBytes`, the terminator
`buf[h] = 0`, the bytes and the terminator that `readline` stores from offset
6 with `maxlen` 506) falls outside the 512 cells; and none of the stores of
`commandUpload` into its 512-byte name buffer does, the final NUL
included. -/
theorem C23_stores_in_bounds (input : List Recv) (buf0 : Str) (h : buf0.length = 512) :
    (∃ buf, parseCommandStores input buf0 = some buf ∧ buf.length = 512) ∧
    (∃ name, uploadNameStores input = some name ∧ name.length = 512) :=
  ⟨parseCommandStores_some input buf0 h, uploadNameStores_some input⟩

theorem C23_stores_in_bounds_witness :
    (∃ buf, parseCommandStores (Recv.eintr :: delivered "fps on\n".toList)
        (List.replicate 512 'x') = some buf ∧ buf.length = 512) ∧
    (∃ name, uploadNameStores (Recv.eintr :: delivered "fps on\n".toList) = some name ∧
      name.length = 512) :=
  C23_stores_in_bounds (Recv.eintr :: delivered "fps on\n".toList) (List.replicate 512 'x')
    (List.length_replicate _ _)

/-! ## Theorems: what `readline` returns -/

theorem readline_after_bytes (cs : Str) (tail : List Recv) (buf : Str) (maxlen : Nat)
    (hnl : '\n' ∉ cs) (hk : cs.length + 1 < maxlen) (hmax : maxlen < 2 ^ 64)
    (hbuf : cs.length ≤ buf.length) :
    ∃ j, readline (delivered cs ++ tail) buf maxlen =
      readlineLoop (j + 1) cs.length cs.length (cs ++ buf.drop cs.length) tail := by
  have hm : (maxlen + 2 ^ 64 - 1) % 2 ^ 64 = maxlen - 1 := by omega
  obtain ⟨j, hj⟩ : ∃ j, maxlen - 1 = cs.length + (j + 1) := ⟨maxlen - 1 - cs.length - 1, by omega⟩
  have h := readlineLoop_bytes cs (j + 1) 0 [] (buf.take cs.length) (buf.drop cs.length)
    tail hnl (by rw [List.length_take]; omega)
  simp only [List.nil_append, List.take_append_drop, List.length_nil, Nat.zero_add] at h
  exact ⟨j, by rw [readline, hm, hj, delivered, h]⟩

theorem readline_closed (cs : Str) (rest : List Recv) (buf : Str) (maxlen : Nat)
    (hnl : '\n' ∉ cs) (hk : cs.length + 1 < maxlen) (hmax : maxlen < 2 ^ 64)
    (hbuf : cs.length ≤ buf.length) :
    (readline (delivered cs ++ Recv.closed :: rest) buf maxlen).ret = 0 ∧
    (readline (delivered cs) buf maxlen).ret = 0 := by
  constructor
  · obtain ⟨j, hj⟩ := readline_after_bytes cs (Recv.closed :: rest) buf maxlen hnl hk hmax hbuf
    rw [hj, readlineLoop]
    rfl
  · obtain ⟨j, hj⟩ := readline_after_bytes cs [] buf maxlen hnl hk hmax hbuf
    rw [List.append_nil] at hj
    rw [hj, readlineLoop]
    rfl

theorem readline_error (cs : Str) (rest : List Recv) (buf : Str) (maxlen : Nat)
    (hnl : '\n' ∉ cs) (hk : cs.length + 1 < maxlen) (hmax : maxlen < 2 ^ 64)
    (hbuf : cs.length ≤ buf.length) :
    (readline (delivered cs ++ Recv.error :: rest) buf maxlen).ret = -1 := by
  obtain ⟨j, hj⟩ := readline_after_bytes cs (Recv.error :: rest) buf maxlen hnl hk hmax hbuf
  rw [hj, readlineLoop]
  rfl

/-- C21, as stated, fails: on the stream "abc\n", whose newline is at position
3, `readline` with `maxlen = 10` stores the four bytes and the terminator but
returns 3, not 4; and on the stream "\n" it returns 0, the value it also
returns for a closed peer. -/
theorem C21_readline_abc_returns_3 :
    (readline (delivered "abc\n".toList) (List.replicate 10 'x') 10).ret = 3 ∧
    (readline (delivered "abc\n".toList) (List.replicate 10 'x') 10).buf =
      "abc\n".toList ++ NUL :: List.replicate 5 'x' ∧
    (readline (delivered "\n".toList) (List.replicate 10 'x') 10).ret = 0 := by
  decide

/-- C21, amended: for every stream delivered without interruption whose first
newline is at 0-based position `k` with `k < maxlen - 1`, `readline` consumes
the `k + 1` bytes, stores them (newline included) followed by a NUL and
returns `k`, the number of bytes before the newline; when the peer closes
before a newline has come it returns 0 (without storing a terminator), and on
a receive error other than an interruption it returns -1. -/
theorem C21_readline_returns (cs : Str) (rest : List Recv) (buf : Str) (maxlen : Nat)
    (hnl : '\n' ∉ cs) (hk : cs.length + 1 < maxlen) (hmax : maxlen < 2 ^ 64)
    (hbuf : maxlen ≤ buf.length) :
    readline (delivered (cs ++ ['\n']) ++ rest) buf maxlen =
      ⟨(cs.length : Int), false, cs ++ '\n' :: NUL :: buf.drop (cs.length + 2), rest⟩ ∧
    (readline (delivered cs ++ Recv.closed :: rest) buf maxlen).ret = 0 ∧
    (readline (delivered cs) buf maxlen).ret = 0 ∧
    (readline (delivered cs ++ Recv.error :: rest) buf maxlen).ret = -1 :=
  ⟨readline_newline cs rest buf maxlen hnl hk hmax (by omega),
    (readline_closed cs rest buf maxlen hnl hk hmax (by omega)).1,
    (readline_closed cs rest buf maxlen hnl hk hmax (by omega)).2,
    readline_error cs rest buf maxlen hnl hk hmax (by omega)⟩

theorem C21_readline_returns_witness :
    readline (delivered ("fps on".toList ++ ['\n']) ++ [Recv.byte 'z'])
        (List.replicate 506 'x') 506 =
      ⟨6, false, "fps on".toList ++ '\n' :: NUL :: (List.replicate 506 'x').drop 8,
        [Recv.byte 'z']⟩ :=
  (C21_readline_returns "fps on".toList [Recv.byte 'z'] (List.replicate 506 'x') 506
    (by decide) (by decide) (by decide) (List.length_replicate _ _).ge).1

/-! ## Theorems: the sends of `sendToConsole` -/

theorem strncmpEq_self (n : Nat) (s : Str) : strncmpEq n s s = true := by
  induction n generalizing s with
  | zero => rfl
  | succ n ih =>
    rw [strncmpEq, if_neg (fun h => h rfl)]
    split
    · rfl
    · exact ih _

theorem strncmpEq_comm (n : Nat) (s t : Str) : strncmpEq n s t = strncmpEq n t s := by
  induction n generalizing s t with
  | zero => rfl
  | succ n ih =>
    rw [strncmpEq, strncmpEq]
    by_cases h : s.headD NUL = t.headD NUL
    · simp only [ne_eq, h, not_true_eq_false, if_false]
      rw [ih]
    · rw [if_pos h, if_pos (fun hh => h hh.symm)]

theorem takenForPrompt_self (prompt : Str) : takenForPrompt prompt prompt = true := by
  unfold takenForPrompt
  rw [strncmpEq_self]
  simp only [decide_True, Bool.and_self]

theorem takenForPrompt_iff (prompt buffer : Str) (h : NUL ∉ prompt ∨ NUL ∉ buffer) :
    takenForPrompt prompt buffer = true ↔ buffer = prompt := by
  constructor
  · intro ht
    unfold takenForPrompt at ht
    rw [Bool.and_eq_true, decide_eq_true_eq] at ht
    obtain ⟨hlen, hcmp⟩ := ht
    rcases h with h | h
    · rw [strncmpEq_comm, strncmpEq_eq_take _ _ _ h hlen, decide_eq_true_eq,
        List.take_of_length_le (Nat.le_refl _)] at hcmp
      exact hcmp
    · rw [strncmpEq_eq_take _ _ _ h rfl, decide_eq_true_eq,
        List.take_of_length_le (Nat.le_of_eq hlen)] at hcmp
      exact hcmp.symm
  · intro e
    rw [e]
    exact takenForPrompt_self prompt

theorem sendToConsole_taken (prompt : Str) (fd : Int) (buffer : Str) (results : List Int)
    (h : takenForPrompt prompt buffer = true) :
    Utility.sendToConsole prompt fd buffer = [] ∧
      Utility.sendToConsoleRet prompt buffer results = 0 := by
  unfold takenForPrompt at h
  rw [Bool.and_eq_true, decide_eq_true_eq] at h
  unfold Utility.sendToConsole Utility.sendToConsoleRet
  rw [if_pos h, if_pos h]
  exact ⟨rfl, rfl⟩

theorem sendToConsole_not_taken (prompt : Str) (fd : Int) (buffer : Str)
    (h : takenForPrompt prompt buffer = false) :
    Utility.sendToConsole prompt fd buffer = Utility.sendLoop fd buffer.length buffer := by
  unfold takenForPrompt at h
  unfold Utility.sendToConsole
  rw [if_neg]
  rintro ⟨h1, h2⟩
  rw [h2, Bool.and_true, decide_eq_false_iff_not] at h
  exact h h1

theorem sendLoop_chunks (fd : Int) (fuel : Nat) (buf : Str) (h : buf.length ≤ fuel) :
    Utility.sendLoop fd fuel buf = (payloads (Utility.sendLoop fd fuel buf)).map (Event.send fd) ∧
    (payloads (Utility.sendLoop fd fuel buf)).length = (buf.length + 511) / 512 ∧
    (payloads (Utility.sendLoop fd fuel buf)).flatten = buf ∧
    (∀ p ∈ payloads (Utility.sendLoop fd fuel buf), p.length ≤ 512) ∧
    (∀ p ∈ (payloads (Utility.sendLoop fd fuel buf)).dropLast, p.length = 512) := by
  induction fuel generalizing buf with
  | zero =>
    have : buf = [] := List.length_eq_zero.1 (Nat.le_zero.1 h)
    subst this
    exact ⟨rfl, rfl, rfl, fun p hp => absurd hp (List.not_mem_nil _),
      fun p hp => absurd hp (List.not_mem_nil _)⟩
  | succ fuel ih =>
    cases buf with
    | nil =>
      exact ⟨rfl, rfl, rfl, fun p hp => absurd hp (List.not_mem_nil _),
        fun p hp => absurd hp (List.not_mem_nil _)⟩
    | cons c cs =>
      have hdl : ((c :: cs).drop SEND_BUFSIZ).length = (c :: cs).length - 512 :=
        List.length_drop _ _
      have hle : ((c :: cs).drop SEND_BUFSIZ).length ≤ fuel := by
        rw [hdl]
        simp only [List.length_cons] at h ⊢
        omega
      obtain ⟨i1, i2, i3, i4, i5⟩ := ih _ hle
      have hpay : payloads (Utility.sendLoop fd (fuel + 1) (c :: cs)) =
          (c :: cs).take SEND_BUFSIZ ::
            payloads (Utility.sendLoop fd fuel ((c :: cs).drop SEND_BUFSIZ)) := rfl
      have hloop : Utility.sendLoop fd (fuel + 1) (c :: cs) =
          Event.send fd ((c :: cs).take SEND_BUFSIZ) ::
            Utility.sendLoop fd fuel ((c :: cs).drop SEND_BUFSIZ) := rfl
      have htl : ((c :: cs).take SEND_BUFSIZ).length = min 512 (c :: cs).length :=
        List.length_take _ _
      refine ⟨?_, ?_, ?_, ?_, ?_⟩
      · rw [hpay, List.map_cons, ← i1, hloop]
      · rw [hpay, List.length_cons, i2, hdl]
        simp only [List.length_cons]
        omega
      · rw [hpay, List.flatten_cons, i3]
        exact List.take_append_drop _ _
      · intro p hp
        rw [hpay] at hp
        rcases List.mem_cons.1 hp with hp | hp
        · rw [hp, htl]
          omega
        · exact i4 p hp
      · intro p hp
        rw [hpay] at hp
        cases hrest : payloads (Utility.sendLoop fd fuel ((c :: cs).drop SEND_BUFSIZ)) with
        | nil =>
          rw [hrest] at hp
          exact absurd hp (List.not_mem_nil _)
        | cons x xs =>
          rw [hrest, List.dropLast_cons₂] at hp
          rcases List.mem_cons.1 hp with hp | hp
          · have hpos : 0 < ((c :: cs).drop SEND_BUFSIZ).length := by
              rw [hrest, List.length_cons] at i2
              omega
            rw [hp, htl]
            rw [hdl] at hpos
            omega
          · rw [hrest] at i5
            exact i5 p hp

/-- C24, as stated, fails for one kind of prompt: with the prompt set to the
three bytes `>`, NUL, `x`, the buffer `>`, NUL, `y` of the same length is not
equal to the prompt, yet `strncmp` stops at the NUL and takes it for the
prompt: nothing is sent, where one send of three bytes is claimed. -/
theorem C24_guard_stops_at_NUL :
    ['>', NUL, 'y'] ≠ ['>', NUL, 'x'] ∧
      Utility.sendToConsole ['>', NUL, 'x'] 7 ['>', NUL, 'y'] = [] ∧
      Utility.sendToConsoleRet ['>', NUL, 'x'] ['>', NUL, 'y'] [3] = 0 := by
  decide

/-- C24, amended: `sendToConsole(fd, buffer, length)` sends nothing and
returns 0 when the buffer has the length of the prompt and `strncmp` over
that length finds it equal to the prompt, which is the case when the buffer
is byte-for-byte the prompt, and only then when the prompt or the buffer has
no NUL byte.  For every other buffer it issues exactly `ceil(length / 512)`
sends to `fd` and nothing else, each of at most 512 bytes and all but the
last of exactly 512, whose payloads concatenated in order are the buffer
(no send for length 0). -/
theorem C24_sendToConsole_sends (prompt : Str) (fd : Int) (buffer : Str) (results : List Int) :
    (buffer = prompt → takenForPrompt prompt buffer = true) ∧
    ((NUL ∉ prompt ∨ NUL ∉ buffer) → (takenForPrompt prompt buffer = true ↔ buffer = prompt)) ∧
    (takenForPrompt prompt buffer = true →
      Utility.sendToConsole prompt fd buffer = [] ∧
        Utility.sendToConsoleRet prompt buffer results = 0) ∧
    (takenForPrompt prompt buffer = false →
      Utility.sendToConsole prompt fd buffer =
        (payloads (Utility.sendToConsole prompt fd buffer)).map (Event.send fd) ∧
      (payloads (Utility.sendToConsole prompt fd buffer)).length = (buffer.length + 511) / 512 ∧
      (payloads (Utility.sendToConsole prompt fd buffer)).flatten = buffer ∧
      (∀ p ∈ payloads (Utility.sendToConsole prompt fd buffer), p.length ≤ 512) ∧
      (∀ p ∈ (payloads (Utility.sendToConsole prompt fd buffer)).dropLast, p.length = 512)) := by
  refine ⟨?_, takenForPrompt_iff prompt buffer, sendToConsole_taken prompt fd buffer results, ?_⟩
  · intro e
    rw [e]
    exact takenForPrompt_self prompt
  · intro h
    rw [sendToConsole_not_taken prompt fd buffer h]
    exact sendLoop_chunks fd buffer.length buffer (Nat.le_refl _)

set_option maxRecDepth 8192 in
theorem C24_sendToConsole_sends_witness :
    (payloads (Utility.sendToConsole PROMPT 7 (List.replicate 1025 'a'))).length = 3 ∧
      (payloads (Utility.sendToConsole PROMPT 7 (List.replicate 1025 'a'))).flatten =
        List.replicate 1025 'a' :=
  ⟨((C24_sendToConsole_sends PROMPT 7 (List.replicate 1025 'a') []).2.2.2 (by decide)).2.1.trans
      (by decide),
    ((C24_sendToConsole_sends PROMPT 7 (List.replicate 1025 'a') []).2.2.2 (by decide)).2.2.1⟩

/-! ## Theorems: interrupted receives -/

set_option maxRecDepth 16384 in
/-- C22 fails on the code: an interrupted `recv` runs `continue`, which
still counts the round.  With one interruption before "abcdef", `readBytes`
with `maxlen = 6` stores only "abcde", leaves the sixth cell as it was and `f`
on the socket, where the stream without the interruption fills the six
cells.  With one interruption before "a\n", `readline` with `maxlen = 3`
returns 2 and leaves the newline on the socket, where the stream without the
interruption gives 1 and consumes the newline.  Through `parseCommand`, one
interruption before "fps on\n" makes the dispatcher see "fps o", the stale
sixth cell of the buffer (here `x`) and "n": the handler of `fps` is called
with "oxn", not the handler of its sub-command `on`. -/
theorem C22_interruption_uses_budget :
    (readBytes (Recv.eintr :: delivered "abcdef".toList) (List.replicate 6 'x') 6 =
        ⟨6, true, "abcdex".toList, [Recv.byte 'f']⟩ ∧
      readBytes (withoutEintr (Recv.eintr :: delivered "abcdef".toList))
          (List.replicate 6 'x') 6 = ⟨6, true, "abcdef".toList, []⟩) ∧
    (readline (Recv.eintr :: delivered "a\n".toList) (List.replicate 3 'x') 3 =
        ⟨2, false, ['a', NUL, 'x'], [Recv.byte '\n']⟩ ∧
      readline (withoutEintr (Recv.eintr :: delivered "a\n".toList)) (List.replicate 3 'x') 3 =
        ⟨1, false, ['a', '\n', NUL], []⟩) ∧
    ((parseCommand sampleEnv 7 (List.replicate 512 'x')
          (sampleWorld (Recv.eintr :: delivered "fps on\n".toList))).2.trace =
        [Event.call 0 7 "oxn".toList, Event.send 7 "> ".toList] ∧
      (parseCommand sampleEnv 7 (List.replicate 512 'x')
          (sampleWorld (withoutEintr (Recv.eintr :: delivered "fps on\n".toList)))).2.trace =
        [Event.call 1 7 "on".toList, Event.send 7 "> ".toList]) := by
  decide

/-! ## Theorems: the stop flag -/

theorem endThread_invoke (env : Env) (cb : Callback) (fd : Int) (args : Str) (w : World) :
    (invoke env cb fd args w).console.endThread = w.console.endThread := by
  cases cb with
  | commandExit => rfl
  | commandDebugMsg => rfl
  | commandDebugMsgSubCommandOnOff => rfl
  | commandHelp => rfl
  | commandUpload =>
    show (commandUpload env fd w).console.endThread = _
    rw [commandUpload_console]
  | commandVersion => rfl
  | host id => rfl

theorem endThread_commandGeneric (env : Env) (c : Command) (fd : Int) (args : Str) (w : World) :
    (c.commandGeneric env fd args w).console.endThread = w.console.endThread := by
  unfold Command.commandGeneric
  split
  · rfl
  · split
    · split
      · exact endThread_invoke env _ fd args w
      · rfl
    · split
      · exact endThread_invoke env _ fd args w
      · rfl

theorem endThread_performAll (env : Env) (fd : Int) (l : List Str) (w : World) :
    (performAll env fd l w).1.console.endThread = w.console.endThread := by
  induction l generalizing w with
  | nil => rfl
  | cons s l ih =>
    unfold performAll
    cases h : performCommand env fd (Utility.trim s) w with
    | ok w1 =>
      simp only
      rw [ih w1]
      unfold performCommand at h
      split at h
      · exact Except.noConfusion h
      · split at h
        · injection h with h
          rw [← h]
          exact endThread_commandGeneric env _ fd _ w
        · exact Except.noConfusion h
    | error msg => rfl

theorem endThread_runCmdLine (env : Env) (fd : Int) (cmdLine : Str) (w : World) :
    (runCmdLine env fd cmdLine w).console.endThread = w.console.endThread := by
  unfold runCmdLine
  simp only
  cases (performAll env fd (Utility.split cmdLine w.console.commandSeparator) w).2 with
  | some msg => exact endThread_performAll env fd _ w
  | none => exact endThread_performAll env fd _ w

theorem endThread_parseCommand (env : Env) (fd : Int) (buf0 : Str) (w : World) :
    (parseCommand env fd buf0 w).2.console.endThread = w.console.endThread := by
  unfold parseCommand
  simp only
  split
  · rfl
  · split
    · split
      · show (commandUpload env fd _).console.endThread = _
        rw [commandUpload_console]
        rfl
      · rfl
    · split
      · exact endThread_runCmdLine env fd _ _
      · split
        · rfl
        · exact endThread_runCmdLine env fd _ _

theorem endThread_removeClosed (to_remove : List Int) (w : World) :
    (removeClosed to_remove w).console.endThread = w.console.endThread := by
  induction to_remove generalizing w with
  | nil => rfl
  | cons fd rest ih => exact ih _

theorem endThread_addClient (accepted : Int) (w : World) :
    (addClient accepted w).console.endThread = w.console.endThread := by
  unfold addClient
  split <;> rfl

theorem endThread_loopClients (env : Env) (os : Ready) (fds : List Int) (nready : Int)
    (to_remove : List Int) (w : World) :
    (loopClients env os fds nready to_remove w).2.console.endThread = w.console.endThread := by
  induction fds generalizing nready to_remove w with
  | nil => rfl
  | cons fd rest ih =>
    unfold loopClients
    split
    · split
      · rfl
      · split
        · exact ih _ _ _
        · split
          · exact endThread_parseCommand env fd os.buf0 w
          · rw [ih]
            exact endThread_parseCommand env fd os.buf0 w
    · exact ih _ _ _

theorem endThread_flushDebugStrings (lockFree : Bool) (w : World) :
    (flushDebugStrings lockFree w).console.endThread = w.console.endThread := by
  unfold flushDebugStrings
  split
  · rfl
  · split <;> rfl

theorem endThread_loopIteration (env : Env) (os : Ready) (w : World) :
    (loopIteration env os w).console.endThread = w.console.endThread := by
  unfold loopIteration
  split
  · rfl
  · split
    · exact endThread_flushDebugStrings _ w
    · split
      · split
        · exact endThread_addClient _ w
        · rw [endThread_flushDebugStrings, endThread_removeClosed, endThread_loopClients,
            endThread_addClient]
      · rw [endThread_flushDebugStrings, endThread_removeClosed, endThread_loopClients]

theorem endThread_runOps (env : Env) (ops : List LoopOp) (w : World) :
    (runOps env ops w).console.endThread = w.console.endThread := by
  induction ops generalizing w with
  | nil => rfl
  | cons op rest ih =>
    rw [runOps, ih]
    cases op with
    | accept fd => exact endThread_addClient fd w
    | evict to_remove => exact endThread_removeClosed to_remove w
    | exit fd => rfl
    | round os => exact endThread_loopIteration env os w

theorem stop_sets_endThread (ops : List LoopOp) (env : Env) (w : World)
    (hrun : w.console.running = true) :
    (stop true (runOps env ops) w).console.endThread = true := by
  unfold stop
  rw [if_pos hrun, if_pos rfl]
  show (runOps env ops _).console.endThread = true
  rw [endThread_runOps]

theorem loop_zero_rounds (env : Env) (rounds : List Ready) (w : World)
    (h : w.console.endThread = true) :
    loop env rounds w = some (loopShutdown (loopStart w)) := by
  have hs : (loopStart w).console.endThread = true := h
  unfold loop
  cases rounds with
  | nil => rw [loopRounds, if_pos hs]; rfl
  | cons os rest => rw [loopRounds, if_pos hs]; rfl

theorem endThread_stop_id (joinable : Bool) (w : World) (he : w.console.endThread = true) :
    (stop joinable (fun x => x) w).console.endThread = true := by
  unfold stop
  split
  · split
    · rfl
    · rfl
  · exact he

theorem endThread_log (s : Console) (buf : Str) : (s.log buf).endThread = s.endThread := by
  unfold Console.log
  split <;> rfl

theorem running_log (s : Console) (buf : Str) : (s.log buf).running = s.running := by
  unfold Console.log
  split <;> rfl

theorem endThread_delCommand (s : Console) (cmdName : Str) :
    (s.delCommand cmdName).endThread = s.endThread := by
  unfold Console.delCommand
  split <;> rfl

theorem running_delCommand (s : Console) (cmdName : Str) :
    (s.delCommand cmdName).running = s.running := by
  unfold Console.delCommand
  split <;> rfl

theorem listen_cases (fd : Int) (h : Host) :
    (h.world.console.running = true ∧ listenOnFileDescriptor fd h = some (false, h)) ∨
    (h.world.console.running = false ∧ h.joinable = true ∧ listenOnFileDescriptor fd h = none) ∨
    (h.world.console.running = false ∧ h.joinable = false ∧
      listenOnFileDescriptor fd h = some (true,
        ⟨{ h.world with console := { h.world.console with listenfd := fd } }, true⟩)) := by
  unfold listenOnFileDescriptor
  cases hr : h.world.console.running with
  | true => exact Or.inl ⟨rfl, rfl⟩
  | false =>
    cases hj : h.joinable with
    | true => exact Or.inr (Or.inl ⟨rfl, rfl, rfl⟩)
    | false => exact Or.inr (Or.inr ⟨rfl, rfl, rfl⟩)

theorem apiOp_endThread (env : Env) (op : ApiOp) (h s : Host)
    (he : h.world.console.endThread = true) (hrun : op.run env h = Outcome.ok s) :
    s.world.console.endThread = true := by
  cases op with
  | log buf =>
    injection hrun with hrun
    rw [← hrun]
    exact (endThread_log _ _).trans he
  | setPrompt prompt => injection hrun with hrun; rw [← hrun]; exact he
  | setBindAddress address => injection hrun with hrun; rw [← hrun]; exact he
  | addCommand cmd => injection hrun with hrun; rw [← hrun]; exact he
  | addSubCommand cmdName subCmd => injection hrun with hrun; rw [← hrun]; exact he
  | delCommand cmdName =>
    injection hrun with hrun
    rw [← hrun]
    exact (endThread_delCommand _ _).trans he
  | delSubCommand cmdName subCmdName => injection hrun with hrun; rw [← hrun]; exact he
  | listen fd rounds =>
    rw [ApiOp.run] at hrun
    rcases listen_cases fd h with ⟨_, hl⟩ | ⟨_, _, hl⟩ | ⟨_, _, hl⟩
    · rw [hl] at hrun
      injection hrun with hrun
      rw [← hrun]
      exact he
    · rw [hl] at hrun
      exact Outcome.noConfusion hrun
    · rw [hl] at hrun
      simp only at hrun
      rw [loop_zero_rounds env rounds
        { h.world with console := { h.world.console with listenfd := fd } } he] at hrun
      injection hrun with hrun
      rw [← hrun]
      exact he
  | stop =>
    injection hrun with hrun
    rw [← hrun]
    exact endThread_stop_id _ _ he

theorem runApi_endThread (env : Env) (calls : List ApiOp) (h s : Host)
    (he : h.world.console.endThread = true) (hrun : runApi env calls h = Outcome.ok s) :
    s.world.console.endThread = true := by
  induction calls generalizing h with
  | nil =>
    injection hrun with hrun
    rw [← hrun]
    exact he
  | cons op rest ih =>
    rw [runApi] at hrun
    cases hop : op.run env h with
    | ok h1 =>
      rw [hop] at hrun
      exact ih h1 (apiOp_endThread env op h h1 he hop) hrun
    | terminated => rw [hop] at hrun; exact Outcome.noConfusion hrun
    | inLoop => rw [hop] at hrun; exact Outcome.noConfusion hrun

theorem apiOp_quiet (env : Env) (op : ApiOp) (h : Host) (hop : op.isListen = false)
    (hr : h.world.console.running = false) (hj : h.joinable = false) :
    ∃ s, op.run env h = Outcome.ok s ∧ s.world.console.running = false ∧
      s.joinable = false := by
  cases op with
  | log buf => exact ⟨_, rfl, (running_log _ _).trans hr, hj⟩
  | setPrompt prompt => exact ⟨_, rfl, hr, hj⟩
  | setBindAddress address => exact ⟨_, rfl, hr, hj⟩
  | addCommand cmd => exact ⟨_, rfl, hr, hj⟩
  | addSubCommand cmdName subCmd => exact ⟨_, rfl, hr, hj⟩
  | delCommand cmdName => exact ⟨_, rfl, (running_delCommand _ _).trans hr, hj⟩
  | delSubCommand cmdName subCmdName => exact ⟨_, rfl, hr, hj⟩
  | listen fd rounds => exact Bool.noConfusion hop
  | stop =>
    refine ⟨Host.stop (fun x => x) h, rfl, ?_, ?_⟩
    · show (stop h.joinable (fun x => x) h.world).console.running = false
      rw [stop_of_not_running _ _ _ hr]
      exact hr
    · show (if h.world.console.running = true then false else h.joinable) = false
      rw [hr]
      exact hj

theorem runApi_quiet (env : Env) (calls : List ApiOp) (h : Host)
    (hcalls : calls.all (fun op => !op.isListen) = true)
    (hr : h.world.console.running = false) (hj : h.joinable = false) :
    ∃ s, runApi env calls h = Outcome.ok s ∧ s.world.console.running = false ∧
      s.joinable = false := by
  induction calls generalizing h with
  | nil => exact ⟨h, rfl, hr, hj⟩
  | cons op rest ih =>
    rw [List.all_cons, Bool.and_eq_true] at hcalls
    have hop : op.isListen = false := by
      cases hb : op.isListen with
      | false => rfl
      | true => rw [hb] at hcalls; exact Bool.noConfusion hcalls.1
    obtain ⟨h1, e1, r1, j1⟩ := apiOp_quiet env op h hop hr hj
    obtain ⟨s, e2, r2, j2⟩ := ih h1 hcalls.2 r1 j1
    exact ⟨s, by rw [runApi, e1]; exact e2, r2, j2⟩

theorem host_stop_joined (env : Env) (ops : List LoopOp) (w : World)
    (hrun : w.console.running = true) :
    (Host.stop (runOps env ops) ⟨w, true⟩).world.console.endThread = true ∧
    (Host.stop (runOps env ops) ⟨w, true⟩).world.console.running = false ∧
    (Host.stop (runOps env ops) ⟨w, true⟩).joinable = false := by
  refine ⟨stop_sets_endThread ops env w hrun, stop_joined_not_running _ w, ?_⟩
  show (if w.console.running = true then false else true) = false
  rw [if_pos hrun]

/-- C25, as stated, fails: after a `stop()` that joined the running loop, a
`listenOnFileDescriptor(4)` returns true and its loop thread runs no round
and ends; nobody joins that thread (`stop()` finds `_running` clear).  In the
state so reached, which is a state after a listen followed by a completed
`stop()`, a later `listenOnFileDescriptor(5)` does not return true: the
assignment to the still joinable `_thread` terminates the process. -/
theorem C25_second_listen_terminates :
    (runApi sampleEnv [ApiOp.stop, ApiOp.listen 4 [acceptRound]] runningHost).isTerminated =
        false ∧
      (runApi sampleEnv [ApiOp.stop, ApiOp.listen 4 [acceptRound], ApiOp.stop,
        ApiOp.listen 5 [acceptRound]] runningHost).isTerminated = true := by
  constructor <;> rfl

/-- C25, amended: nothing clears `_endThread` once `stop()` has set it: after
a `stop()` that found the loop running and joined its thread (whatever the
thread still did before it left the loop), the flag is set in every state
that further calls of the host reach.  So the next
`listenOnFileDescriptor(fd)` after that `stop()`, whatever registry
operations, `log` calls, setter calls and `stop()` calls come in between,
returns true, and the loop thread it starts runs no round, whatever the
operating system would report: it accepts and serves nobody, all it does is
the clean-up, which closes `fd` (and the handles left in `_fds`) and clears
`_running`. -/
theorem C25_stop_flag_stays (env : Env) (w : World) (ops : List LoopOp) (calls : List ApiOp)
    (fd : Int) (rounds : List Ready) (hrun : w.console.running = true) :
    (∀ s, runApi env calls (Host.stop (runOps env ops) ⟨w, true⟩) = Outcome.ok s →
      s.world.console.endThread = true) ∧
    (calls.all (fun op => !op.isListen) = true →
      ∃ s, runApi env calls (Host.stop (runOps env ops) ⟨w, true⟩) = Outcome.ok s ∧
        ∃ s1, listenOnFileDescriptor fd s = some (true, s1) ∧
          s1.world.console.listenfd = fd ∧
          loop env rounds s1.world = some (loopShutdown (loopStart s1.world)) ∧
          (loopShutdown (loopStart s1.world)).trace =
            s.world.trace ++ closeAll s.world.console.fds ++ [Event.close fd] ∧
          (loopShutdown (loopStart s1.world)).console.running = false ∧
          (loopShutdown (loopStart s1.world)).console.endThread = true) := by
  obtain ⟨he, hr, hj⟩ := host_stop_joined env ops w hrun
  refine ⟨fun s hs => runApi_endThread env calls _ s he hs, ?_⟩
  intro hcalls
  obtain ⟨s, hs, hrs, hjs⟩ := runApi_quiet env calls _ hcalls hr hj
  have hes := runApi_endThread env calls _ s he hs
  rcases listen_cases fd s with ⟨h1, _⟩ | ⟨_, h2, _⟩ | ⟨_, _, hl⟩
  · rw [hrs] at h1
    exact Bool.noConfusion h1
  · rw [hjs] at h2
    exact Bool.noConfusion h2
  · exact ⟨s, hs, _, hl, rfl, loop_zero_rounds env rounds _ hes, rfl, rfl, hes⟩

theorem C25_stop_flag_stays_witness :
    ∃ s, runApi sampleEnv [ApiOp.log "hello".toList, ApiOp.stop]
        (Host.stop (runOps sampleEnv [LoopOp.round closedPeerRound]) ⟨sampleWorld [], true⟩) =
          Outcome.ok s ∧
      ∃ s1, listenOnFileDescriptor 5 s = some (true, s1) ∧
        s1.world.console.listenfd = 5 ∧
        loop sampleEnv [acceptRound] s1.world = some (loopShutdown (loopStart s1.world)) ∧
        (loopShutdown (loopStart s1.world)).trace =
          s.world.trace ++ closeAll s.world.console.fds ++ [Event.close 5] ∧
        (loopShutdown (loopStart s1.world)).console.running = false ∧
        (loopShutdown (loopStart s1.world)).console.endThread = true :=
  (C25_stop_flag_stays sampleEnv (sampleWorld []) [LoopOp.round closedPeerRound]
    [ApiOp.log "hello".toList, ApiOp.stop] 5 [acceptRound] rfl).2 rfl

/-! ## Theorems: a line with a statement that cannot be dispatched -/

end Axmol
